import Mathlib

/-!
# Acceleration events (`kernel/acceleration.c`)

A shallow embedding of the motion-event system calls of
`flo-kernel/kernel/acceleration.c` and `include/linux/acceleration.h`.

* C `int` / `unsigned int` values are mathematical integers; every operation
  that can leave the 32-bit range is followed by an explicit reduction
  (`toInt32`, `toUInt32`).
* C arrays are lists of optional cells: `none` is a cell that has not been
  written yet.  Reading such a cell, or indexing outside the array, makes the
  embedded function return `none`.
* Events live in a heap of `kmalloc` cells addressed by their index; the
  registry `event_list` is a list of such addresses.
* The system calls are split at the points where they touch shared state, and
  a scheduler interleaves these atomic steps (`step`).  The same steps run
  without interference give the sequential calls `accevt_create`,
  `accevt_signal`, `accevt_wait` and `accevt_destroy`.
* `sys_set_acceleration` only stores into `dev_acc`, which nothing else
  reads; it is left out.
-/

namespace Accel

/-! ## Constants -/

/-- The constant `WINDOW` (`#define WINDOW 20`). -/
def WINDOW : Nat := 20
/-- The constant `WINDOW_POW2` (`#define WINDOW_POW2 32`), the size of the fifo. -/
def WINDOW_POW2 : Nat := 32
/-- The constant `NOISE` (`#define NOISE 2`). -/
def NOISE : Nat := 2

/-- Kernel errno values used by the system calls. -/
def EIO : Int := 5
def EAGAIN : Int := 11
def ENOMEM : Int := 12
def EFAULT : Int := 14
def EINVAL : Int := 22
def ERESTARTSYS : Int := 512

/-- Largest value of a C `int`. -/
def INT_MAX : Int := 2147483647
/-- Smallest value of a C `int`. -/
def INT_MIN : Int := -2147483648

/-! ## 32-bit machine integers -/

/-- Reduction of a mathematical integer to the value of a C `int`
(two's complement, 32 bits). -/
def toInt32 (v : Int) : Int := (v + 2147483648) % 4294967296 - 2147483648

/-- Conversion of an integer to a C `unsigned int` (reduction modulo 2^32). -/
def toUInt32 (v : Int) : Nat := (v % 4294967296).toNat

/-- The value is representable as a C `int`. -/
def isInt32 (v : Int) : Prop := INT_MIN ≤ v ∧ v ≤ INT_MAX

instance (v : Int) : Decidable (isInt32 v) := by
  unfold isInt32; exact inferInstance

/-! ## Data model (`include/linux/acceleration.h`) -/

/-- The C type `struct dev_acceleration`. -/
structure dev_acceleration where
  x : Int
  y : Int
  z : Int
deriving DecidableEq

/-- The C type `struct acc_motion`. -/
structure acc_motion where
  dlt_x : Nat
  dlt_y : Nat
  dlt_z : Nat
  frq : Nat
deriving DecidableEq

/-- The C type `struct acc_delta`. -/
structure acc_delta where
  dlt_x : Nat
  dlt_y : Nat
  dlt_z : Nat
  noise : Bool
deriving DecidableEq

/-- The C type `struct acc_event` without its wait queue and list node: blocked callers
are threads of the scheduler model, list membership is `event_list`. -/
structure acc_event where
  event_id : Int
  state : Int
  nr : Int
  acc : acc_motion
deriving DecidableEq

/-- All three coordinates of a sample are C `int` values. -/
def dev_acceleration.valid (a : dev_acceleration) : Prop :=
  isInt32 a.x ∧ isInt32 a.y ∧ isInt32 a.z

instance (a : dev_acceleration) : Decidable a.valid := by
  unfold dev_acceleration.valid; exact inferInstance

/-! ## C arrays -/

/-- A C array; `none` marks a cell that was never written. -/
abbrev CArray (α : Type) := List (Option α)

/-- Read `a[i]`; fails outside the array and on a cell never written. -/
def aget {α : Type} (a : CArray α) (i : Nat) : Option α := a.getD i none

/-- Write `a[i] = v`; fails outside the array. -/
def aset {α : Type} (a : CArray α) (i : Nat) (v : α) : Option (CArray α) :=
  if i < a.length then some (a.set i (some v)) else none

/-- An array of `n` cells, none of them written (a fresh stack array). -/
def uninit (α : Type) (n : Nat) : CArray α := List.replicate n none

/-! ## Delta engine -/

/-- The function `abs_diff`: `x > y ? x - y : y - x`, computed in `int`. -/
def abs_diff (x y : Int) : Int :=
  if x > y then toInt32 (x - y) else toInt32 (y - x)

/-- The body of the loop of `calc_deltas` for one pair of adjacent samples:
the three `abs_diff` results are stored into `unsigned int` fields, their
sum is formed in `unsigned int` and compared with `NOISE * 100`. -/
def calc_delta (a b : dev_acceleration) : acc_delta :=
  let dlt_x := toUInt32 (abs_diff a.x b.x)
  let dlt_y := toUInt32 (abs_diff a.y b.y)
  let dlt_z := toUInt32 (abs_diff a.z b.z)
  { dlt_x := dlt_x, dlt_y := dlt_y, dlt_z := dlt_z,
    noise := decide ((dlt_x + dlt_y + dlt_z) % 4294967296 > NOISE * 100) }

/-- The loop `for (i = ...; i < len - 1; i++)` of `calc_deltas`, with `k`
iterations left to run and the loop variable at `i`. -/
def calc_deltas_loop (acc_data : CArray dev_acceleration) :
    Nat → Nat → CArray acc_delta → Option (CArray acc_delta)
  | 0, _, deltas => some deltas
  | k + 1, i, deltas => do
      let a ← aget acc_data i
      let b ← aget acc_data (i + 1)
      let deltas ← aset deltas i (calc_delta a b)
      calc_deltas_loop acc_data k (i + 1) deltas

/-- The function `calc_deltas(acc_data, deltas, len)`: the loop runs for `i = 0 .. len - 2`. -/
def calc_deltas (acc_data : CArray dev_acceleration) (deltas : CArray acc_delta)
    (len : Int) : Option (CArray acc_delta) :=
  calc_deltas_loop acc_data (len - 1).toNat 0 deltas

/-- The test of the loop body of `test_event`. -/
def delta_matches (acc : acc_motion) (d : acc_delta) : Bool :=
  d.noise == true && decide (d.dlt_x ≥ acc.dlt_x) && decide (d.dlt_y ≥ acc.dlt_y)
    && decide (d.dlt_z ≥ acc.dlt_z)

/-- The loop of `test_event`, with `k` iterations left, the loop variable at
`i` and the `int` counter at `frq`. -/
def test_event_loop (acc_evt : acc_event) (deltas : CArray acc_delta) :
    Nat → Nat → Int → Option Int
  | 0, _, frq => some frq
  | k + 1, i, frq => do
      let d ← aget deltas i
      test_event_loop acc_evt deltas k (i + 1)
        (if delta_matches acc_evt.acc d then toInt32 (frq + 1) else frq)

/-- The function `test_event(acc_evt, deltas, len)`: 1 if the event is triggered, else 0.
The final comparison is between `int frq` and `unsigned int acc.frq`, hence
unsigned. -/
def test_event (acc_evt : acc_event) (deltas : CArray acc_delta) (len : Int) :
    Option Int := do
  let frq ← test_event_loop acc_evt deltas (len - 1).toNat 0 0
  if toUInt32 frq ≥ acc_evt.acc.frq then some 1 else some 0

/-! ## Sample buffer -/

/-- Modelled from the spec: the kernel `kfifo` behind `acc_buffer`
(`linux/kfifo.h` is not among the sources).  A fifo is the list of its
elements, oldest first; `kfifo_len` is the number of stored elements. -/
def kfifo_len (fifo : List dev_acceleration) : Int := fifo.length

/-- Modelled from the spec: `kfifo_skip` drops the oldest element. -/
def kfifo_skip (fifo : List dev_acceleration) : List dev_acceleration := fifo.drop 1

/-- Modelled from the spec: `kfifo_put` appends one element unless the fifo
already holds `size` elements, in which case nothing is stored. -/
def kfifo_put (size : Nat) (fifo : List dev_acceleration) (val : dev_acceleration) :
    List dev_acceleration :=
  if fifo.length < size then fifo ++ [val] else fifo

/-- Modelled from the spec: `kfifo_out_peek(fifo, buf, n)` copies the oldest
`min n len` elements into `buf[0 ..]` without removing them and returns how
many it copied. -/
def kfifo_out_peek (fifo : List dev_acceleration) (buf : CArray dev_acceleration) (n : Nat) :
    CArray dev_acceleration × Nat :=
  let m := min n fifo.length
  ((fifo.take m).map some ++ buf.drop m, m)

/-! ## Kernel state -/

/-- A `kmalloc` object holding an `acc_event`; `freed` is set by `kfree`. -/
structure Cell where
  ev : acc_event
  freed : Bool
deriving DecidableEq

/-- The global variables of `acceleration.c`: the objects allocated so far
(an address is an index into `heap`), the list `event_list` (head first), the
counter `last_event_id` and the fifo `acc_buffer`. -/
structure KState where
  heap : List Cell
  event_list : List Nat
  last_event_id : Int
  acc_buffer : List dev_acceleration
deriving DecidableEq

/-- An event with every field zero. -/
def zero_event : acc_event := ⟨0, 0, 0, ⟨0, 0, 0, 0⟩⟩

/-- The object `*p`. -/
def KState.deref (s : KState) (p : Nat) : acc_event := (s.heap.getD p ⟨zero_event, true⟩).ev

/-- The object at `p` has been released (or `p` was never allocated). -/
def KState.is_freed (s : KState) (p : Nat) : Bool := (s.heap.getD p ⟨zero_event, true⟩).freed

/-- The assignment `*p = ev`. -/
def KState.store (s : KState) (p : Nat) (ev : acc_event) : KState :=
  { s with heap := s.heap.set p ⟨ev, s.is_freed p⟩ }

/-- A successful `kmalloc` that returns memory never used before: a new
object at a fresh address.  The fields of the new object start at zero;
`accevt_create` writes all of them before publishing it.

With this allocation alone an address stands for one allocation: a released
object keeps its address and its last contents, and an access to it stays
visible as an access to a released object.  The kernel allocator may also hand
a released object out again; that is `kmalloc_reuse`. -/
def kmalloc (s : KState) : KState × Nat :=
  ({ s with heap := s.heap ++ [⟨zero_event, false⟩] }, s.heap.length)

/-- A successful `kmalloc` that hands out again the released object at address
`a`; `none` when `a` is not a released object.  The memory is not cleared: it
holds what the previous owner left, and whoever still has the old pointer
reads and writes the new owner's object. -/
def kmalloc_reuse (s : KState) (a : Nat) : Option (KState × Nat) :=
  if a < s.heap.length ∧ s.is_freed a = true then
    some ({ s with heap := s.heap.set a ⟨s.deref a, false⟩ }, a)
  else none

/-- The call `kfree(p)`. -/
def kfree (s : KState) (p : Nat) : KState :=
  { s with heap := s.heap.set p ⟨s.deref p, true⟩ }

/-- The function `find_event`: the first event of `event_list` with the given id. -/
def find_event (s : KState) (event_id : Int) : Option Nat :=
  s.event_list.find? (fun p => (s.deref p).event_id == event_id)

/-- The state at boot: nothing allocated, empty list, `last_event_id = 0`,
empty fifo. -/
def KState.init : KState := ⟨[], [], 0, []⟩

/-! ## The system calls, split into atomic steps -/

/-- A user-space pointer argument: `NULL`, a pointer `copy_from_user` cannot
read, or a pointer to a readable value. -/
inductive UserPtr (α : Type) where
  | null
  | bad
  | valid (v : α)
deriving DecidableEq

/-- Program points of a caller inside a system call, with its local variables. -/
inductive Pc where
  /-- In `accevt_create`, line 140; `kmalloc_ok` tells whether the allocation succeeds. -/
  | create_entry (acceleration : UserPtr acc_motion) (kmalloc_ok : Bool)
  /-- In `accevt_create`, line 152 (`find_event` without the lock). -/
  | create_check (user_acc : acc_motion) (acc_evt : Nat) (event_id : Int)
  /-- In `accevt_create`, line 155. -/
  | create_init (user_acc : acc_motion) (acc_evt : Nat) (event_id : Int)
  /-- In `accevt_create`, line 167, after `event_list_lock` has been dropped. -/
  | create_ret (acc_evt : Nat)
  /-- In `accevt_wait`, line 181. -/
  | wait_entry (event_id : Int)
  /-- In `accevt_wait`, line 191. -/
  | wait_inc (acc_evt : Nat)
  /-- In `accevt_wait`, line 192, inside `wait_event_interruptible`. -/
  | wait_sleep (acc_evt : Nat)
  /-- In `accevt_wait`, line 195. -/
  | wait_dec (acc_evt : Nat) (res : Int)
  /-- In `accevt_wait`, line 198. -/
  | wait_exit (acc_evt : Nat) (res : Int)
  /-- In `accevt_signal`, line 221. -/
  | signal_entry (acceleration : UserPtr dev_acceleration)
  /-- In `accevt_signal`, line 247. -/
  | signal_scan (deltas : CArray acc_delta) (len : Int)
  /-- In `accevt_destroy`, line 271. -/
  | destroy_entry (event_id : Int)
  /-- In `accevt_destroy`, line 282. -/
  | destroy_retire (acc_evt : Nat)
  /-- In `accevt_destroy`, line 286, inside `wait_event_interruptible`. -/
  | destroy_sleep (acc_evt : Nat)
  /-- In `accevt_destroy`, line 292. -/
  | destroy_free (acc_evt : Nat)
  /-- The call has returned `v`. -/
  | ret (v : Int)
deriving DecidableEq

/-- Lines 230-235 of `accevt_signal`: drop the oldest sample when the fifo
already holds `WINDOW + 1`, then store the new one. -/
def signal_push (fifo : List dev_acceleration) (kacceleration : dev_acceleration) :
    List dev_acceleration :=
  let len := kfifo_len fifo
  let fifo := if len = WINDOW + 1 then kfifo_skip fifo else fifo
  kfifo_put WINDOW_POW2 fifo kacceleration

/-- Line 237 of `accevt_signal`: the copy of the fifo taken into the fresh
array `acc_data[WINDOW + 1]`, and the number of samples copied. -/
def signal_peek (fifo : List dev_acceleration) : CArray dev_acceleration × Nat :=
  kfifo_out_peek fifo (uninit dev_acceleration (WINDOW + 1)) (WINDOW + 1)

/-- Lines 248-255 of `accevt_signal`: the pass over `event_list`. -/
def signal_scan_loop (deltas : CArray acc_delta) (len : Int) : List Nat → KState → Option KState
  | [], s => some s
  | acc_evt :: rest, s => do
      let r ← test_event (s.deref acc_evt) deltas len
      signal_scan_loop deltas len rest
        (s.store acc_evt { s.deref acc_evt with state := if r ≠ 0 then 1 else 0 })

/-- One atomic step of a caller at program point `pc` in kernel state `s`.
`none`: the caller cannot move (it sleeps on a condition that is false, or it
has returned) or the step reads a cell that was never written.

The steps are cut where the code touches shared state: a section under a
spin lock is one step, an atomic operation is one step.  A caller inside
`wait_event_interruptible` moves on when it is scheduled with the condition
true; `wake_up` and `wake_up_all` change no data and are not steps of their
own.  The read `acc_evt->event_id` of line 167 comes after the unlock of line
165 and is a step of its own.  The code runs the `find_event` of line 152
without `event_list_lock`; here it is one read of the registry, the most
favourable reading of that line. -/
def run_pc (s : KState) : Pc → Option (KState × Pc)
  -- accevt_create, lines 140-151
  | .create_entry .null _ => some (s, .ret (-EINVAL))
  | .create_entry .bad _ => some (s, .ret (-EFAULT))
  | .create_entry (.valid user_acc) kmalloc_ok =>
      if kmalloc_ok then
        let (s, acc_evt) := kmalloc s
        let event_id := toInt32 (s.last_event_id + 1)
        some ({ s with last_event_id := event_id }, .create_check user_acc acc_evt event_id)
      else some (s, .ret (-ENOMEM))
  -- lines 152-153
  | .create_check user_acc acc_evt event_id =>
      if (find_event s event_id).isSome then some (s, .ret (-ENOMEM))
      else some (s, .create_init user_acc acc_evt event_id)
  -- lines 155-165
  | .create_init user_acc acc_evt event_id =>
      let s := s.store acc_evt
        { event_id := event_id, state := 0, nr := 0,
          acc := { user_acc with frq := if user_acc.frq > WINDOW then WINDOW else user_acc.frq } }
      let s := { s with event_list := acc_evt :: s.event_list }
      some (s, .create_ret acc_evt)
  -- line 167
  | .create_ret acc_evt => some (s, .ret (s.deref acc_evt).event_id)
  -- accevt_wait, lines 181-189
  | .wait_entry event_id =>
      match find_event s event_id with
      | none => some (s, .ret (-EINVAL))
      | some acc_evt => some (s, .wait_inc acc_evt)
  -- line 191
  | .wait_inc acc_evt =>
      some (s.store acc_evt { s.deref acc_evt with nr := toInt32 ((s.deref acc_evt).nr + 1) },
        .wait_sleep acc_evt)
  -- lines 192-193, woken with the condition true
  | .wait_sleep acc_evt =>
      if (s.deref acc_evt).state ≠ 0 then some (s, .wait_dec acc_evt 0) else none
  -- lines 195-196
  | .wait_dec acc_evt res =>
      some (s.store acc_evt { s.deref acc_evt with nr := toInt32 ((s.deref acc_evt).nr - 1) },
        .wait_exit acc_evt res)
  -- lines 198-204
  | .wait_exit acc_evt res =>
      if (s.deref acc_evt).state < 0 then some (s, .ret (-EAGAIN))
      else if res < 0 then some (s, .ret (-EAGAIN))
      else some (s, .ret 0)
  -- accevt_signal, lines 221-245
  | .signal_entry .null => some (s, .ret (-EINVAL))
  | .signal_entry .bad => some (s, .ret (-EFAULT))
  | .signal_entry (.valid kacceleration) =>
      let len := kfifo_len s.acc_buffer
      let s := { s with acc_buffer := signal_push s.acc_buffer kacceleration }
      let (acc_data, n) := signal_peek s.acc_buffer
      if n = 0 then some (s, .ret (- EIO))
      else do
        let deltas ←
          if len > 1 then calc_deltas acc_data (uninit acc_delta WINDOW) len
          else some (uninit acc_delta WINDOW)
        some (s, .signal_scan deltas len)
  -- lines 247-258
  | .signal_scan deltas len => do
      let s ← signal_scan_loop deltas len s.event_list s
      some (s, .ret 0)
  -- accevt_destroy, lines 271-280
  | .destroy_entry event_id =>
      match find_event s event_id with
      | none => some (s, .ret (-EINVAL))
      | some acc_evt =>
          some ({ s with event_list := s.event_list.erase acc_evt }, .destroy_retire acc_evt)
  -- lines 282-283
  | .destroy_retire acc_evt =>
      some (s.store acc_evt { s.deref acc_evt with state := -1 }, .destroy_sleep acc_evt)
  -- lines 286-290, woken with the condition true
  | .destroy_sleep acc_evt =>
      if (s.deref acc_evt).nr = 0 then some (s, .destroy_free acc_evt) else none
  -- lines 292-294
  | .destroy_free acc_evt => some (kfree s acc_evt, .ret 0)
  | .ret _ => none

/-- A signal is delivered to a caller: inside `wait_event_interruptible` with
the condition false the wait ends with `-ERESTARTSYS`; with the condition
true it ends normally.  Elsewhere these calls do not look at signals. -/
def intr_pc (s : KState) : Pc → Option (KState × Pc)
  | .wait_sleep acc_evt =>
      if (s.deref acc_evt).state ≠ 0 then some (s, .wait_dec acc_evt 0)
      else some (s, .wait_dec acc_evt (-ERESTARTSYS))
  | .destroy_sleep acc_evt =>
      if (s.deref acc_evt).nr = 0 then some (s, .destroy_free acc_evt)
      else some (s, .ret (-EAGAIN))
  | _ => none

/-- A caller running alone until it returns, for at most `fuel` steps. -/
def run_alone : Nat → KState → Pc → Option (KState × Int)
  | _, s, .ret v => some (s, v)
  | 0, _, _ => none
  | fuel + 1, s, pc =>
      match run_pc s pc with
      | none => none
      | some (s, pc) => run_alone fuel s pc

/-- The call `accevt_create` run without interference from other callers. -/
def accevt_create (s : KState) (acceleration : UserPtr acc_motion) (kmalloc_ok : Bool) :
    Option (KState × Int) :=
  run_alone 4 s (.create_entry acceleration kmalloc_ok)

/-- The call `accevt_signal` run without interference from other callers. -/
def accevt_signal (s : KState) (acceleration : UserPtr dev_acceleration) :
    Option (KState × Int) :=
  run_alone 2 s (.signal_entry acceleration)

/-- The call `accevt_wait` run without interference; `none` when it would sleep. -/
def accevt_wait (s : KState) (event_id : Int) : Option (KState × Int) :=
  run_alone 5 s (.wait_entry event_id)

/-- The call `accevt_destroy` run without interference; `none` when it would sleep. -/
def accevt_destroy (s : KState) (event_id : Int) : Option (KState × Int) :=
  run_alone 4 s (.destroy_entry event_id)

/-! ## Interleaving of callers -/

/-- The kernel state together with the callers currently inside (or back
from) a system call. -/
structure Sys where
  k : KState
  threads : List Pc
deriving DecidableEq

/-- The four system calls with their arguments. -/
inductive Call where
  | create (acceleration : UserPtr acc_motion) (kmalloc_ok : Bool)
  | wait (event_id : Int)
  | signal (acceleration : UserPtr dev_acceleration)
  | destroy (event_id : Int)
deriving DecidableEq

/-- The program point at which a call starts. -/
def Call.entry : Call → Pc
  | .create a ok => .create_entry a ok
  | .wait id => .wait_entry id
  | .signal a => .signal_entry a
  | .destroy id => .destroy_entry id

/-- What the scheduler can do next: let a new caller enter a system call, let
caller `t` perform its next atomic step, or deliver a signal to caller `t`. -/
inductive Action where
  | call (c : Call)
  | run (t : Nat)
  | intr (t : Nat)
deriving DecidableEq

/-- Replace the program point of caller `t` after it moved. -/
def Sys.moved (s : Sys) (t : Nat) (r : Option (KState × Pc)) : Option Sys :=
  r.map (fun r => ⟨r.1, s.threads.set t r.2⟩)

/-- One transition of the system. -/
def step (s : Sys) : Action → Option Sys
  | .call c => some { s with threads := s.threads ++ [c.entry] }
  | .run t =>
      match s.threads.get? t with
      | none => none
      | some pc => s.moved t (run_pc s.k pc)
  | .intr t =>
      match s.threads.get? t with
      | none => none
      | some pc => s.moved t (intr_pc s.k pc)

/-- Run a schedule. -/
def exec : Sys → List Action → Option Sys
  | s, [] => some s
  | s, a :: rest =>
      match step s a with
      | none => none
      | some s => exec s rest

/-- The system at boot. -/
def Sys.init : Sys := ⟨KState.init, []⟩

/-- States the system can be in after some schedule from boot, every
`kmalloc` returning memory never used before. -/
def Reachable (s : Sys) : Prop := ∃ sched, exec Sys.init sched = some s

/-! ## Reuse of released memory -/

/-- Lines 140-151 of `accevt_create` when `kmalloc` hands out again the
released object at address `a`. -/
def run_pc_reuse (s : KState) (a : Nat) : Pc → Option (KState × Pc)
  | .create_entry (.valid user_acc) true =>
      match kmalloc_reuse s a with
      | none => none
      | some (s, acc_evt) =>
          let event_id := toInt32 (s.last_event_id + 1)
          some ({ s with last_event_id := event_id }, .create_check user_acc acc_evt event_id)
  | _ => none

/-- What the scheduler can do when the allocator may hand out released memory
again: an action of `Action`, or the first step of the creator `t` with
`kmalloc` returning the released object at address `a`. -/
inductive ActionR where
  | act (a : Action)
  | reuse (t : Nat) (a : Nat)
deriving DecidableEq

/-- One transition of the system with such an allocator. -/
def stepR (s : Sys) : ActionR → Option Sys
  | .act a => step s a
  | .reuse t a =>
      match s.threads.get? t with
      | none => none
      | some pc => s.moved t (run_pc_reuse s.k a pc)

/-- Run a schedule with such an allocator. -/
def execR : Sys → List ActionR → Option Sys
  | s, [] => some s
  | s, a :: rest =>
      match stepR s a with
      | none => none
      | some s => execR s rest

/-! ## Notions used to state the properties -/

/-- The deltas between adjacent samples of a list: entry `i` is the delta of
samples `i` and `i + 1`. -/
def deltas_of (a : List dev_acceleration) : List acc_delta :=
  List.zipWith calc_delta a a.tail

/-- Number of deltas of a list that pass the test of `test_event` for the
motion `acc`. -/
def count_matches (acc : acc_motion) (ds : List acc_delta) : Nat :=
  ds.countP (delta_matches acc)

/-- The last `n` elements of a list, in order. -/
def lastN {α : Type} (n : Nat) (l : List α) : List α := l.drop (l.length - n)

/-- What one pass of `accevt_signal` over `event_list` makes of an event,
when the deltas array starts with the list `ds`: the state is set from the
number of matching deltas among the first `len - 1`. -/
def scan_event (ds : List acc_delta) (len : Int) (ev : acc_event) : acc_event :=
  { ev with state :=
      if count_matches ev.acc (ds.take (len - 1).toNat) ≥ ev.acc.frq then 1 else 0 }

/-- Submit the samples of a list one after the other through `accevt_signal`,
each call running alone and returning 0. -/
def submit_all : KState → List dev_acceleration → Option KState
  | s, [] => some s
  | s, k :: rest =>
      match accevt_signal s (.valid k) with
      | some (s, 0) => submit_all s rest
      | _ => none

/-! ## Roles of the addresses held by callers -/

/-- The object a caller of `accevt_create` has allocated and not yet put on
`event_list`. -/
def Pc.fresh : Pc → Option Nat
  | .create_check _ q _ => some q
  | .create_init _ q _ => some q
  | _ => none

/-- The event a caller of `accevt_wait` or `accevt_destroy` got from
`find_event`. -/
def Pc.holds : Pc → Option Nat
  | .wait_inc p => some p
  | .wait_sleep p => some p
  | .wait_dec p _ => some p
  | .wait_exit p _ => some p
  | .destroy_retire p => some p
  | .destroy_sleep p => some p
  | .destroy_free p => some p
  | _ => none

/-- The event a caller of `accevt_destroy` has taken off `event_list`. -/
def Pc.unlinked : Pc → Option Nat
  | .destroy_retire p => some p
  | .destroy_sleep p => some p
  | .destroy_free p => some p
  | _ => none

/-- The event a caller of `accevt_destroy` has set to state -1. -/
def Pc.retired : Pc → Option Nat
  | .destroy_sleep p => some p
  | .destroy_free p => some p
  | _ => none

/-- Every address that has a role at `pc'` has the same role at `pc`. -/
def Pc.sub (pc' pc : Pc) : Prop :=
  (∀ q, pc'.fresh = some q → pc.fresh = some q) ∧
  (∀ q, pc'.holds = some q → pc.holds = some q) ∧
  (∀ q, pc'.unlinked = some q → pc.unlinked = some q) ∧
  (∀ q, pc'.retired = some q → pc.retired = some q)

/-- The structural invariant of the system: the registry has no repeated
address and only allocated ones; an object being created is allocated, on
nobody's hands and not registered; an event taken off the registry by a
destroyer is not registered, and is in state -1 once the destroyer has passed
line 282; registered events have `frq ≤ WINDOW`. -/
structure Inv (s : Sys) : Prop where
  nodup : s.k.event_list.Nodup
  list_valid : ∀ p ∈ s.k.event_list, p < s.k.heap.length
  fresh_valid : ∀ (t : Nat) (pc : Pc) (q : Nat), s.threads[t]? = some pc → pc.fresh = some q → q < s.k.heap.length
  holds_valid : ∀ (t : Nat) (pc : Pc) (q : Nat), s.threads[t]? = some pc → pc.holds = some q → q < s.k.heap.length
  fresh_not_listed : ∀ (t : Nat) (pc : Pc) (q : Nat), s.threads[t]? = some pc → pc.fresh = some q →
    q ∉ s.k.event_list
  fresh_not_held : ∀ (t : Nat) (pc : Pc) (q : Nat) (t' : Nat) (pc' : Pc), s.threads[t]? = some pc → pc.fresh = some q →
    s.threads[t']? = some pc' → pc'.holds ≠ some q
  fresh_inj : ∀ (t : Nat) (pc : Pc) (q : Nat) (t' : Nat) (pc' : Pc), s.threads[t]? = some pc → pc.fresh = some q →
    s.threads[t']? = some pc' → pc'.fresh = some q → t = t'
  unlinked : ∀ (t : Nat) (pc : Pc) (p : Nat), s.threads[t]? = some pc → pc.unlinked = some p → p ∉ s.k.event_list
  retired : ∀ (t : Nat) (pc : Pc) (p : Nat), s.threads[t]? = some pc → pc.retired = some p →
    (s.k.deref p).state = -1
  frq_le : ∀ p ∈ s.k.event_list, (s.k.deref p).acc.frq ≤ WINDOW

/-- The id a caller of `accevt_create` has drawn from `last_event_id` and not
yet published. -/
def Pc.pending : Pc → Option Int
  | .create_check _ _ id => some id
  | .create_init _ _ id => some id
  | _ => none

/-- The caller is inside `accevt_create` and has not yet published its event. -/
def Pc.creating : Pc → Bool
  | .create_entry _ _ => true
  | .create_check _ _ _ => true
  | .create_init _ _ _ => true
  | _ => false

/-- One transition in which `last_event_id` does not wrap around: the counter
after the step is not below the counter before. -/
def stepNW (s : Sys) (a : Action) : Option Sys :=
  match step s a with
  | none => none
  | some s' => if s.k.last_event_id ≤ s'.k.last_event_id then some s' else none

/-- Run a schedule along which `last_event_id` never wraps around. -/
def execNW : Sys → List Action → Option Sys
  | s, [] => some s
  | s, a :: rest =>
      match stepNW s a with
      | none => none
      | some s => execNW s rest

/-- States reachable from boot before `last_event_id` wraps around. -/
def ReachableNW (s : Sys) : Prop := ∃ sched, execNW Sys.init sched = some s

/-- The invariant on ids that holds until `last_event_id` wraps around: the
counter is between 0 and `INT_MAX`; the ids of registered events and the ids
drawn by creators still at work lie between 1 and the counter and are pairwise
distinct. -/
structure IdInv (s : Sys) : Prop where
  last_nonneg : 0 ≤ s.k.last_event_id
  last_le : s.k.last_event_id ≤ INT_MAX
  listed_range : ∀ p ∈ s.k.event_list,
    1 ≤ (s.k.deref p).event_id ∧ (s.k.deref p).event_id ≤ s.k.last_event_id
  pending_range : ∀ (t : Nat) (pc : Pc) (id : Int), s.threads[t]? = some pc →
    pc.pending = some id → 1 ≤ id ∧ id ≤ s.k.last_event_id
  listed_inj : ∀ p ∈ s.k.event_list, ∀ p' ∈ s.k.event_list,
    (s.k.deref p).event_id = (s.k.deref p').event_id → p = p'
  pending_not_listed : ∀ (t : Nat) (pc : Pc) (id : Int), s.threads[t]? = some pc →
    pc.pending = some id → ∀ p ∈ s.k.event_list, (s.k.deref p).event_id ≠ id
  pending_inj : ∀ (t : Nat) (pc : Pc) (t' : Nat) (pc' : Pc) (id : Int),
    s.threads[t]? = some pc → pc.pending = some id →
    s.threads[t']? = some pc' → pc'.pending = some id → t = t'

/-- The ways in which one atomic step of a caller can change the kernel
state: not at all, by allocating an object and drawing an id, by publishing
a new event, by changing the `nr` of the event in hand, by pushing a sample,
by the pass over the registry, by unlinking, by retiring, by releasing. -/
inductive Effect (k : KState) : Pc → KState → Pc → Prop where
  | same (pc pc' : Pc) : Effect k pc k pc'
  | alloc (ua : acc_motion) :
      Effect k (.create_entry (.valid ua) true)
        { (kmalloc k).1 with last_event_id := toInt32 (k.last_event_id + 1) }
        (.create_check ua k.heap.length (toInt32 (k.last_event_id + 1)))
  | insert (ua : acc_motion) (q : Nat) (id : Int) :
      Effect k (.create_init ua q id)
        { k.store q ⟨id, 0, 0, { ua with frq := if ua.frq > WINDOW then WINDOW else ua.frq }⟩
            with event_list := q :: k.event_list }
        (.create_ret q)
  | nr (pc pc' : Pc) (p : Nat) (n : Int) (h : pc.holds = some p) :
      Effect k pc (k.store p { k.deref p with nr := n }) pc'
  | push (ka : dev_acceleration) (pc' : Pc) :
      Effect k (.signal_entry (.valid ka)) { k with acc_buffer := signal_push k.acc_buffer ka } pc'
  | scan (deltas : CArray acc_delta) (len : Int) (k' : KState)
      (h : signal_scan_loop deltas len k.event_list k = some k') :
      Effect k (.signal_scan deltas len) k' (.ret 0)
  | unlink (id : Int) (p : Nat) (h : find_event k id = some p) :
      Effect k (.destroy_entry id) { k with event_list := k.event_list.erase p }
        (.destroy_retire p)
  | retire (p : Nat) :
      Effect k (.destroy_retire p) (k.store p { k.deref p with state := -1 }) (.destroy_sleep p)
  | free (p : Nat) : Effect k (.destroy_free p) (kfree k p) (.ret 0)

/-! ## Invariants and scenarios of the buffer, the waiters and the states -/

/-- The locals of a caller at line 247 of `accevt_signal` are as lines 221-245
leave them when the fifo held at most `WINDOW + 1` samples: `len` lies in
`0 .. WINDOW + 1`, `deltas` has `WINDOW` cells and its first `len - 1` cells
are written. -/
def Pc.scan_ready : Pc → Prop
  | .signal_scan deltas len =>
      ∃ (ds : List acc_delta) (rest : CArray acc_delta), deltas = ds.map some ++ rest ∧
        deltas.length = WINDOW ∧ 0 ≤ len ∧ len ≤ WINDOW + 1 ∧ ds.length = (len - 1).toNat
  | _ => True

/-- The invariant of the sample buffer: the fifo never holds more than
`WINDOW + 1` samples, and every caller at line 247 has well-formed locals. -/
def BufInv (s : Sys) : Prop :=
  s.k.acc_buffer.length ≤ WINDOW + 1 ∧
  ∀ (t : Nat) (pc : Pc), s.threads[t]? = some pc → pc.scan_ready

/-- The caller is inside `accevt_signal`. -/
def Pc.signalling : Pc → Bool
  | .signal_entry _ => true
  | .signal_scan _ _ => true
  | _ => false

/-- Between `k` and `k'` nothing about the events changed except the `state`
of events on `event_list`: same registry, same objects allocated and
released, same `event_id`, `nr` and motion of every object, and objects off
the registry are untouched. -/
def StateOnly (k k' : KState) : Prop :=
  k'.event_list = k.event_list ∧ k'.heap.length = k.heap.length ∧
  k'.last_event_id = k.last_event_id ∧
  (∀ p, k'.is_freed p = k.is_freed p) ∧
  (∀ p, (k'.deref p).event_id = (k.deref p).event_id ∧ (k'.deref p).nr = (k.deref p).nr ∧
    (k'.deref p).acc = (k.deref p).acc) ∧
  (∀ p, p ∉ k.event_list → k'.deref p = k.deref p)

/-- Between `k` and `k'` the `event_id` and the motion of object `p` are
unchanged. -/
def SameSpec (k k' : KState) (p : Nat) : Prop :=
  (k'.deref p).event_id = (k.deref p).event_id ∧ (k'.deref p).acc = (k.deref p).acc

/-- Every event on `event_list` is in state 0 (pending) or 1 (triggered). -/
def ListedLive (s : Sys) : Prop :=
  ∀ p ∈ s.k.event_list, (s.k.deref p).state = 0 ∨ (s.k.deref p).state = 1

/-- The object `p` has been retired: it is allocated, off `event_list`, not
an object some creator is still working on, and its state is -1. -/
def RetiredAt (p : Nat) (s : Sys) : Prop :=
  (p < s.k.heap.length ∧ p ∉ s.k.event_list ∧
    ∀ (t : Nat) (pc : Pc), s.threads[t]? = some pc → pc.fresh ≠ some p) ∧
  (s.k.deref p).state = -1

/-- The event on which a caller of `accevt_wait` has executed the increment
of line 191 and not yet the decrement of line 195. -/
def Pc.waiting : Pc → Option Nat
  | .wait_sleep p => some p
  | .wait_dec p _ => some p
  | _ => none

/-- Number of callers that have incremented `nr` of the event `p` and not
yet decremented it. -/
def waiters (p : Nat) (threads : List Pc) : Nat :=
  threads.countP (fun pc => pc.waiting == some p)

/-- Two adjacent samples are quiet: their three absolute differences add up
to at most `NOISE * 100`. -/
def quiet (a b : dev_acceleration) : Prop :=
  (a.x - b.x).natAbs + (a.y - b.y).natAbs + (a.z - b.z).natAbs ≤ NOISE * 100

instance (a b : dev_acceleration) : Decidable (quiet a b) := by
  unfold quiet; exact inferInstance

/-- The first `n` samples of a shake along x: x alternates 0, 450, 0, 450, ...
while y and z stay at the given constants. -/
def shake_samples (y z : Int) (n : Nat) : List dev_acceleration :=
  (List.range n).map (fun (i : Nat) => ⟨if i % 2 = 0 then 0 else 450, y, z⟩)

/-- The samples from which the pass of `accevt_signal` computes its deltas
when the fifo holds `b` and the sample `x` comes in: the first `len` samples
of the fifo after the push, `len` being the length before the push. -/
def pass_window (b : List dev_acceleration) (x : dev_acceleration) : List dev_acceleration :=
  (lastN (WINDOW + 1) (b ++ [x])).take b.length

/-! ## Machine arithmetic -/

theorem toInt32_of_isInt32 {v : Int} (h : isInt32 v) : toInt32 v = v := by
  unfold isInt32 INT_MIN INT_MAX at h
  unfold toInt32
  omega

theorem toUInt32_abs_diff {x y : Int} (hx : isInt32 x) (hy : isInt32 y) :
    toUInt32 (abs_diff x y) = (x - y).natAbs := by
  unfold isInt32 INT_MIN INT_MAX at hx hy
  unfold toUInt32 abs_diff toInt32
  split <;> omega

/-! ## Arrays -/

theorem aget_prefix {α : Type} (l : List α) (pad : CArray α) (i : Nat) (h : i < l.length) :
    aget (l.map some ++ pad) i = some l[i] := by
  unfold aget
  rw [List.getD_eq_getElem?_getD, List.getElem?_append_left (by simpa using h)]
  simp [h]

theorem calc_deltas_loop_spec (acc : List dev_acceleration) (pad : CArray dev_acceleration) :
    ∀ (k i : Nat) (d : CArray acc_delta), (k = 0 ∨ i + k + 1 ≤ acc.length) → i + k ≤ d.length →
      ∃ d', calc_deltas_loop (acc.map some ++ pad) k i d = some d' ∧ d'.length = d.length ∧
        (∀ j, i ≤ j → j < i + k → ∃ a b, acc[j]? = some a ∧ acc[j + 1]? = some b ∧
          d'[j]? = some (some (calc_delta a b))) ∧
        (∀ j, (j < i ∨ i + k ≤ j) → d'[j]? = d[j]?) := by
  intro k
  induction k with
  | zero =>
      intro i d _ _
      exact ⟨d, rfl, rfl, fun j h1 h2 => absurd h2 (by omega), fun _ _ => rfl⟩
  | succ k ih =>
      intro i d hk hd
      have hk' : i + (k + 1) + 1 ≤ acc.length := by omega
      have h1 : i < acc.length := by omega
      have h2 : i + 1 < acc.length := by omega
      have h3 : i < d.length := by omega
      obtain ⟨d', he, hl, hw, hu⟩ := ih (i + 1) (d.set i (some (calc_delta acc[i] acc[i + 1])))
        (by omega) (by simp; omega)
      refine ⟨d', ?_, by simpa using hl, ?_, ?_⟩
      · simp only [calc_deltas_loop, aget_prefix acc pad i h1, aget_prefix acc pad (i + 1) h2,
          aset, h3, if_true, Option.bind_eq_bind, Option.some_bind]
        exact he
      · intro j hj1 hj2
        by_cases hji : j = i
        · subst hji
          refine ⟨acc[j], acc[j + 1], by simp [h1], by simp [h2], ?_⟩
          rw [hu j (Or.inl (by omega))]
          simp [h3]
        · exact hw j (by omega) (by omega)
      · intro j hj
        rw [hu j (by omega)]
        rw [List.getElem?_set_ne (by omega)]

/-! ## Heap lemmas -/

@[simp] theorem store_event_list (s : KState) (p : Nat) (ev : acc_event) :
    (s.store p ev).event_list = s.event_list := rfl

@[simp] theorem store_last_event_id (s : KState) (p : Nat) (ev : acc_event) :
    (s.store p ev).last_event_id = s.last_event_id := rfl

@[simp] theorem store_acc_buffer (s : KState) (p : Nat) (ev : acc_event) :
    (s.store p ev).acc_buffer = s.acc_buffer := rfl

@[simp] theorem store_heap_length (s : KState) (p : Nat) (ev : acc_event) :
    (s.store p ev).heap.length = s.heap.length := by
  simp [KState.store]

theorem deref_store (s : KState) (p q : Nat) (ev : acc_event) :
    (s.store p ev).deref q = if q = p ∧ p < s.heap.length then ev else s.deref q := by
  unfold KState.store KState.deref
  simp only [List.getD_eq_getElem?_getD, List.getElem?_set]
  by_cases h : p = q
  · subst h
    by_cases h2 : p < s.heap.length
    · simp [h2]
    · simp [h2, List.getElem?_eq_none (not_lt.mp h2)]
  · have h' : ¬ q = p := fun e => h e.symm
    simp [h, h']

theorem deref_store_ne (s : KState) {p q : Nat} (ev : acc_event) (h : q ≠ p) :
    (s.store p ev).deref q = s.deref q := by
  rw [deref_store]; simp [h]

theorem deref_store_same (s : KState) {p : Nat} (ev : acc_event) (h : p < s.heap.length) :
    (s.store p ev).deref p = ev := by
  rw [deref_store]; simp [h]

@[simp] theorem is_freed_store (s : KState) (p q : Nat) (ev : acc_event) :
    (s.store p ev).is_freed q = s.is_freed q := by
  unfold KState.store KState.is_freed
  simp only [List.getD_eq_getElem?_getD, List.getElem?_set]
  by_cases h : p = q
  · subst h
    by_cases h2 : p < s.heap.length
    · simp [h2]
    · simp [h2, List.getElem?_eq_none (not_lt.mp h2)]
  · simp [h]

/-! ## The loops in list form -/

theorem deltas_of_length (a : List dev_acceleration) : (deltas_of a).length = a.length - 1 := by
  unfold deltas_of
  simp

theorem deltas_of_getElem? (a : List dev_acceleration) (j : Nat) (h : j + 1 < a.length) :
    (deltas_of a)[j]? = some (calc_delta a[j] a[j + 1]) := by
  unfold deltas_of
  rw [List.getElem?_zipWith]
  simp [List.getElem?_eq_getElem (show j < a.length by omega), List.getElem?_tail, h]

theorem calc_deltas_eq (a : List dev_acceleration) (pad : CArray dev_acceleration)
    (deltas : CArray acc_delta) (hd : a.length - 1 ≤ deltas.length) :
    calc_deltas (a.map some ++ pad) deltas a.length
      = some ((deltas_of a).map some ++ deltas.drop (a.length - 1)) := by
  have hk : ((a.length : Int) - 1).toNat = a.length - 1 := by omega
  obtain ⟨d', he, hl, hw, hu⟩ := calc_deltas_loop_spec a pad (a.length - 1) 0 deltas
    (by omega) (by omega)
  unfold calc_deltas
  rw [hk, he]
  congr 1
  apply List.ext_getElem?
  intro j
  by_cases hj : j < a.length - 1
  · obtain ⟨x, y, hx, hy, hxy⟩ := hw j (by omega) (by omega)
    rw [hxy, List.getElem?_append_left (by simp [deltas_of_length]; exact hj)]
    rw [List.getElem?_map, deltas_of_getElem? a j (by omega)]
    rw [List.getElem?_eq_getElem (by omega)] at hx hy
    cases hx; cases hy
    rfl
  · rw [hu j (Or.inr (by omega)),
      List.getElem?_append_right (by simp [deltas_of_length]; omega)]
    simp [deltas_of_length]
    congr 1
    omega

theorem test_event_loop_spec (ev : acc_event) (ds : List acc_delta) (rest : CArray acc_delta) :
    ∀ (k i : Nat) (frq : Int), i + k ≤ ds.length → 0 ≤ frq → frq + k ≤ INT_MAX →
      test_event_loop ev (ds.map some ++ rest) k i frq
        = some (frq + (count_matches ev.acc ((ds.drop i).take k) : Nat)) := by
  intro k
  induction k with
  | zero => intro i frq _ _ _; simp [test_event_loop, count_matches]
  | succ k ih =>
      intro i frq hi h0 hmax
      have h1 : i < ds.length := by omega
      have hd : (ds.drop i).take (k + 1) = ds[i] :: (ds.drop (i + 1)).take k := by
        rw [List.drop_eq_getElem_cons h1, List.take_succ_cons]
      have hmax' : frq + 1 + k ≤ INT_MAX := by push_cast at hmax; omega
      have hw : toInt32 (frq + 1) = frq + 1 := by
        apply toInt32_of_isInt32
        unfold isInt32 INT_MIN
        constructor <;> omega
      simp only [test_event_loop, aget_prefix ds rest i h1, Option.bind_eq_bind,
        Option.some_bind, hd, count_matches, List.countP_cons]
      by_cases hm : delta_matches ev.acc ds[i] = true
      · rw [if_pos hm, hw, ih (i + 1) (frq + 1) (by omega) (by omega) hmax']
        simp [count_matches, hm]
        omega
      · rw [if_neg hm, ih (i + 1) frq (by omega) h0 (by push_cast at hmax; omega)]
        simp [count_matches, hm]

theorem test_event_spec (ev : acc_event) (ds : List acc_delta) (rest : CArray acc_delta)
    (len : Int) (h1 : (len - 1).toNat ≤ ds.length) (h2 : len ≤ INT_MAX) :
    test_event ev (ds.map some ++ rest) len
      = some (if count_matches ev.acc (ds.take (len - 1).toNat) ≥ ev.acc.frq then 1 else 0) := by
  unfold test_event
  rw [test_event_loop_spec ev ds rest _ 0 0 (by omega) (le_refl 0) (by unfold INT_MAX at *; omega)]
  simp only [Option.bind_eq_bind, Option.some_bind, List.drop_zero, zero_add]
  have hc : count_matches ev.acc (ds.take (len - 1).toNat) ≤ (len - 1).toNat := by
    unfold count_matches
    exact le_trans (List.countP_le_length _) (List.length_take_le _ _)
  have : toUInt32 ((count_matches ev.acc (ds.take (len - 1).toNat) : Nat) : Int)
      = count_matches ev.acc (ds.take (len - 1).toNat) := by
    unfold toUInt32
    unfold INT_MAX at h2
    omega
  rw [this]
  split <;> rfl

/-! ## Sample buffer lemmas -/

theorem lastN_length {α : Type} (n : Nat) (l : List α) : (lastN n l).length = min n l.length := by
  unfold lastN
  simp
  omega

theorem lastN_append_lastN {α : Type} (n : Nat) (l r : List α) :
    lastN n (lastN n l ++ r) = lastN n (l ++ r) := by
  unfold lastN
  by_cases h : l.length ≤ n
  · have : l.length - n = 0 := by omega
    simp [this]
  · have h1 : (List.drop (l.length - n) l ++ r).length - n = r.length := by
      simp; omega
    have h2 : (l ++ r).length - n = (l.length - n) + r.length := by
      simp; omega
    have e : (l ++ r).drop (l.length - n) = l.drop (l.length - n) ++ r :=
      List.drop_append_of_le_length (by omega)
    rw [h1, h2, ← List.drop_drop, e]

theorem signal_push_eq (b : List dev_acceleration) (k : dev_acceleration)
    (h : b.length ≤ WINDOW + 1) : signal_push b k = lastN (WINDOW + 1) (b ++ [k]) := by
  unfold signal_push kfifo_len kfifo_skip kfifo_put lastN WINDOW_POW2
  unfold WINDOW at *
  by_cases h21 : b.length = 21
  · have hne : 1 ≤ b.length := by omega
    simp [h21, List.drop_append_of_le_length hne]
  · have : (b.length : Int) ≠ 21 := by omega
    have h2 : b.length < 32 := by omega
    have h3 : b.length + 1 - 21 = 0 := by omega
    simp [this, h2, h3]

theorem signal_push_length (b : List dev_acceleration) (k : dev_acceleration)
    (h : b.length ≤ WINDOW + 1) :
    (signal_push b k).length = min (WINDOW + 1) (b.length + 1) := by
  rw [signal_push_eq b k h, lastN_length]
  simp

/-! ## The pass over the registry -/

theorem signal_scan_loop_frame (deltas : CArray acc_delta) (len : Int) :
    ∀ (l : List Nat) (s s' : KState), signal_scan_loop deltas len l s = some s' →
      s'.event_list = s.event_list ∧ s'.last_event_id = s.last_event_id ∧
      s'.acc_buffer = s.acc_buffer ∧ s'.heap.length = s.heap.length ∧
      (∀ p, s'.is_freed p = s.is_freed p) ∧
      (∀ p, (s'.deref p).event_id = (s.deref p).event_id ∧ (s'.deref p).nr = (s.deref p).nr ∧
        (s'.deref p).acc = (s.deref p).acc) ∧
      (∀ p, p ∉ l → s'.deref p = s.deref p) := by
  intro l
  induction l with
  | nil =>
      intro s s' h
      simp only [signal_scan_loop, Option.some.injEq] at h
      subst h
      simp
  | cons q l ih =>
      intro s s' h
      simp only [signal_scan_loop, Option.bind_eq_bind, Option.bind_eq_some] at h
      obtain ⟨r, _, h⟩ := h
      obtain ⟨h1, h2, h3, h4, h5, h6, h7⟩ := ih _ _ h
      refine ⟨h1, h2, h3, by simpa using h4, fun p => by simpa using h5 p, ?_, ?_⟩
      · intro p
        have := h6 p
        rw [deref_store] at this
        split at this <;> simp_all
      · intro p hp
        rw [h7 p (fun hm => hp (List.mem_cons_of_mem _ hm))]
        exact deref_store_ne _ _ (fun e => hp (e ▸ List.mem_cons_self _ _))

theorem signal_scan_loop_spec (ds : List acc_delta) (rest : CArray acc_delta) (len : Int)
    (h1 : (len - 1).toNat ≤ ds.length) (h2 : len ≤ INT_MAX) :
    ∀ (l : List Nat) (s : KState), ∃ s',
      signal_scan_loop (ds.map some ++ rest) len l s = some s' ∧
      ∀ p, s'.deref p
        = if p ∈ l ∧ p < s.heap.length then scan_event ds len (s.deref p) else s.deref p := by
  intro l
  induction l with
  | nil => intro s; exact ⟨s, rfl, fun p => by simp⟩
  | cons q l ih =>
      intro s
      obtain ⟨s', he, hs⟩ := ih (s.store q (scan_event ds len (s.deref q)))
      refine ⟨s', ?_, ?_⟩
      · simp only [signal_scan_loop, test_event_spec _ ds rest len h1 h2, Option.bind_eq_bind,
          Option.some_bind]
        rw [← he]
        congr 2
        unfold scan_event
        split <;> simp
      · intro p
        rw [hs p, store_heap_length]
        by_cases hpq : p = q
        · subst hpq
          by_cases hlt : p < s.heap.length
          · simp [hlt, deref_store_same _ _ hlt, scan_event]
          · simp [hlt, deref_store]
        · simp [hpq, deref_store_ne _ _ hpq]

/-! ## One call of `accevt_signal` -/

theorem run_alone_ret (n : Nat) (s : KState) (v : Int) :
    run_alone n s (.ret v) = some (s, v) := by
  cases n <;> rfl

theorem run_pc_signal_entry (s : KState) (k : dev_acceleration)
    (hb : s.acc_buffer.length ≤ WINDOW + 1) :
    run_pc s (.signal_entry (.valid k))
      = some ({ s with acc_buffer := signal_push s.acc_buffer k },
          .signal_scan
            ((deltas_of ((signal_push s.acc_buffer k).take s.acc_buffer.length)).map some
              ++ (uninit acc_delta WINDOW).drop (s.acc_buffer.length - 1))
            s.acc_buffer.length) := by
  have hl := signal_push_length s.acc_buffer k hb
  generalize hb' : signal_push s.acc_buffer k = b' at hl
  have hlen : s.acc_buffer.length ≤ b'.length := by rw [hl]; omega
  have hpos : 1 ≤ b'.length := by rw [hl]; unfold WINDOW; omega
  have h21 : b'.length ≤ WINDOW + 1 := by rw [hl]; omega
  have hm : min (WINDOW + 1) b'.length = b'.length := by omega
  have hn0 : ¬ b'.length = 0 := by omega
  simp only [run_pc, hb', signal_peek, kfifo_out_peek, hm, List.take_length, kfifo_len, hn0,
    if_false]
  by_cases h1 : 1 < s.acc_buffer.length
  · have hsplit : b'.map some ++ (uninit dev_acceleration (WINDOW + 1)).drop b'.length
        = (b'.take s.acc_buffer.length).map some
          ++ ((b'.drop s.acc_buffer.length).map some
            ++ (uninit dev_acceleration (WINDOW + 1)).drop b'.length) := by
      rw [← List.append_assoc, ← List.map_append, List.take_append_drop]
    have htl : (b'.take s.acc_buffer.length).length = s.acc_buffer.length := by
      simp; omega
    have hc := calc_deltas_eq (b'.take s.acc_buffer.length)
      ((b'.drop s.acc_buffer.length).map some
        ++ (uninit dev_acceleration (WINDOW + 1)).drop b'.length)
      (uninit acc_delta WINDOW) (by rw [htl]; unfold uninit WINDOW at *; simp; omega)
    rw [htl] at hc
    have h1' : (s.acc_buffer.length : Int) > 1 := by omega
    simp only [h1', if_true, hsplit, hc, Option.bind_eq_bind, Option.some_bind]
  · have h1' : ¬ (s.acc_buffer.length : Int) > 1 := by omega
    have hnil : deltas_of (b'.take s.acc_buffer.length) = [] := by
      apply List.eq_nil_of_length_eq_zero
      rw [deltas_of_length]
      simp; omega
    have h0 : s.acc_buffer.length - 1 = 0 := by omega
    simp only [h1', if_false, hnil, h0, Option.bind_eq_bind, Option.some_bind, List.map_nil,
      List.nil_append, List.drop_zero]

theorem accevt_signal_spec (s : KState) (k : dev_acceleration)
    (hb : s.acc_buffer.length ≤ WINDOW + 1) :
    ∃ s', accevt_signal s (.valid k) = some (s', 0) ∧
      s'.acc_buffer = signal_push s.acc_buffer k ∧ s'.event_list = s.event_list ∧
      s'.last_event_id = s.last_event_id ∧ s'.heap.length = s.heap.length ∧
      (∀ p, s'.is_freed p = s.is_freed p) ∧
      ∀ p, s'.deref p
        = if p ∈ s.event_list ∧ p < s.heap.length then
            scan_event (deltas_of ((signal_push s.acc_buffer k).take s.acc_buffer.length))
              s.acc_buffer.length (s.deref p)
          else s.deref p := by
  obtain ⟨s', he, hs⟩ := signal_scan_loop_spec
    (deltas_of ((signal_push s.acc_buffer k).take s.acc_buffer.length))
    ((uninit acc_delta WINDOW).drop (s.acc_buffer.length - 1)) s.acc_buffer.length
    (by
      rw [deltas_of_length]
      have := signal_push_length s.acc_buffer k hb
      simp; omega)
    (by unfold INT_MAX WINDOW at *; omega)
    s.event_list { s with acc_buffer := signal_push s.acc_buffer k }
  obtain ⟨f1, f2, f3, f4, f5, _, _⟩ := signal_scan_loop_frame _ _ _ _ _ he
  refine ⟨s', ?_, f3, f1, f2, f4, f5, hs⟩
  unfold accevt_signal
  simp only [run_alone, run_pc_signal_entry s k hb]
  simp only [run_pc, he, Option.bind_eq_bind, Option.some_bind, run_alone_ret]

/-! ## Schedules and reachable states -/

theorem exec_append (l1 l2 : List Action) :
    ∀ s : Sys, exec s (l1 ++ l2) = (exec s l1).bind (fun s => exec s l2) := by
  induction l1 with
  | nil => intro s; rfl
  | cons a l1 ih =>
      intro s
      simp only [List.cons_append, exec]
      cases step s a with
      | none => rfl
      | some s1 => exact ih s1

theorem Reachable.boot : Reachable Sys.init := ⟨[], rfl⟩

theorem Reachable.next {s s' : Sys} {a : Action} (h : Reachable s) (hs : step s a = some s') :
    Reachable s' := by
  obtain ⟨sched, he⟩ := h
  refine ⟨sched ++ [a], ?_⟩
  rw [exec_append, he]
  simp [exec, hs]

theorem Reachable.after {s s' : Sys} (sched : List Action) (h : Reachable s)
    (hs : exec s sched = some s') : Reachable s' := by
  obtain ⟨sched0, he⟩ := h
  refine ⟨sched0 ++ sched, ?_⟩
  rw [exec_append, he]
  exact hs

theorem exec_invariant (P : Sys → Prop)
    (hstep : ∀ s a s', P s → step s a = some s' → P s') :
    ∀ (sched : List Action) (s s' : Sys), P s → exec s sched = some s' → P s' := by
  intro sched
  induction sched with
  | nil =>
      intro s s' hp he
      simp only [exec, Option.some.injEq] at he
      exact he ▸ hp
  | cons a sched ih =>
      intro s s' hp he
      simp only [exec] at he
      cases hs : step s a with
      | none => rw [hs] at he; exact absurd he (by simp)
      | some s1 =>
          rw [hs] at he
          exact ih s1 s' (hstep s a s1 hp hs) he

theorem Reachable.invariant (P : Sys → Prop) (h0 : P Sys.init)
    (hstep : ∀ s a s', Reachable s → P s → step s a = some s' → P s') :
    ∀ s, Reachable s → P s := by
  intro s hr
  obtain ⟨sched, he⟩ := hr
  have := exec_invariant (fun s => Reachable s ∧ P s)
    (fun s a s' hp hs => ⟨hp.1.next hs, hstep s a s' hp.1 hp.2 hs⟩)
    sched Sys.init s ⟨Reachable.boot, h0⟩ he
  exact this.2

/-! ## The structural invariant -/

theorem getElem?_set_cases {l : List Pc} {t t' : Nat} {pc' pc'' : Pc}
    (h : (l.set t pc')[t']? = some pc'') :
    (t' = t ∧ pc'' = pc') ∨ (t' ≠ t ∧ l[t']? = some pc'') := by
  rw [List.getElem?_set] at h
  by_cases e : t = t'
  · subst e
    rw [if_pos rfl] at h
    split at h
    · exact Or.inl ⟨rfl, (Option.some.inj h).symm⟩
    · exact absurd h (by simp)
  · rw [if_neg e] at h
    exact Or.inr ⟨fun e' => e e'.symm, h⟩

theorem Pc.sub_refl (pc : Pc) : Pc.sub pc pc :=
  ⟨fun _ h => h, fun _ h => h, fun _ h => h, fun _ h => h⟩

theorem Pc.sub_of_none {pc' : Pc} (pc : Pc) (h1 : pc'.fresh = none) (h2 : pc'.holds = none)
    (h3 : pc'.unlinked = none) (h4 : pc'.retired = none) : Pc.sub pc' pc :=
  ⟨fun q h => by rw [h1] at h; exact absurd h (by simp),
   fun q h => by rw [h2] at h; exact absurd h (by simp),
   fun q h => by rw [h3] at h; exact absurd h (by simp),
   fun q h => by rw [h4] at h; exact absurd h (by simp)⟩

/-- A step that keeps the registry, allocates nothing, gives the caller no new
address, and changes neither the motion of any event nor the state of an
event outside the registry, preserves the invariant. -/
theorem Inv.frame {s : Sys} (inv : Inv s) {t : Nat} {pc pc' : Pc} {k' : KState}
    (ht : s.threads[t]? = some pc) (hsub : Pc.sub pc' pc)
    (hl : k'.event_list = s.k.event_list) (hh : k'.heap.length = s.k.heap.length)
    (hacc : ∀ p, (k'.deref p).acc = (s.k.deref p).acc)
    (hst : ∀ p, p ∉ s.k.event_list → (k'.deref p).state = (s.k.deref p).state) :
    Inv ⟨k', s.threads.set t pc'⟩ := by
  have old : ∀ {t' : Nat} {pc'' : Pc}, (s.threads.set t pc')[t']? = some pc'' →
      ∃ pc0, s.threads[t']? = some pc0 ∧ Pc.sub pc'' pc0 := by
    intro t' pc'' h
    rcases getElem?_set_cases h with ⟨e1, e2⟩ | ⟨_, e2⟩
    · subst e1 e2; exact ⟨pc, ht, hsub⟩
    · exact ⟨pc'', e2, Pc.sub_refl _⟩
  constructor
  · show k'.event_list.Nodup
    rw [hl]; exact inv.nodup
  · intro p hp
    show p < k'.heap.length
    rw [hh]; exact inv.list_valid p (hl ▸ hp)
  · intro t' pc'' q h hf
    obtain ⟨pc0, h0, hs0⟩ := old h
    show q < k'.heap.length
    rw [hh]; exact inv.fresh_valid t' pc0 q h0 (hs0.1 q hf)
  · intro t' pc'' q h hf
    obtain ⟨pc0, h0, hs0⟩ := old h
    show q < k'.heap.length
    rw [hh]; exact inv.holds_valid t' pc0 q h0 (hs0.2.1 q hf)
  · intro t' pc'' q h hf
    obtain ⟨pc0, h0, hs0⟩ := old h
    show q ∉ k'.event_list
    rw [hl]; exact inv.fresh_not_listed t' pc0 q h0 (hs0.1 q hf)
  · intro t1 pc1 q t2 pc2 h1 hf h2 hh2
    obtain ⟨pc01, h01, hs01⟩ := old h1
    obtain ⟨pc02, h02, hs02⟩ := old h2
    exact inv.fresh_not_held t1 pc01 q t2 pc02 h01 (hs01.1 q hf) h02 (hs02.2.1 q hh2)
  · intro t1 pc1 q t2 pc2 h1 hf h2 hf2
    obtain ⟨pc01, h01, hs01⟩ := old h1
    obtain ⟨pc02, h02, hs02⟩ := old h2
    exact inv.fresh_inj t1 pc01 q t2 pc02 h01 (hs01.1 q hf) h02 (hs02.1 q hf2)
  · intro t' pc'' q h hf
    obtain ⟨pc0, h0, hs0⟩ := old h
    show q ∉ k'.event_list
    rw [hl]; exact inv.unlinked t' pc0 q h0 (hs0.2.2.1 q hf)
  · intro t' pc'' q h hf
    obtain ⟨pc0, h0, hs0⟩ := old h
    show (k'.deref q).state = -1
    have hu : pc0.unlinked = some q := by
      have := hs0.2.2.2 q hf
      cases pc0 <;> simp_all [Pc.retired, Pc.unlinked]
    rw [hst q (inv.unlinked t' pc0 q h0 hu)]
    exact inv.retired t' pc0 q h0 (hs0.2.2.2 q hf)
  · intro p hp
    show (k'.deref p).acc.frq ≤ WINDOW
    rw [hacc p]; exact inv.frq_le p (hl ▸ hp)

theorem deref_kmalloc (k : KState) (p : Nat) : (kmalloc k).1.deref p = k.deref p := by
  unfold kmalloc KState.deref
  simp only [List.getD_eq_getElem?_getD]
  by_cases h : p < k.heap.length
  · rw [List.getElem?_append_left h]
  · rw [List.getElem?_append_right (not_lt.mp h), List.getElem?_eq_none (not_lt.mp h)]
    by_cases h0 : p - k.heap.length = 0
    · simp [h0]
    · have : ([({ ev := zero_event, freed := false } : Cell)])[p - k.heap.length]? = none :=
        List.getElem?_eq_none (by simp; omega)
      rw [this]

theorem deref_kfree (k : KState) (p q : Nat) : (kfree k p).deref q = k.deref q := by
  unfold kfree KState.deref
  simp only [List.getD_eq_getElem?_getD, List.getElem?_set]
  by_cases h : p = q
  · subst h
    by_cases h2 : p < k.heap.length
    · simp [h2, KState.deref, List.getD_eq_getElem?_getD]
    · simp [h2, List.getElem?_eq_none (not_lt.mp h2)]
  · simp [h]

theorem Pc.unlinked_of_retired {pc : Pc} {p : Nat} (h : pc.retired = some p) :
    pc.unlinked = some p := by
  cases pc <;> simp_all [Pc.retired, Pc.unlinked]

theorem Pc.holds_of_unlinked {pc : Pc} {p : Nat} (h : pc.unlinked = some p) :
    pc.holds = some p := by
  cases pc <;> simp_all [Pc.holds, Pc.unlinked]

theorem mem_of_find_event {k : KState} {id : Int} {p : Nat} (h : find_event k id = some p) :
    p ∈ k.event_list ∧ (k.deref p).event_id = id := by
  unfold find_event at h
  exact ⟨List.mem_of_find?_eq_some h, by simpa using List.find?_some h⟩

/-- A new caller entering a system call preserves the invariant. -/
theorem Inv.call {s : Sys} (inv : Inv s) (c : Call) :
    Inv ⟨s.k, s.threads ++ [c.entry]⟩ := by
  have hn : c.entry.fresh = none ∧ c.entry.holds = none ∧ c.entry.unlinked = none ∧
      c.entry.retired = none := by
    cases c <;> simp [Call.entry, Pc.fresh, Pc.holds, Pc.unlinked, Pc.retired]
  have old : ∀ {t' : Nat} {pc'' : Pc}, (s.threads ++ [c.entry])[t']? = some pc'' →
      s.threads[t']? = some pc'' ∨ pc'' = c.entry := by
    intro t' pc'' h
    by_cases hlt : t' < s.threads.length
    · rw [List.getElem?_append_left hlt] at h; exact Or.inl h
    · rw [List.getElem?_append_right (not_lt.mp hlt)] at h
      right
      by_cases h0 : t' - s.threads.length = 0
      · rw [h0] at h; simpa using h.symm
      · rw [List.getElem?_eq_none (by simp; omega)] at h
        exact absurd h (by simp)
  constructor
  · exact inv.nodup
  · exact inv.list_valid
  · intro t' pc'' q h hf
    rcases old h with h0 | rfl
    · exact inv.fresh_valid t' pc'' q h0 hf
    · rw [hn.1] at hf; exact absurd hf (by simp)
  · intro t' pc'' q h hf
    rcases old h with h0 | rfl
    · exact inv.holds_valid t' pc'' q h0 hf
    · rw [hn.2.1] at hf; exact absurd hf (by simp)
  · intro t' pc'' q h hf
    rcases old h with h0 | rfl
    · exact inv.fresh_not_listed t' pc'' q h0 hf
    · rw [hn.1] at hf; exact absurd hf (by simp)
  · intro t1 pc1 q t2 pc2 h1 hf h2
    rcases old h1 with h01 | rfl
    · rcases old h2 with h02 | rfl
      · exact inv.fresh_not_held t1 pc1 q t2 pc2 h01 hf h02
      · rw [hn.2.1]; simp
    · rw [hn.1] at hf; exact absurd hf (by simp)
  · intro t1 pc1 q t2 pc2 h1 hf h2 hf2
    rcases old h1 with h01 | rfl
    · rcases old h2 with h02 | rfl
      · exact inv.fresh_inj t1 pc1 q t2 pc2 h01 hf h02 hf2
      · rw [hn.1] at hf2; exact absurd hf2 (by simp)
    · rw [hn.1] at hf; exact absurd hf (by simp)
  · intro t' pc'' q h hf
    rcases old h with h0 | rfl
    · exact inv.unlinked t' pc'' q h0 hf
    · rw [hn.2.2.1] at hf; exact absurd hf (by simp)
  · intro t' pc'' q h hf
    rcases old h with h0 | rfl
    · exact inv.retired t' pc'' q h0 hf
    · rw [hn.2.2.2] at hf; exact absurd hf (by simp)
  · exact inv.frq_le

/-- Lines 147-151 of `accevt_create` preserve the invariant. -/
theorem Inv.create_alloc {s : Sys} (inv : Inv s) (t : Nat)
    (user_acc : acc_motion) (id : Int) :
    Inv ⟨{ (kmalloc s.k).1 with last_event_id := id },
      s.threads.set t (.create_check user_acc s.k.heap.length id)⟩ := by
  have hd : ∀ p, KState.deref { (kmalloc s.k).1 with last_event_id := id } p = s.k.deref p :=
    fun p => deref_kmalloc s.k p
  have hlen : ∀ n, n < s.k.heap.length + 1 →
      n < (KState.heap { (kmalloc s.k).1 with last_event_id := id }).length := by
    intro n h; simpa [kmalloc] using h
  have hlist : KState.event_list { (kmalloc s.k).1 with last_event_id := id }
      = s.k.event_list := rfl
  constructor
  · exact inv.nodup
  · intro p hp
    have := inv.list_valid p hp
    apply hlen; omega
  · intro t' pc'' q h hf
    apply hlen
    rcases getElem?_set_cases h with ⟨_, rfl⟩ | ⟨_, h0⟩
    · simp only [Pc.fresh, Option.some.injEq] at hf; omega
    · have := inv.fresh_valid t' pc'' q h0 hf; omega
  · intro t' pc'' q h hf
    apply hlen
    rcases getElem?_set_cases h with ⟨_, rfl⟩ | ⟨_, h0⟩
    · simp [Pc.holds] at hf
    · have := inv.holds_valid t' pc'' q h0 hf; omega
  · intro t' pc'' q h hf
    show q ∉ s.k.event_list
    rcases getElem?_set_cases h with ⟨_, rfl⟩ | ⟨_, h0⟩
    · simp only [Pc.fresh, Option.some.injEq] at hf
      intro hm
      have := inv.list_valid q hm
      omega
    · exact inv.fresh_not_listed t' pc'' q h0 hf
  · intro t1 pc1 q t2 pc2 h1 hf h2 hh2
    rcases getElem?_set_cases h2 with ⟨_, rfl⟩ | ⟨_, h02⟩
    · simp [Pc.holds] at hh2
    · rcases getElem?_set_cases h1 with ⟨_, rfl⟩ | ⟨_, h01⟩
      · simp only [Pc.fresh, Option.some.injEq] at hf
        have := inv.holds_valid t2 pc2 q h02 hh2
        omega
      · exact inv.fresh_not_held t1 pc1 q t2 pc2 h01 hf h02 hh2
  · intro t1 pc1 q t2 pc2 h1 hf h2 hf2
    rcases getElem?_set_cases h1 with ⟨e1, rfl⟩ | ⟨_, h01⟩
    · rcases getElem?_set_cases h2 with ⟨e2, rfl⟩ | ⟨_, h02⟩
      · rw [e1, e2]
      · simp only [Pc.fresh, Option.some.injEq] at hf
        have := inv.fresh_valid t2 pc2 q h02 hf2
        omega
    · rcases getElem?_set_cases h2 with ⟨e2, rfl⟩ | ⟨_, h02⟩
      · simp only [Pc.fresh, Option.some.injEq] at hf2
        have := inv.fresh_valid t1 pc1 q h01 hf
        omega
      · exact inv.fresh_inj t1 pc1 q t2 pc2 h01 hf h02 hf2
  · intro t' pc'' q h hf
    show q ∉ s.k.event_list
    rcases getElem?_set_cases h with ⟨_, rfl⟩ | ⟨_, h0⟩
    · simp [Pc.unlinked] at hf
    · exact inv.unlinked t' pc'' q h0 hf
  · intro t' pc'' q h hf
    rw [hd]
    rcases getElem?_set_cases h with ⟨_, rfl⟩ | ⟨_, h0⟩
    · simp [Pc.retired] at hf
    · exact inv.retired t' pc'' q h0 hf
  · intro p hp
    rw [hd]
    exact inv.frq_le p hp

/-- Lines 155-165 of `accevt_create` preserve the invariant. -/
theorem Inv.create_insert {s : Sys} (inv : Inv s) {t : Nat} {user_acc : acc_motion}
    {q : Nat} {id : Int} (ht : s.threads[t]? = some (.create_init user_acc q id))
    (ev : acc_event) (hev : ev.acc.frq ≤ WINDOW) :
    Inv ⟨{ s.k.store q ev with event_list := q :: s.k.event_list },
      s.threads.set t (.create_ret q)⟩ := by
  have hq := inv.fresh_valid t _ q ht rfl
  have hnl := inv.fresh_not_listed t _ q ht rfl
  have hd : ∀ p, KState.deref { s.k.store q ev with event_list := q :: s.k.event_list } p
      = (s.k.store q ev).deref p := fun _ => rfl
  have hlen : (KState.heap { s.k.store q ev with event_list := q :: s.k.event_list }).length
      = s.k.heap.length := store_heap_length s.k q ev
  constructor
  · exact List.nodup_cons.mpr ⟨hnl, inv.nodup⟩
  · intro p hp
    rw [hlen]
    rcases List.mem_cons.mp hp with rfl | hp
    · exact hq
    · exact inv.list_valid p hp
  · intro t' pc'' p h hf
    rw [hlen]
    rcases getElem?_set_cases h with ⟨_, rfl⟩ | ⟨_, h0⟩
    · simp [Pc.fresh] at hf
    · exact inv.fresh_valid t' pc'' p h0 hf
  · intro t' pc'' p h hf
    rw [hlen]
    rcases getElem?_set_cases h with ⟨_, rfl⟩ | ⟨_, h0⟩
    · simp [Pc.holds] at hf
    · exact inv.holds_valid t' pc'' p h0 hf
  · intro t' pc'' p h hf
    rcases getElem?_set_cases h with ⟨_, rfl⟩ | ⟨hne, h0⟩
    · simp [Pc.fresh] at hf
    · intro hm
      rcases List.mem_cons.mp hm with rfl | hm
      · exact hne (inv.fresh_inj t' pc'' p t _ h0 hf ht rfl)
      · exact inv.fresh_not_listed t' pc'' p h0 hf hm
  · intro t1 pc1 p t2 pc2 h1 hf h2 hh2
    rcases getElem?_set_cases h1 with ⟨_, rfl⟩ | ⟨_, h01⟩
    · simp [Pc.fresh] at hf
    · rcases getElem?_set_cases h2 with ⟨_, rfl⟩ | ⟨_, h02⟩
      · simp [Pc.holds] at hh2
      · exact inv.fresh_not_held t1 pc1 p t2 pc2 h01 hf h02 hh2
  · intro t1 pc1 p t2 pc2 h1 hf h2 hf2
    rcases getElem?_set_cases h1 with ⟨_, rfl⟩ | ⟨_, h01⟩
    · simp [Pc.fresh] at hf
    · rcases getElem?_set_cases h2 with ⟨_, rfl⟩ | ⟨_, h02⟩
      · simp [Pc.fresh] at hf2
      · exact inv.fresh_inj t1 pc1 p t2 pc2 h01 hf h02 hf2
  · intro t' pc'' p h hf
    rcases getElem?_set_cases h with ⟨_, rfl⟩ | ⟨_, h0⟩
    · simp [Pc.unlinked] at hf
    · intro hm
      rcases List.mem_cons.mp hm with rfl | hm
      · exact inv.fresh_not_held t _ p t' pc'' ht rfl h0 (Pc.holds_of_unlinked hf)
      · exact inv.unlinked t' pc'' p h0 hf hm
  · intro t' pc'' p h hf
    rcases getElem?_set_cases h with ⟨_, rfl⟩ | ⟨_, h0⟩
    · simp [Pc.retired] at hf
    · have hne : p ≠ q := fun e => inv.fresh_not_held t _ q t' pc'' ht rfl h0
        (e ▸ Pc.holds_of_unlinked (Pc.unlinked_of_retired hf))
      rw [hd, deref_store_ne _ _ hne]
      exact inv.retired t' pc'' p h0 hf
  · intro p hp
    rw [hd]
    rcases List.mem_cons.mp hp with rfl | hp
    · rw [deref_store_same _ _ hq]; exact hev
    · have hne : p ≠ q := fun e => hnl (e ▸ hp)
      rw [deref_store_ne _ _ hne]
      exact inv.frq_le p hp

/-- A caller that takes a registered event in hand (lines 181-189 of
`accevt_wait`) preserves the invariant. -/
theorem Inv.lookup {s : Sys} (inv : Inv s) (t : Nat) {p : Nat} (hp : p ∈ s.k.event_list) :
    Inv ⟨s.k, s.threads.set t (.wait_inc p)⟩ := by
  constructor
  · exact inv.nodup
  · exact inv.list_valid
  · intro t' pc'' q h hf
    rcases getElem?_set_cases h with ⟨_, rfl⟩ | ⟨_, h0⟩
    · simp [Pc.fresh] at hf
    · exact inv.fresh_valid t' pc'' q h0 hf
  · intro t' pc'' q h hf
    rcases getElem?_set_cases h with ⟨_, rfl⟩ | ⟨_, h0⟩
    · simp only [Pc.holds, Option.some.injEq] at hf
      exact hf ▸ inv.list_valid p hp
    · exact inv.holds_valid t' pc'' q h0 hf
  · intro t' pc'' q h hf
    rcases getElem?_set_cases h with ⟨_, rfl⟩ | ⟨_, h0⟩
    · simp [Pc.fresh] at hf
    · exact inv.fresh_not_listed t' pc'' q h0 hf
  · intro t1 pc1 q t2 pc2 h1 hf h2 hh2
    rcases getElem?_set_cases h1 with ⟨_, rfl⟩ | ⟨_, h01⟩
    · simp [Pc.fresh] at hf
    · rcases getElem?_set_cases h2 with ⟨_, rfl⟩ | ⟨_, h02⟩
      · simp only [Pc.holds, Option.some.injEq] at hh2
        exact inv.fresh_not_listed t1 pc1 q h01 hf (hh2 ▸ hp)
      · exact inv.fresh_not_held t1 pc1 q t2 pc2 h01 hf h02 hh2
  · intro t1 pc1 q t2 pc2 h1 hf h2 hf2
    rcases getElem?_set_cases h1 with ⟨_, rfl⟩ | ⟨_, h01⟩
    · simp [Pc.fresh] at hf
    · rcases getElem?_set_cases h2 with ⟨_, rfl⟩ | ⟨_, h02⟩
      · simp [Pc.fresh] at hf2
      · exact inv.fresh_inj t1 pc1 q t2 pc2 h01 hf h02 hf2
  · intro t' pc'' q h hf
    rcases getElem?_set_cases h with ⟨_, rfl⟩ | ⟨_, h0⟩
    · simp [Pc.unlinked] at hf
    · exact inv.unlinked t' pc'' q h0 hf
  · intro t' pc'' q h hf
    rcases getElem?_set_cases h with ⟨_, rfl⟩ | ⟨_, h0⟩
    · simp [Pc.retired] at hf
    · exact inv.retired t' pc'' q h0 hf
  · exact inv.frq_le

/-- Lines 271-280 of `accevt_destroy` (the unlink) preserve the invariant. -/
theorem Inv.unlink {s : Sys} (inv : Inv s) (t : Nat) {p : Nat} (hp : p ∈ s.k.event_list) :
    Inv ⟨{ s.k with event_list := s.k.event_list.erase p },
      s.threads.set t (.destroy_retire p)⟩ := by
  have hsub : ∀ q, q ∈ s.k.event_list.erase p → q ∈ s.k.event_list :=
    fun q h => List.mem_of_mem_erase h
  constructor
  · exact inv.nodup.erase p
  · intro q hq
    exact inv.list_valid q (hsub q hq)
  · intro t' pc'' q h hf
    rcases getElem?_set_cases h with ⟨_, rfl⟩ | ⟨_, h0⟩
    · simp [Pc.fresh] at hf
    · exact inv.fresh_valid t' pc'' q h0 hf
  · intro t' pc'' q h hf
    rcases getElem?_set_cases h with ⟨_, rfl⟩ | ⟨_, h0⟩
    · simp only [Pc.holds, Option.some.injEq] at hf
      exact hf ▸ inv.list_valid p hp
    · exact inv.holds_valid t' pc'' q h0 hf
  · intro t' pc'' q h hf
    rcases getElem?_set_cases h with ⟨_, rfl⟩ | ⟨_, h0⟩
    · simp [Pc.fresh] at hf
    · exact fun hm => inv.fresh_not_listed t' pc'' q h0 hf (hsub q hm)
  · intro t1 pc1 q t2 pc2 h1 hf h2 hh2
    rcases getElem?_set_cases h1 with ⟨_, rfl⟩ | ⟨_, h01⟩
    · simp [Pc.fresh] at hf
    · rcases getElem?_set_cases h2 with ⟨_, rfl⟩ | ⟨_, h02⟩
      · simp only [Pc.holds, Option.some.injEq] at hh2
        exact inv.fresh_not_listed t1 pc1 q h01 hf (hh2 ▸ hp)
      · exact inv.fresh_not_held t1 pc1 q t2 pc2 h01 hf h02 hh2
  · intro t1 pc1 q t2 pc2 h1 hf h2 hf2
    rcases getElem?_set_cases h1 with ⟨_, rfl⟩ | ⟨_, h01⟩
    · simp [Pc.fresh] at hf
    · rcases getElem?_set_cases h2 with ⟨_, rfl⟩ | ⟨_, h02⟩
      · simp [Pc.fresh] at hf2
      · exact inv.fresh_inj t1 pc1 q t2 pc2 h01 hf h02 hf2
  · intro t' pc'' q h hf
    rcases getElem?_set_cases h with ⟨_, rfl⟩ | ⟨_, h0⟩
    · simp only [Pc.unlinked, Option.some.injEq] at hf
      subst hf
      exact fun hm => (List.Nodup.mem_erase_iff inv.nodup).mp hm |>.1 rfl
    · exact fun hm => inv.unlinked t' pc'' q h0 hf (hsub q hm)
  · intro t' pc'' q h hf
    rcases getElem?_set_cases h with ⟨_, rfl⟩ | ⟨_, h0⟩
    · simp [Pc.retired] at hf
    · exact inv.retired t' pc'' q h0 hf
  · intro q hq
    exact inv.frq_le q (hsub q hq)

/-- Line 282 of `accevt_destroy` preserves the invariant. -/
theorem Inv.retire {s : Sys} (inv : Inv s) {t : Nat} {p : Nat}
    (ht : s.threads[t]? = some (.destroy_retire p)) :
    Inv ⟨s.k.store p { s.k.deref p with state := -1 }, s.threads.set t (.destroy_sleep p)⟩ := by
  have hp := inv.holds_valid t _ p ht rfl
  have hacc : ∀ q, ((s.k.store p { s.k.deref p with state := -1 }).deref q).acc
      = (s.k.deref q).acc := by
    intro q; rw [deref_store]; split
    · rename_i h; rw [h.1]
    · rfl
  constructor
  · exact inv.nodup
  · intro q hq
    rw [store_heap_length]; exact inv.list_valid q hq
  · intro t' pc'' q h hf
    rw [store_heap_length]
    rcases getElem?_set_cases h with ⟨_, rfl⟩ | ⟨_, h0⟩
    · simp [Pc.fresh] at hf
    · exact inv.fresh_valid t' pc'' q h0 hf
  · intro t' pc'' q h hf
    rw [store_heap_length]
    rcases getElem?_set_cases h with ⟨_, rfl⟩ | ⟨_, h0⟩
    · simp only [Pc.holds, Option.some.injEq] at hf
      exact hf ▸ hp
    · exact inv.holds_valid t' pc'' q h0 hf
  · intro t' pc'' q h hf
    rcases getElem?_set_cases h with ⟨_, rfl⟩ | ⟨_, h0⟩
    · simp [Pc.fresh] at hf
    · exact inv.fresh_not_listed t' pc'' q h0 hf
  · intro t1 pc1 q t2 pc2 h1 hf h2 hh2
    rcases getElem?_set_cases h1 with ⟨_, rfl⟩ | ⟨_, h01⟩
    · simp [Pc.fresh] at hf
    · rcases getElem?_set_cases h2 with ⟨_, rfl⟩ | ⟨_, h02⟩
      · simp only [Pc.holds, Option.some.injEq] at hh2
        exact inv.fresh_not_held t1 pc1 q t _ h01 hf ht (by simp [Pc.holds, hh2])
      · exact inv.fresh_not_held t1 pc1 q t2 pc2 h01 hf h02 hh2
  · intro t1 pc1 q t2 pc2 h1 hf h2 hf2
    rcases getElem?_set_cases h1 with ⟨_, rfl⟩ | ⟨_, h01⟩
    · simp [Pc.fresh] at hf
    · rcases getElem?_set_cases h2 with ⟨_, rfl⟩ | ⟨_, h02⟩
      · simp [Pc.fresh] at hf2
      · exact inv.fresh_inj t1 pc1 q t2 pc2 h01 hf h02 hf2
  · intro t' pc'' q h hf
    rcases getElem?_set_cases h with ⟨_, rfl⟩ | ⟨_, h0⟩
    · simp only [Pc.unlinked, Option.some.injEq] at hf
      exact hf ▸ inv.unlinked t _ p ht rfl
    · exact inv.unlinked t' pc'' q h0 hf
  · intro t' pc'' q h hf
    by_cases hq : q = p ∧ p < s.k.heap.length
    · rw [deref_store, if_pos hq]
    · rw [deref_store, if_neg hq]
      rcases getElem?_set_cases h with ⟨_, rfl⟩ | ⟨_, h0⟩
      · simp only [Pc.retired, Option.some.injEq] at hf
        exact absurd ⟨hf.symm, hp⟩ hq
      · exact inv.retired t' pc'' q h0 hf
  · intro q hq
    rw [hacc]; exact inv.frq_le q hq

theorem deref_store_fields (k : KState) (p : Nat) (ev : acc_event)
    (h1 : ev.acc = (k.deref p).acc) (h2 : ev.state = (k.deref p).state) (q : Nat) :
    ((k.store p ev).deref q).acc = (k.deref q).acc ∧
    ((k.store p ev).deref q).state = (k.deref q).state := by
  rw [deref_store]
  split
  · rename_i h; rw [h.1]; exact ⟨h1, h2⟩
  · exact ⟨rfl, rfl⟩

theorem deref_store_nr (k : KState) (p : Nat) (n : Int) (q : Nat) :
    ((k.store p { k.deref p with nr := n }).deref q).acc = (k.deref q).acc ∧
    ((k.store p { k.deref p with nr := n }).deref q).state = (k.deref q).state :=
  deref_store_fields k p { k.deref p with nr := n } rfl rfl q

theorem run_pc_signal_entry_valid {k k' : KState} {pc' : Pc} {ka : dev_acceleration}
    (h : run_pc k (.signal_entry (.valid ka)) = some (k', pc')) :
    k' = { k with acc_buffer := signal_push k.acc_buffer ka } ∧
    (pc' = .ret (- EIO) ∨ ∃ d, pc' = .signal_scan d (kfifo_len k.acc_buffer)) := by
  simp only [run_pc] at h
  split at h
  · simp only [Option.some.injEq, Prod.mk.injEq] at h
    exact ⟨h.1.symm, Or.inl h.2.symm⟩
  · by_cases hc : kfifo_len k.acc_buffer > 1
    · simp only [hc, if_true, Option.bind_eq_bind, Option.bind_eq_some, Option.some.injEq,
        Prod.mk.injEq] at h
      obtain ⟨d, _, h1, h2⟩ := h
      exact ⟨h1.symm, Or.inr ⟨d, h2.symm⟩⟩
    · simp only [hc, if_false, Option.bind_eq_bind, Option.some_bind, Option.some.injEq,
        Prod.mk.injEq] at h
      exact ⟨h.1.symm, Or.inr ⟨_, h.2.symm⟩⟩

theorem step_run {s s' : Sys} {t : Nat} (h : step s (.run t) = some s') :
    ∃ pc k' pc', s.threads[t]? = some pc ∧ run_pc s.k pc = some (k', pc') ∧
      s' = ⟨k', s.threads.set t pc'⟩ := by
  simp only [step, List.get?_eq_getElem?] at h
  cases ht : s.threads[t]? with
  | none => rw [ht] at h; exact absurd h (by simp)
  | some pc =>
      rw [ht] at h
      simp only [Sys.moved, Option.map_eq_some'] at h
      obtain ⟨⟨k', pc'⟩, hr, rfl⟩ := h
      exact ⟨pc, k', pc', rfl, hr, rfl⟩

theorem step_intr {s s' : Sys} {t : Nat} (h : step s (.intr t) = some s') :
    ∃ pc k' pc', s.threads[t]? = some pc ∧ intr_pc s.k pc = some (k', pc') ∧
      s' = ⟨k', s.threads.set t pc'⟩ := by
  simp only [step, List.get?_eq_getElem?] at h
  cases ht : s.threads[t]? with
  | none => rw [ht] at h; exact absurd h (by simp)
  | some pc =>
      rw [ht] at h
      simp only [Sys.moved, Option.map_eq_some'] at h
      obtain ⟨⟨k', pc'⟩, hr, rfl⟩ := h
      exact ⟨pc, k', pc', rfl, hr, rfl⟩

theorem intr_pc_eq {k k' : KState} {pc pc' : Pc} (h : intr_pc k pc = some (k', pc')) :
    k' = k ∧
    ((∃ p res, pc = .wait_sleep p ∧ pc' = .wait_dec p res ∧
        (res = 0 ∨ (res = -ERESTARTSYS ∧ (k.deref p).state = 0))) ∨
     (∃ p, pc = .destroy_sleep p ∧ pc' = .destroy_free p ∧ (k.deref p).nr = 0) ∨
     (∃ p, pc = .destroy_sleep p ∧ pc' = .ret (-EAGAIN) ∧ (k.deref p).nr ≠ 0)) := by
  cases pc with
  | wait_sleep p =>
      simp only [intr_pc] at h
      split at h <;> simp only [Option.some.injEq, Prod.mk.injEq] at h
      · exact ⟨h.1.symm, Or.inl ⟨p, 0, rfl, h.2.symm, Or.inl rfl⟩⟩
      · rename_i hs
        exact ⟨h.1.symm, Or.inl ⟨p, _, rfl, h.2.symm, Or.inr ⟨rfl, by simpa using hs⟩⟩⟩
  | destroy_sleep p =>
      simp only [intr_pc] at h
      split at h <;> simp only [Option.some.injEq, Prod.mk.injEq] at h
      · rename_i hs
        exact ⟨h.1.symm, Or.inr (Or.inl ⟨p, rfl, h.2.symm, hs⟩)⟩
      · rename_i hs
        exact ⟨h.1.symm, Or.inr (Or.inr ⟨p, rfl, h.2.symm, hs⟩)⟩
  | _ => simp [intr_pc] at h

/-- Every transition preserves the structural invariant. -/
theorem Inv.step_preserved {s s' : Sys} {a : Action} (inv : Inv s)
    (h : step s a = some s') : Inv s' := by
  cases a with
  | call c =>
      simp only [step, Option.some.injEq] at h
      subst h
      exact inv.call c
  | intr t =>
      obtain ⟨pc, k', pc', ht, hr, rfl⟩ := step_intr h
      obtain ⟨rfl, hc⟩ := intr_pc_eq hr
      refine inv.frame ht ?_ rfl rfl (fun _ => rfl) (fun _ _ => rfl)
      rcases hc with ⟨p, res, rfl, rfl, _⟩ | ⟨p, rfl, rfl, _⟩ | ⟨p, rfl, rfl, _⟩ <;>
        simp [Pc.sub, Pc.fresh, Pc.holds, Pc.unlinked, Pc.retired]
  | run t =>
      obtain ⟨pc, k', pc', ht, hr, rfl⟩ := step_run h
      cases pc with
      | create_entry a ok =>
          cases a with
          | null =>
              simp only [run_pc, Option.some.injEq, Prod.mk.injEq] at hr
              obtain ⟨rfl, rfl⟩ := hr
              exact inv.frame ht (by simp [Pc.sub, Pc.fresh, Pc.holds, Pc.unlinked, Pc.retired])
                rfl rfl (fun _ => rfl) (fun _ _ => rfl)
          | bad =>
              simp only [run_pc, Option.some.injEq, Prod.mk.injEq] at hr
              obtain ⟨rfl, rfl⟩ := hr
              exact inv.frame ht (by simp [Pc.sub, Pc.fresh, Pc.holds, Pc.unlinked, Pc.retired])
                rfl rfl (fun _ => rfl) (fun _ _ => rfl)
          | valid ua =>
              cases ok with
              | false =>
                  simp only [run_pc, Option.some.injEq, Prod.mk.injEq] at hr
                  obtain ⟨rfl, rfl⟩ := hr
                  exact inv.frame ht
                    (by simp [Pc.sub, Pc.fresh, Pc.holds, Pc.unlinked, Pc.retired])
                    rfl rfl (fun _ => rfl) (fun _ _ => rfl)
              | true =>
                  simp only [run_pc, if_true, Option.some.injEq, Prod.mk.injEq] at hr
                  obtain ⟨rfl, rfl⟩ := hr
                  exact inv.create_alloc t ua _
      | create_check ua q id =>
          simp only [run_pc] at hr
          split at hr <;> simp only [Option.some.injEq, Prod.mk.injEq] at hr <;>
            obtain ⟨rfl, rfl⟩ := hr <;>
            exact inv.frame ht (by simp [Pc.sub, Pc.fresh, Pc.holds, Pc.unlinked, Pc.retired])
              rfl rfl (fun _ => rfl) (fun _ _ => rfl)
      | create_init ua q id =>
          simp only [run_pc, Option.some.injEq, Prod.mk.injEq] at hr
          obtain ⟨rfl, rfl⟩ := hr
          refine inv.create_insert ht _ ?_
          show (if ua.frq > WINDOW then WINDOW else ua.frq) ≤ WINDOW
          split <;> omega
      | create_ret q =>
          simp only [run_pc, Option.some.injEq, Prod.mk.injEq] at hr
          obtain ⟨rfl, rfl⟩ := hr
          exact inv.frame ht (by simp [Pc.sub, Pc.fresh, Pc.holds, Pc.unlinked, Pc.retired])
            rfl rfl (fun _ => rfl) (fun _ _ => rfl)
      | wait_entry id =>
          simp only [run_pc] at hr
          cases hf : find_event s.k id with
          | none =>
              rw [hf] at hr
              simp only [Option.some.injEq, Prod.mk.injEq] at hr
              obtain ⟨rfl, rfl⟩ := hr
              exact inv.frame ht (by simp [Pc.sub, Pc.fresh, Pc.holds, Pc.unlinked, Pc.retired])
                rfl rfl (fun _ => rfl) (fun _ _ => rfl)
          | some p =>
              rw [hf] at hr
              simp only [Option.some.injEq, Prod.mk.injEq] at hr
              obtain ⟨rfl, rfl⟩ := hr
              exact inv.lookup t (mem_of_find_event hf).1
      | wait_inc p =>
          simp only [run_pc, Option.some.injEq, Prod.mk.injEq] at hr
          obtain ⟨rfl, rfl⟩ := hr
          exact inv.frame ht (by simp [Pc.sub, Pc.fresh, Pc.holds, Pc.unlinked, Pc.retired])
            rfl (store_heap_length _ _ _)
            (fun q => (deref_store_nr s.k p _ q).1)
            (fun q _ => (deref_store_nr s.k p _ q).2)
      | wait_sleep p =>
          simp only [run_pc] at hr
          split at hr
          · simp only [Option.some.injEq, Prod.mk.injEq] at hr
            obtain ⟨rfl, rfl⟩ := hr
            exact inv.frame ht (by simp [Pc.sub, Pc.fresh, Pc.holds, Pc.unlinked, Pc.retired])
              rfl rfl (fun _ => rfl) (fun _ _ => rfl)
          · exact absurd hr (by simp)
      | wait_dec p res =>
          simp only [run_pc, Option.some.injEq, Prod.mk.injEq] at hr
          obtain ⟨rfl, rfl⟩ := hr
          exact inv.frame ht (by simp [Pc.sub, Pc.fresh, Pc.holds, Pc.unlinked, Pc.retired])
            rfl (store_heap_length _ _ _)
            (fun q => (deref_store_nr s.k p _ q).1)
            (fun q _ => (deref_store_nr s.k p _ q).2)
      | wait_exit p res =>
          simp only [run_pc] at hr
          split at hr
          · simp only [Option.some.injEq, Prod.mk.injEq] at hr
            obtain ⟨rfl, rfl⟩ := hr
            exact inv.frame ht (by simp [Pc.sub, Pc.fresh, Pc.holds, Pc.unlinked, Pc.retired])
              rfl rfl (fun _ => rfl) (fun _ _ => rfl)
          · split at hr <;> simp only [Option.some.injEq, Prod.mk.injEq] at hr <;>
              obtain ⟨rfl, rfl⟩ := hr <;>
              exact inv.frame ht
                (by simp [Pc.sub, Pc.fresh, Pc.holds, Pc.unlinked, Pc.retired])
                rfl rfl (fun _ => rfl) (fun _ _ => rfl)
      | signal_entry a =>
          cases a with
          | null =>
              simp only [run_pc, Option.some.injEq, Prod.mk.injEq] at hr
              obtain ⟨rfl, rfl⟩ := hr
              exact inv.frame ht (by simp [Pc.sub, Pc.fresh, Pc.holds, Pc.unlinked, Pc.retired])
                rfl rfl (fun _ => rfl) (fun _ _ => rfl)
          | bad =>
              simp only [run_pc, Option.some.injEq, Prod.mk.injEq] at hr
              obtain ⟨rfl, rfl⟩ := hr
              exact inv.frame ht (by simp [Pc.sub, Pc.fresh, Pc.holds, Pc.unlinked, Pc.retired])
                rfl rfl (fun _ => rfl) (fun _ _ => rfl)
          | valid ka =>
              obtain ⟨rfl, hpc⟩ := run_pc_signal_entry_valid hr
              refine inv.frame ht ?_ rfl rfl (fun _ => rfl) (fun _ _ => rfl)
              rcases hpc with rfl | ⟨d, rfl⟩ <;>
                simp [Pc.sub, Pc.fresh, Pc.holds, Pc.unlinked, Pc.retired]
      | signal_scan deltas len =>
          simp only [run_pc, Option.bind_eq_bind, Option.bind_eq_some, Option.some.injEq,
            Prod.mk.injEq] at hr
          obtain ⟨k1, hk, rfl, rfl⟩ := hr
          obtain ⟨f1, _, _, f4, _, f6, f7⟩ := signal_scan_loop_frame _ _ _ _ _ hk
          exact inv.frame ht (by simp [Pc.sub, Pc.fresh, Pc.holds, Pc.unlinked, Pc.retired])
            f1 f4 (fun q => (f6 q).2.2) (fun q hq => by rw [f7 q hq])
      | destroy_entry id =>
          simp only [run_pc] at hr
          cases hf : find_event s.k id with
          | none =>
              rw [hf] at hr
              simp only [Option.some.injEq, Prod.mk.injEq] at hr
              obtain ⟨rfl, rfl⟩ := hr
              exact inv.frame ht (by simp [Pc.sub, Pc.fresh, Pc.holds, Pc.unlinked, Pc.retired])
                rfl rfl (fun _ => rfl) (fun _ _ => rfl)
          | some p =>
              rw [hf] at hr
              simp only [Option.some.injEq, Prod.mk.injEq] at hr
              obtain ⟨rfl, rfl⟩ := hr
              exact inv.unlink t (mem_of_find_event hf).1
      | destroy_retire p =>
          simp only [run_pc, Option.some.injEq, Prod.mk.injEq] at hr
          obtain ⟨rfl, rfl⟩ := hr
          exact inv.retire ht
      | destroy_sleep p =>
          simp only [run_pc] at hr
          split at hr
          · simp only [Option.some.injEq, Prod.mk.injEq] at hr
            obtain ⟨rfl, rfl⟩ := hr
            exact inv.frame ht (by simp [Pc.sub, Pc.fresh, Pc.holds, Pc.unlinked, Pc.retired])
              rfl rfl (fun _ => rfl) (fun _ _ => rfl)
          · exact absurd hr (by simp)
      | destroy_free p =>
          simp only [run_pc, Option.some.injEq, Prod.mk.injEq] at hr
          obtain ⟨rfl, rfl⟩ := hr
          exact inv.frame ht (by simp [Pc.sub, Pc.fresh, Pc.holds, Pc.unlinked, Pc.retired])
            rfl (by simp [kfree]) (fun q => by rw [deref_kfree])
            (fun q _ => by rw [deref_kfree])
      | ret v =>
          simp only [run_pc] at hr
          exact absurd hr (by simp)

theorem Inv.at_boot : Inv Sys.init := by
  constructor <;> simp [Sys.init, KState.init]

/-- The structural invariant holds in every reachable state. -/
theorem Reachable.inv {s : Sys} (h : Reachable s) : Inv s :=
  Reachable.invariant Inv Inv.at_boot (fun _ _ _ _ hi hs => hi.step_preserved hs) s h

/-! ## The effect of one step on the kernel state -/

theorem run_pc_effect {k k' : KState} {pc pc' : Pc} (hr : run_pc k pc = some (k', pc')) :
    Effect k pc k' pc' := by
  cases pc with
  | create_entry a ok =>
      cases a with
      | null =>
          simp only [run_pc, Option.some.injEq, Prod.mk.injEq] at hr
          obtain ⟨rfl, rfl⟩ := hr
          exact .same _ _
      | bad =>
          simp only [run_pc, Option.some.injEq, Prod.mk.injEq] at hr
          obtain ⟨rfl, rfl⟩ := hr
          exact .same _ _
      | valid ua =>
          cases ok with
          | false =>
              simp only [run_pc, Option.some.injEq, Prod.mk.injEq] at hr
              obtain ⟨rfl, rfl⟩ := hr
              exact .same _ _
          | true =>
              simp only [run_pc, if_true, Option.some.injEq, Prod.mk.injEq] at hr
              obtain ⟨rfl, rfl⟩ := hr
              exact .alloc ua
  | create_check ua q id =>
      simp only [run_pc] at hr
      split at hr <;> simp only [Option.some.injEq, Prod.mk.injEq] at hr <;>
        obtain ⟨rfl, rfl⟩ := hr <;> exact .same _ _
  | create_init ua q id =>
      simp only [run_pc, Option.some.injEq, Prod.mk.injEq] at hr
      obtain ⟨rfl, rfl⟩ := hr
      exact .insert ua q id
  | create_ret q =>
      simp only [run_pc, Option.some.injEq, Prod.mk.injEq] at hr
      obtain ⟨rfl, rfl⟩ := hr
      exact .same _ _
  | wait_entry id =>
      simp only [run_pc] at hr
      split at hr <;> simp only [Option.some.injEq, Prod.mk.injEq] at hr <;>
        obtain ⟨rfl, rfl⟩ := hr <;> exact .same _ _
  | wait_inc p =>
      simp only [run_pc, Option.some.injEq, Prod.mk.injEq] at hr
      obtain ⟨rfl, rfl⟩ := hr
      exact .nr _ _ p _ rfl
  | wait_sleep p =>
      simp only [run_pc] at hr
      split at hr
      · simp only [Option.some.injEq, Prod.mk.injEq] at hr
        obtain ⟨rfl, rfl⟩ := hr
        exact .same _ _
      · exact absurd hr (by simp)
  | wait_dec p res =>
      simp only [run_pc, Option.some.injEq, Prod.mk.injEq] at hr
      obtain ⟨rfl, rfl⟩ := hr
      exact .nr _ _ p _ rfl
  | wait_exit p res =>
      simp only [run_pc] at hr
      split at hr
      · simp only [Option.some.injEq, Prod.mk.injEq] at hr
        obtain ⟨rfl, rfl⟩ := hr
        exact .same _ _
      · split at hr <;> simp only [Option.some.injEq, Prod.mk.injEq] at hr <;>
          obtain ⟨rfl, rfl⟩ := hr <;> exact .same _ _
  | signal_entry a =>
      cases a with
      | null =>
          simp only [run_pc, Option.some.injEq, Prod.mk.injEq] at hr
          obtain ⟨rfl, rfl⟩ := hr
          exact .same _ _
      | bad =>
          simp only [run_pc, Option.some.injEq, Prod.mk.injEq] at hr
          obtain ⟨rfl, rfl⟩ := hr
          exact .same _ _
      | valid ka =>
          obtain ⟨rfl, _⟩ := run_pc_signal_entry_valid hr
          exact .push ka _
  | signal_scan deltas len =>
      simp only [run_pc, Option.bind_eq_bind, Option.bind_eq_some, Option.some.injEq,
        Prod.mk.injEq] at hr
      obtain ⟨k1, hk, rfl, rfl⟩ := hr
      exact .scan deltas len _ hk
  | destroy_entry id =>
      simp only [run_pc] at hr
      cases hf : find_event k id with
      | none =>
          rw [hf] at hr
          simp only [Option.some.injEq, Prod.mk.injEq] at hr
          obtain ⟨rfl, rfl⟩ := hr
          exact .same _ _
      | some p =>
          rw [hf] at hr
          simp only [Option.some.injEq, Prod.mk.injEq] at hr
          obtain ⟨rfl, rfl⟩ := hr
          exact .unlink id p hf
  | destroy_retire p =>
      simp only [run_pc, Option.some.injEq, Prod.mk.injEq] at hr
      obtain ⟨rfl, rfl⟩ := hr
      exact .retire p
  | destroy_sleep p =>
      simp only [run_pc] at hr
      split at hr
      · simp only [Option.some.injEq, Prod.mk.injEq] at hr
        obtain ⟨rfl, rfl⟩ := hr
        exact .same _ _
      · exact absurd hr (by simp)
  | destroy_free p =>
      simp only [run_pc, Option.some.injEq, Prod.mk.injEq] at hr
      obtain ⟨rfl, rfl⟩ := hr
      exact .free p
  | ret v =>
      simp only [run_pc] at hr
      exact absurd hr (by simp)

theorem is_freed_kmalloc (k : KState) (p : Nat) (h : k.is_freed p = false) :
    (kmalloc k).1.is_freed p = false := by
  unfold kmalloc KState.is_freed at *
  simp only [List.getD_eq_getElem?_getD] at *
  by_cases hp : p < k.heap.length
  · rw [List.getElem?_append_left hp]; exact h
  · rw [List.getElem?_eq_none (not_lt.mp hp)] at h
    simp at h

theorem is_freed_kfree (k : KState) (p q : Nat) :
    (kfree k p).is_freed q = (if q = p ∧ p < k.heap.length then true else k.is_freed q) := by
  unfold kfree KState.is_freed
  simp only [List.getD_eq_getElem?_getD, List.getElem?_set]
  by_cases h : p = q
  · subst h
    by_cases h2 : p < k.heap.length
    · simp [h2]
    · simp [h2, List.getElem?_eq_none (not_lt.mp h2)]
  · have h' : ¬ q = p := fun e => h e.symm
    simp [h, h']

/-- Only line 292 of `accevt_destroy` releases an object. -/
theorem Effect.released {k k' : KState} {pc pc' : Pc} (e : Effect k pc k' pc') (p : Nat)
    (h0 : k.is_freed p = false) (h1 : k'.is_freed p = true) :
    pc = .destroy_free p ∧ pc' = .ret 0 := by
  cases e with
  | same => rw [h0] at h1; exact absurd h1 (by simp)
  | alloc ua =>
      have := is_freed_kmalloc k p h0
      have h1' : (kmalloc k).1.is_freed p = true := h1
      rw [this] at h1'; exact absurd h1' (by simp)
  | insert ua q id =>
      have h1' : (k.store q _).is_freed p = true := h1
      rw [is_freed_store, h0] at h1'; exact absurd h1' (by simp)
  | nr pc pc' q n h =>
      rw [is_freed_store, h0] at h1; exact absurd h1 (by simp)
  | push ka pc' =>
      have h1' : k.is_freed p = true := h1
      rw [h0] at h1'; exact absurd h1' (by simp)
  | scan deltas len k' h =>
      obtain ⟨_, _, _, _, f5, _⟩ := signal_scan_loop_frame _ _ _ _ _ h
      rw [f5, h0] at h1; exact absurd h1 (by simp)
  | unlink id q h =>
      have h1' : k.is_freed p = true := h1
      rw [h0] at h1'; exact absurd h1' (by simp)
  | retire q =>
      rw [is_freed_store, h0] at h1; exact absurd h1 (by simp)
  | free q =>
      rw [is_freed_kfree] at h1
      split at h1
      · rename_i hq; rw [hq.1]; exact ⟨rfl, rfl⟩
      · rw [h0] at h1; exact absurd h1 (by simp)

theorem run_pc_to_free {k k' : KState} {pc pc' : Pc} {p : Nat}
    (h : run_pc k pc = some (k', pc')) (hp : pc' = .destroy_free p) :
    pc = .destroy_sleep p ∧ (k.deref p).nr = 0 ∧ k' = k := by
  subst hp
  cases pc with
  | create_entry a ok => cases a <;> cases ok <;> simp [run_pc] at h
  | signal_entry a =>
      cases a with
      | valid ka => rcases (run_pc_signal_entry_valid h).2 with h | ⟨_, h⟩ <;> simp at h
      | _ => simp [run_pc] at h
  | destroy_sleep q =>
      simp only [run_pc] at h
      split at h
      · rename_i hq
        simp only [Option.some.injEq, Prod.mk.injEq, Pc.destroy_free.injEq] at h
        obtain ⟨rfl, rfl⟩ := h
        exact ⟨rfl, hq, rfl⟩
      · simp at h
  | wait_exit q res =>
      simp only [run_pc] at h
      split at h
      · simp at h
      · split at h <;> simp at h
  | signal_scan d len => simp [run_pc, Option.bind_eq_some] at h
  | _ => simp only [run_pc] at h; (first | (split at h <;> simp_all) | simp_all)

theorem getElem?_set_self_of_some {l : List Pc} {t : Nat} {pc pc' : Pc}
    (h : l[t]? = some pc) : (l.set t pc')[t]? = some pc' := by
  have hlt : t < l.length := by
    by_contra hc
    rw [List.getElem?_eq_none (not_lt.mp hc)] at h
    exact absurd h (by simp)
  rw [List.getElem?_set]
  simp [hlt]

/-! ## Creation of an event -/

theorem find_event_kmalloc (k : KState) (id id' : Int) :
    find_event { (kmalloc k).1 with last_event_id := id' } id = find_event k id := by
  unfold find_event
  have : ∀ p, KState.deref { (kmalloc k).1 with last_event_id := id' } p = k.deref p :=
    fun p => deref_kmalloc k p
  simp only [this]
  rfl

theorem clamp_eq_min (frq : Nat) : (if frq > WINDOW then WINDOW else frq) = min frq WINDOW := by
  split <;> omega

theorem find_event_cons (k : KState) (q : Nat) (l : List Nat) (id : Int)
    (h : (k.deref q).event_id = id) :
    find_event { k with event_list := q :: l } id = some q := by
  unfold find_event
  have hd : ∀ p, KState.deref { k with event_list := q :: l } p = k.deref p := fun _ => rfl
  simp only [hd]
  exact List.find?_cons_of_pos _ (by simpa using h)

theorem run_pc_create_init (k : KState) (ua : acc_motion) (q : Nat) (id : Int)
    (hq : q < k.heap.length) :
    ∃ k', run_pc k (.create_init ua q id) = some (k', .create_ret q) ∧
      k'.event_list = q :: k.event_list ∧ find_event k' id = some q ∧
      k'.deref q = ⟨id, 0, 0, ⟨ua.dlt_x, ua.dlt_y, ua.dlt_z, min ua.frq WINDOW⟩⟩ ∧
      k'.last_event_id = k.last_event_id ∧ k'.acc_buffer = k.acc_buffer ∧
      k'.heap.length = k.heap.length ∧
      run_pc k' (.create_ret q) = some (k', .ret id) := by
  obtain ⟨k', hk'⟩ : ∃ k', k' = ({ k.store q (⟨id, 0, 0,
      ⟨ua.dlt_x, ua.dlt_y, ua.dlt_z, if ua.frq > WINDOW then WINDOW else ua.frq⟩⟩ : acc_event)
        with event_list := q :: k.event_list } : KState) := ⟨_, rfl⟩
  have hv : k'.deref q = ⟨id, 0, 0, ⟨ua.dlt_x, ua.dlt_y, ua.dlt_z, min ua.frq WINDOW⟩⟩ := by
    rw [hk', ← clamp_eq_min]
    exact deref_store_same k _ hq
  have e : run_pc k (.create_init ua q id) = some (k', .create_ret q) := by
    rw [hk']; rfl
  have e' : run_pc k' (.create_ret q) = some (k', .ret (k'.deref q).event_id) := rfl
  refine ⟨k', e, by rw [hk'], ?_, hv, by rw [hk']; rfl, by rw [hk']; rfl,
    by rw [hk']; exact store_heap_length _ _ _, by rw [e', hv]⟩
  · have : k' = { k' with event_list := q :: k.event_list } := by rw [hk']
    rw [this]
    exact find_event_cons _ q _ id (by rw [hv])

theorem accevt_create_alone (k : KState) (ua : acc_motion)
    (hf : find_event k (toInt32 (k.last_event_id + 1)) = none) :
    ∃ k', accevt_create k (.valid ua) true = some (k', toInt32 (k.last_event_id + 1)) ∧
      k'.event_list = k.heap.length :: k.event_list ∧
      find_event k' (toInt32 (k.last_event_id + 1)) = some k.heap.length ∧
      k'.deref k.heap.length
        = ⟨toInt32 (k.last_event_id + 1), 0, 0,
            ⟨ua.dlt_x, ua.dlt_y, ua.dlt_z, min ua.frq WINDOW⟩⟩ ∧
      k'.last_event_id = toInt32 (k.last_event_id + 1) ∧
      k'.heap.length = k.heap.length + 1 ∧ k'.acc_buffer = k.acc_buffer := by
  obtain ⟨k', h1, h2, h3, h4, h5, h6, h7, h8⟩ := run_pc_create_init
    { (kmalloc k).1 with last_event_id := toInt32 (k.last_event_id + 1) } ua k.heap.length
    (toInt32 (k.last_event_id + 1)) (by simp [kmalloc])
  refine ⟨k', ?_, h2, h3, h4, h5, by rw [h7]; simp [kmalloc], h6⟩
  have hfk := find_event_kmalloc k (toInt32 (k.last_event_id + 1))
    (toInt32 (k.last_event_id + 1))
  rw [hf] at hfk
  have e1 : run_pc k (.create_entry (.valid ua) true)
      = some ({ (kmalloc k).1 with last_event_id := toInt32 (k.last_event_id + 1) },
          .create_check ua k.heap.length (toInt32 (k.last_event_id + 1))) := rfl
  have e2 : run_pc { (kmalloc k).1 with last_event_id := toInt32 (k.last_event_id + 1) }
      (.create_check ua k.heap.length (toInt32 (k.last_event_id + 1)))
      = some ({ (kmalloc k).1 with last_event_id := toInt32 (k.last_event_id + 1) },
          .create_init ua k.heap.length (toInt32 (k.last_event_id + 1))) := by
    simp only [run_pc, hfk, Option.isSome_none, Bool.false_eq_true, if_false]
  simp only [accevt_create, run_alone, e1, e2, h1, h8, run_alone_ret]

/-! ## Calls run alone, and the wrap of `last_event_id` -/

theorem step_run_of {s : Sys} {t : Nat} {pc pc' : Pc} {k' : KState}
    (ht : s.threads[t]? = some pc) (hr : run_pc s.k pc = some (k', pc')) :
    step s (.run t) = some ⟨k', s.threads.set t pc'⟩ := by
  simp [step, List.get?_eq_getElem?, ht, hr, Sys.moved]

theorem set_eq_self {l : List Pc} {t : Nat} {pc : Pc} (h : l[t]? = some pc) :
    l.set t pc = l := by
  apply List.ext_getElem?
  intro j
  rw [List.getElem?_set]
  by_cases e : t = j
  · subst e
    rw [if_pos rfl, h]
    split
    · rfl
    · rename_i hlt
      rw [List.getElem?_eq_none (not_lt.mp hlt)] at h
      exact absurd h (by simp)
  · rw [if_neg e]

/-- A call that runs alone to its end in `fuel` steps is a run of the
scheduler in which nobody else moves: the caller, placed at index `t`, reaches
its return with the same kernel state and result. -/
theorem exec_run_alone (fuel : Nat) :
    ∀ (k : KState) (thr : List Pc) (t : Nat) (pc : Pc) (k' : KState) (v : Int),
      thr[t]? = some pc → run_alone fuel k pc = some (k', v) →
      ∃ sched, exec ⟨k, thr⟩ sched = some ⟨k', thr.set t (.ret v)⟩ := by
  induction fuel with
  | zero =>
      intro k thr t pc k' v ht h
      cases pc with
      | ret w =>
          simp only [run_alone, Option.some.injEq, Prod.mk.injEq] at h
          obtain ⟨rfl, rfl⟩ := h
          refine ⟨[], ?_⟩
          simp only [exec]
          rw [set_eq_self ht]
      | _ => simp [run_alone] at h
  | succ fuel ih =>
      intro k thr t pc k' v ht h
      by_cases hret : ∃ w, pc = .ret w
      · obtain ⟨w, rfl⟩ := hret
        rw [run_alone_ret] at h
        simp only [Option.some.injEq, Prod.mk.injEq] at h
        obtain ⟨rfl, rfl⟩ := h
        refine ⟨[], ?_⟩
        simp only [exec]
        rw [set_eq_self ht]
      · have hstep : run_alone (fuel + 1) k pc
            = match run_pc k pc with
              | none => none
              | some (s, pc) => run_alone fuel s pc := by
          cases pc <;> first | rfl | exact absurd ⟨_, rfl⟩ hret
        rw [hstep] at h
        cases hr : run_pc k pc with
        | none => rw [hr] at h; exact absurd h (by simp)
        | some r =>
            obtain ⟨k1, pc1⟩ := r
            rw [hr] at h
            have ht1 : (thr.set t pc1)[t]? = some pc1 := getElem?_set_self_of_some ht
            obtain ⟨sched, he⟩ := ih k1 (thr.set t pc1) t pc1 k' v ht1 h
            refine ⟨.run t :: sched, ?_⟩
            simp only [exec, step_run_of (s := ⟨k, thr⟩) ht hr, he, List.set_set]

theorem exec_call_alone {s : Sys} (c : Call) (fuel : Nat) {k' : KState} {v : Int}
    (h : run_alone fuel s.k c.entry = some (k', v)) :
    ∃ sched, exec s sched = some ⟨k', s.threads ++ [.ret v]⟩ := by
  obtain ⟨sched, he⟩ := exec_run_alone fuel s.k (s.threads ++ [c.entry]) s.threads.length
    c.entry k' v (by simp) h
  refine ⟨.call c :: sched, ?_⟩
  simp only [exec, step]
  rw [he]
  simp

theorem accevt_destroy_alone (k : KState) (id : Int) (q : Nat)
    (hf : find_event k id = some q) (hq : q < k.heap.length) (hnr : (k.deref q).nr = 0) :
    ∃ k', accevt_destroy k id = some (k', 0) ∧ k'.event_list = k.event_list.erase q ∧
      k'.last_event_id = k.last_event_id := by
  have e1 : run_pc k (.destroy_entry id)
      = some ({ k with event_list := k.event_list.erase q }, .destroy_retire q) := by
    simp only [run_pc, hf]
  obtain ⟨k1, hk1⟩ : ∃ k1, k1 = ({ k with event_list := k.event_list.erase q } : KState) :=
    ⟨_, rfl⟩
  have hd1 : k1.deref q = k.deref q := by rw [hk1]; rfl
  have hq1 : q < k1.heap.length := by rw [hk1]; exact hq
  have e2 : run_pc k1 (.destroy_retire q)
      = some (k1.store q { k1.deref q with state := -1 }, .destroy_sleep q) := rfl
  have hnr2 : ((k1.store q { k1.deref q with state := -1 }).deref q).nr = 0 := by
    rw [deref_store_same _ _ hq1, hd1]; exact hnr
  have e3 : run_pc (k1.store q { k1.deref q with state := -1 }) (.destroy_sleep q)
      = some (k1.store q { k1.deref q with state := -1 }, .destroy_free q) := by
    simp only [run_pc, hnr2, if_true]
  have e4 : run_pc (k1.store q { k1.deref q with state := -1 }) (.destroy_free q)
      = some (kfree (k1.store q { k1.deref q with state := -1 }) q, .ret 0) := rfl
  refine ⟨kfree (k1.store q { k1.deref q with state := -1 }) q, ?_, ?_, ?_⟩
  · rw [← hk1] at e1
    simp only [accevt_destroy, run_alone, e1, e2, e3, e4]
  · rw [hk1]; rfl
  · rw [hk1]; rfl

/-- One creation followed by the destruction of the new event, both run
alone from a state with an empty registry: the registry is empty again and
`last_event_id` has advanced by one (modulo 2^32). -/
theorem churn_once (s : Sys) (hl : s.k.event_list = []) :
    ∃ sched s', exec s sched = some s' ∧ s'.k.event_list = [] ∧
      s'.k.last_event_id = toInt32 (s.k.last_event_id + 1) := by
  have hf : find_event s.k (toInt32 (s.k.last_event_id + 1)) = none := by
    simp [find_event, hl]
  obtain ⟨k1, hc, hl1, hf1, hd1, hlast1, hlen1, _⟩ := accevt_create_alone s.k ⟨0, 0, 0, 0⟩ hf
  obtain ⟨sched1, he1⟩ := exec_call_alone (s := s)
    (.create (.valid ⟨0, 0, 0, 0⟩) true) 4 hc
  obtain ⟨k2, hd, hl2, hlast2⟩ := accevt_destroy_alone k1 _ s.k.heap.length hf1
    (by omega) (by rw [hd1])
  obtain ⟨sched2, he2⟩ := exec_call_alone
    (s := ⟨k1, s.threads ++ [.ret (toInt32 (s.k.last_event_id + 1))]⟩)
    (.destroy (toInt32 (s.k.last_event_id + 1))) 4 hd
  refine ⟨sched1 ++ sched2,
    ⟨k2, (s.threads ++ [.ret (toInt32 (s.k.last_event_id + 1))]) ++ [.ret 0]⟩, ?_, ?_, ?_⟩
  · rw [exec_append, he1]
    exact he2
  · show k2.event_list = []
    rw [hl2, hl1, hl]
    simp
  · show k2.last_event_id = _
    rw [hlast2, hlast1]

theorem toInt32_succ (a : Int) : toInt32 (toInt32 a + 1) = toInt32 (a + 1) := by
  unfold toInt32; omega

theorem getElem?_snoc2 (l : List Pc) (a b : Pc) :
    ((l ++ [a]) ++ [b])[l.length + 1]? = some b := by
  rw [List.getElem?_append_right (by simp)]
  simp

theorem isInt32_toInt32 (a : Int) : isInt32 (toInt32 a) := by
  unfold isInt32 INT_MIN INT_MAX toInt32; omega

/-- Repeating creation and destruction `n` times from a state with an empty
registry advances `last_event_id` by `n` modulo 2^32. -/
theorem churn (n : Nat) : ∀ s : Sys, s.k.event_list = [] → isInt32 s.k.last_event_id →
    ∃ sched s', exec s sched = some s' ∧ s'.k.event_list = [] ∧
      s'.k.last_event_id = toInt32 (s.k.last_event_id + n) := by
  induction n with
  | zero =>
      intro s hl hv
      refine ⟨[], s, rfl, hl, ?_⟩
      rw [Nat.cast_zero, add_zero, toInt32_of_isInt32 hv]
  | succ n ih =>
      intro s hl hv
      obtain ⟨sched1, s1, he1, hl1, hlast1⟩ := churn_once s hl
      obtain ⟨sched2, s2, he2, hl2, hlast2⟩ := ih s1 hl1 (hlast1 ▸ isInt32_toInt32 _)
      refine ⟨sched1 ++ sched2, s2, ?_, hl2, ?_⟩
      · rw [exec_append, he1]; exact he2
      · rw [hlast2, hlast1]
        unfold toInt32; push_cast; omega

/-! ## Ids before the counter wraps -/

theorem stepNW_eq_some {s s' : Sys} {a : Action} (h : stepNW s a = some s') :
    step s a = some s' ∧ s.k.last_event_id ≤ s'.k.last_event_id := by
  unfold stepNW at h
  cases hs : step s a with
  | none => rw [hs] at h; exact absurd h (by simp)
  | some s1 =>
      rw [hs] at h
      simp only at h
      split at h
      · rename_i hle
        simp only [Option.some.injEq] at h
        subst h
        exact ⟨rfl, hle⟩
      · exact absurd h (by simp)

theorem execNW_invariant (P : Sys → Prop)
    (hstep : ∀ s a s', P s → stepNW s a = some s' → P s') :
    ∀ (sched : List Action) (s s' : Sys), P s → execNW s sched = some s' → P s' := by
  intro sched
  induction sched with
  | nil =>
      intro s s' hp he
      simp only [execNW, Option.some.injEq] at he
      exact he ▸ hp
  | cons a sched ih =>
      intro s s' hp he
      simp only [execNW] at he
      cases hs : stepNW s a with
      | none => rw [hs] at he; exact absurd he (by simp)
      | some s1 =>
          rw [hs] at he
          exact ih s1 s' (hstep s a s1 hp hs) he

theorem ReachableNW.reachable {s : Sys} (h : ReachableNW s) : Reachable s := by
  obtain ⟨sched, he⟩ := h
  exact execNW_invariant Reachable (fun _ _ _ hp hs => hp.next (stepNW_eq_some hs).1)
    sched Sys.init s Reachable.boot he

theorem run_pc_pending_none {k k' : KState} {pc pc' : Pc}
    (h : run_pc k pc = some (k', pc')) (hc : pc.creating = false) : pc'.pending = none := by
  cases pc with
  | create_entry a ok => simp [Pc.creating] at hc
  | create_check ua q id => simp [Pc.creating] at hc
  | create_init ua q id => simp [Pc.creating] at hc
  | signal_entry a =>
      cases a with
      | valid ka => rcases (run_pc_signal_entry_valid h).2 with rfl | ⟨_, rfl⟩ <;> rfl
      | _ =>
          simp only [run_pc, Option.some.injEq, Prod.mk.injEq] at h
          rw [← h.2]; rfl
  | wait_exit q res =>
      simp only [run_pc] at h
      split at h
      · simp only [Option.some.injEq, Prod.mk.injEq] at h; rw [← h.2]; rfl
      · split at h <;> (simp only [Option.some.injEq, Prod.mk.injEq] at h; rw [← h.2]; rfl)
  | signal_scan d len =>
      simp only [run_pc, Option.bind_eq_bind, Option.bind_eq_some, Option.some.injEq,
        Prod.mk.injEq] at h
      obtain ⟨_, _, _, h2⟩ := h
      rw [← h2]; rfl
  | wait_entry id =>
      simp only [run_pc] at h
      split at h <;> (simp only [Option.some.injEq, Prod.mk.injEq] at h; rw [← h.2]; rfl)
  | destroy_entry id =>
      simp only [run_pc] at h
      split at h <;> (simp only [Option.some.injEq, Prod.mk.injEq] at h; rw [← h.2]; rfl)
  | wait_sleep q =>
      simp only [run_pc] at h
      split at h
      · simp only [Option.some.injEq, Prod.mk.injEq] at h; rw [← h.2]; rfl
      · exact absurd h (by simp)
  | destroy_sleep q =>
      simp only [run_pc] at h
      split at h
      · simp only [Option.some.injEq, Prod.mk.injEq] at h; rw [← h.2]; rfl
      · exact absurd h (by simp)
  | ret v => simp [run_pc] at h
  | _ =>
      simp only [run_pc, Option.some.injEq, Prod.mk.injEq] at h
      rw [← h.2]; rfl

theorem Effect.ids_frame {k k' : KState} {pc pc' : Pc} (e : Effect k pc k' pc')
    (hc : pc.creating = false) :
    (∀ p ∈ k'.event_list, p ∈ k.event_list) ∧ k'.last_event_id = k.last_event_id ∧
    ∀ p, (k'.deref p).event_id = (k.deref p).event_id := by
  cases e with
  | same => exact ⟨fun _ h => h, rfl, fun _ => rfl⟩
  | alloc ua => simp [Pc.creating] at hc
  | insert ua q id => simp [Pc.creating] at hc
  | nr pc pc' q n h =>
      refine ⟨fun _ h => h, rfl, fun p => ?_⟩
      rw [deref_store]
      split
      · rename_i hq; rw [hq.1]
      · rfl
  | push ka pc' => exact ⟨fun _ h => h, rfl, fun _ => rfl⟩
  | scan deltas len k' h =>
      obtain ⟨f1, f2, _, _, _, f6, _⟩ := signal_scan_loop_frame _ _ _ _ _ h
      exact ⟨fun p hp => f1 ▸ hp, f2, fun p => (f6 p).1⟩
  | unlink id q h => exact ⟨fun p hp => List.mem_of_mem_erase hp, rfl, fun _ => rfl⟩
  | retire q =>
      refine ⟨fun _ h => h, rfl, fun p => ?_⟩
      rw [deref_store]
      split
      · rename_i hq; rw [hq.1]
      · rfl
  | free q => exact ⟨fun _ h => h, rfl, fun p => by rw [deref_kfree]⟩

theorem IdInv.frame_ids {s : Sys} (inv : IdInv s) {t : Nat} {pc pc' : Pc} {k' : KState}
    (ht : s.threads[t]? = some pc) (hp : ∀ id, pc'.pending = some id → pc.pending = some id)
    (hl : ∀ p ∈ k'.event_list, p ∈ s.k.event_list)
    (hlast : k'.last_event_id = s.k.last_event_id)
    (hid : ∀ p, (k'.deref p).event_id = (s.k.deref p).event_id) :
    IdInv ⟨k', s.threads.set t pc'⟩ := by
  have old : ∀ {t' : Nat} {pc'' : Pc} {id : Int}, (s.threads.set t pc')[t']? = some pc'' →
      pc''.pending = some id → ∃ pc0, s.threads[t']? = some pc0 ∧ pc0.pending = some id := by
    intro t' pc'' id h hpen
    rcases getElem?_set_cases h with ⟨e1, e2⟩ | ⟨_, e2⟩
    · subst e1 e2; exact ⟨pc, ht, hp id hpen⟩
    · exact ⟨pc'', e2, hpen⟩
  constructor
  · show 0 ≤ k'.last_event_id
    rw [hlast]; exact inv.last_nonneg
  · show k'.last_event_id ≤ INT_MAX
    rw [hlast]; exact inv.last_le
  · intro p hp'
    show 1 ≤ (k'.deref p).event_id ∧ (k'.deref p).event_id ≤ k'.last_event_id
    rw [hid, hlast]; exact inv.listed_range p (hl p hp')
  · intro t' pc'' id h hpen
    obtain ⟨pc0, h0, hp0⟩ := old h hpen
    show 1 ≤ id ∧ id ≤ k'.last_event_id
    rw [hlast]; exact inv.pending_range t' pc0 id h0 hp0
  · intro p hp1 p' hp2 he
    change (k'.deref p).event_id = (k'.deref p').event_id at he
    rw [hid, hid] at he
    exact inv.listed_inj p (hl p hp1) p' (hl p' hp2) he
  · intro t' pc'' id h hpen p hp'
    obtain ⟨pc0, h0, hp0⟩ := old h hpen
    show (k'.deref p).event_id ≠ id
    rw [hid]; exact inv.pending_not_listed t' pc0 id h0 hp0 p (hl p hp')
  · intro t1 pc1 t2 pc2 id h1 hp1 h2 hp2
    rcases getElem?_set_cases h1 with ⟨e1, e1'⟩ | ⟨n1, e1'⟩
    · rcases getElem?_set_cases h2 with ⟨e2, e2'⟩ | ⟨n2, e2'⟩
      · rw [e1, e2]
      · subst e1 e1'
        exact inv.pending_inj t1 pc t2 pc2 id ht (hp id hp1) e2' hp2
    · rcases getElem?_set_cases h2 with ⟨e2, e2'⟩ | ⟨n2, e2'⟩
      · subst e2 e2'
        exact inv.pending_inj t1 pc1 t2 pc id e1' hp1 ht (hp id hp2)
      · exact inv.pending_inj t1 pc1 t2 pc2 id e1' hp1 e2' hp2

theorem IdInv.ids_call {s : Sys} (inv : IdInv s) (c : Call) :
    IdInv ⟨s.k, s.threads ++ [c.entry]⟩ := by
  have hn : c.entry.pending = none := by cases c <;> rfl
  have old : ∀ {t' : Nat} {pc'' : Pc} {id : Int}, (s.threads ++ [c.entry])[t']? = some pc'' →
      pc''.pending = some id → s.threads[t']? = some pc'' := by
    intro t' pc'' id h hpen
    by_cases hlt : t' < s.threads.length
    · rw [List.getElem?_append_left hlt] at h; exact h
    · rw [List.getElem?_append_right (not_lt.mp hlt)] at h
      by_cases h0 : t' - s.threads.length = 0
      · rw [h0] at h
        simp only [List.getElem?_cons_zero, Option.some.injEq] at h
        rw [← h, hn] at hpen
        exact absurd hpen (by simp)
      · rw [List.getElem?_eq_none (by simp; omega)] at h
        exact absurd h (by simp)
  constructor
  · exact inv.last_nonneg
  · exact inv.last_le
  · exact inv.listed_range
  · intro t' pc'' id h hpen
    exact inv.pending_range t' pc'' id (old h hpen) hpen
  · exact inv.listed_inj
  · intro t' pc'' id h hpen
    exact inv.pending_not_listed t' pc'' id (old h hpen) hpen
  · intro t1 pc1 t2 pc2 id h1 hp1 h2 hp2
    exact inv.pending_inj t1 pc1 t2 pc2 id (old h1 hp1) hp1 (old h2 hp2) hp2

/-- Drawing an id (lines 147-151 of `accevt_create`) without wrapping
preserves the id invariant. -/
theorem IdInv.alloc {s : Sys} (inv : IdInv s) (t : Nat) (ua : acc_motion) (q : Nat)
    (hlt : s.k.last_event_id < INT_MAX) :
    IdInv ⟨{ (kmalloc s.k).1 with last_event_id := s.k.last_event_id + 1 },
      s.threads.set t (.create_check ua q (s.k.last_event_id + 1))⟩ := by
  have hd : ∀ p, KState.deref { (kmalloc s.k).1 with last_event_id := s.k.last_event_id + 1 } p
      = s.k.deref p := fun p => deref_kmalloc s.k p
  have h0 := inv.last_nonneg
  constructor
  · show 0 ≤ s.k.last_event_id + 1
    omega
  · show s.k.last_event_id + 1 ≤ INT_MAX
    omega
  · intro p hp
    show 1 ≤ (KState.deref _ p).event_id ∧ (KState.deref _ p).event_id ≤ s.k.last_event_id + 1
    rw [hd]
    have := inv.listed_range p hp
    omega
  · intro t' pc'' id h hpen
    show 1 ≤ id ∧ id ≤ s.k.last_event_id + 1
    rcases getElem?_set_cases h with ⟨_, rfl⟩ | ⟨_, h'⟩
    · simp only [Pc.pending, Option.some.injEq] at hpen
      omega
    · have := inv.pending_range t' pc'' id h' hpen
      omega
  · intro p hp1 p' hp2 he
    rw [hd, hd] at he
    exact inv.listed_inj p hp1 p' hp2 he
  · intro t' pc'' id h hpen p hp
    rw [hd]
    rcases getElem?_set_cases h with ⟨_, rfl⟩ | ⟨_, h'⟩
    · simp only [Pc.pending, Option.some.injEq] at hpen
      have := inv.listed_range p hp
      omega
    · exact inv.pending_not_listed t' pc'' id h' hpen p hp
  · intro t1 pc1 t2 pc2 id h1 hp1 h2 hp2
    rcases getElem?_set_cases h1 with ⟨e1, rfl⟩ | ⟨n1, e1'⟩
    · rcases getElem?_set_cases h2 with ⟨e2, rfl⟩ | ⟨n2, e2'⟩
      · rw [e1, e2]
      · simp only [Pc.pending, Option.some.injEq] at hp1
        have := inv.pending_range t2 pc2 id e2' hp2
        omega
    · rcases getElem?_set_cases h2 with ⟨e2, rfl⟩ | ⟨n2, e2'⟩
      · simp only [Pc.pending, Option.some.injEq] at hp2
        have := inv.pending_range t1 pc1 id e1' hp1
        omega
      · exact inv.pending_inj t1 pc1 t2 pc2 id e1' hp1 e2' hp2

/-- Publishing the new event (lines 155-165 of `accevt_create`) preserves the
id invariant. -/
theorem IdInv.insert {s : Sys} (inv : IdInv s) (sinv : Inv s) {t : Nat} {ua : acc_motion}
    {q : Nat} {id : Int} (ht : s.threads[t]? = some (.create_init ua q id))
    (ev : acc_event) (hev : ev.event_id = id) :
    IdInv ⟨{ s.k.store q ev with event_list := q :: s.k.event_list },
      s.threads.set t (.create_ret q)⟩ := by
  have hq := sinv.fresh_valid t _ q ht rfl
  have hnl := sinv.fresh_not_listed t _ q ht rfl
  have hd : ∀ p, KState.deref { s.k.store q ev with event_list := q :: s.k.event_list } p
      = (s.k.store q ev).deref p := fun _ => rfl
  have hdq : (s.k.store q ev).deref q = ev := deref_store_same _ _ hq
  have hdo : ∀ p ∈ s.k.event_list, (s.k.store q ev).deref p = s.k.deref p :=
    fun p hp => deref_store_ne _ _ (fun e => hnl (e ▸ hp))
  have hrange := inv.pending_range t _ id ht rfl
  have old : ∀ {t' : Nat} {pc'' : Pc} {id' : Int},
      (s.threads.set t (.create_ret q))[t']? = some pc'' →
      pc''.pending = some id' → t' ≠ t ∧ s.threads[t']? = some pc'' := by
    intro t' pc'' id' h hpen
    rcases getElem?_set_cases h with ⟨_, rfl⟩ | ⟨n, h'⟩
    · simp [Pc.pending] at hpen
    · exact ⟨n, h'⟩
  constructor
  · exact inv.last_nonneg
  · exact inv.last_le
  · intro p hp
    show 1 ≤ (KState.deref _ p).event_id ∧ (KState.deref _ p).event_id ≤ s.k.last_event_id
    rw [hd]
    rcases List.mem_cons.mp hp with rfl | hp
    · rw [hdq, hev]; exact hrange
    · rw [hdo p hp]; exact inv.listed_range p hp
  · intro t' pc'' id' h hpen
    exact inv.pending_range t' pc'' id' (old h hpen).2 hpen
  · intro p hp1 p' hp2 he
    rw [hd, hd] at he
    rcases List.mem_cons.mp hp1 with e1 | hm1
    · rcases List.mem_cons.mp hp2 with e2 | hm2
      · rw [e1, e2]
      · rw [e1, hdq, hdo p' hm2, hev] at he
        exact absurd he.symm (inv.pending_not_listed t _ id ht rfl p' hm2)
    · rcases List.mem_cons.mp hp2 with e2 | hm2
      · rw [e2, hdq, hdo p hm1, hev] at he
        exact absurd he (inv.pending_not_listed t _ id ht rfl p hm1)
      · rw [hdo p hm1, hdo p' hm2] at he
        exact inv.listed_inj p hm1 p' hm2 he
  · intro t' pc'' id' h hpen p hp
    obtain ⟨hne, h'⟩ := old h hpen
    rw [hd]
    rcases List.mem_cons.mp hp with rfl | hp
    · rw [hdq, hev]
      intro e
      exact hne (inv.pending_inj t' pc'' t _ id' h' hpen ht (by rw [← e]; rfl))
    · rw [hdo p hp]
      exact inv.pending_not_listed t' pc'' id' h' hpen p hp
  · intro t1 pc1 t2 pc2 id' h1 hp1 h2 hp2
    exact inv.pending_inj t1 pc1 t2 pc2 id' (old h1 hp1).2 hp1 (old h2 hp2).2 hp2

theorem toInt32_succ_of_le {a : Int} (h0 : 0 ≤ a) (h1 : a ≤ INT_MAX)
    (h : a ≤ toInt32 (a + 1)) : a < INT_MAX ∧ toInt32 (a + 1) = a + 1 := by
  unfold INT_MAX toInt32 at *
  omega

/-- Every transition that does not wrap `last_event_id` preserves the id
invariant. -/
theorem IdInv.nowrap_step_preserved {s s' : Sys} {a : Action} (inv : IdInv s) (sinv : Inv s)
    (h : stepNW s a = some s') : IdInv s' := by
  obtain ⟨h, hnw⟩ := stepNW_eq_some h
  cases a with
  | call c =>
      simp only [step, Option.some.injEq] at h
      subst h
      exact inv.ids_call c
  | intr t =>
      obtain ⟨pc, k', pc', ht, hr, rfl⟩ := step_intr h
      obtain ⟨rfl, hc⟩ := intr_pc_eq hr
      refine inv.frame_ids ht ?_ (fun _ hp => hp) rfl (fun _ => rfl)
      rcases hc with ⟨p, res, rfl, rfl, _⟩ | ⟨p, rfl, rfl, _⟩ | ⟨p, rfl, rfl, _⟩ <;>
        simp [Pc.pending]
  | run t =>
      obtain ⟨pc, k', pc', ht, hr, rfl⟩ := step_run h
      by_cases hc : pc.creating = false
      · obtain ⟨f1, f2, f3⟩ := (run_pc_effect hr).ids_frame hc
        have hp := run_pc_pending_none hr hc
        exact inv.frame_ids ht (fun id hid => by rw [hp] at hid; exact absurd hid (by simp))
          f1 f2 f3
      · cases pc with
        | create_entry a ok =>
            cases a with
            | null =>
                simp only [run_pc, Option.some.injEq, Prod.mk.injEq] at hr
                obtain ⟨rfl, rfl⟩ := hr
                exact inv.frame_ids ht (by simp [Pc.pending]) (fun _ hp => hp) rfl (fun _ => rfl)
            | bad =>
                simp only [run_pc, Option.some.injEq, Prod.mk.injEq] at hr
                obtain ⟨rfl, rfl⟩ := hr
                exact inv.frame_ids ht (by simp [Pc.pending]) (fun _ hp => hp) rfl (fun _ => rfl)
            | valid ua =>
                cases ok with
                | false =>
                    simp only [run_pc, Option.some.injEq, Prod.mk.injEq] at hr
                    obtain ⟨rfl, rfl⟩ := hr
                    exact inv.frame_ids ht (by simp [Pc.pending]) (fun _ hp => hp) rfl
                      (fun _ => rfl)
                | true =>
                    simp only [run_pc, if_true, Option.some.injEq, Prod.mk.injEq] at hr
                    obtain ⟨rfl, rfl⟩ := hr
                    have hnw' : s.k.last_event_id ≤ toInt32 (s.k.last_event_id + 1) := hnw
                    obtain ⟨hlt, he⟩ := toInt32_succ_of_le inv.last_nonneg inv.last_le hnw'
                    have := inv.alloc t ua s.k.heap.length hlt
                    rw [← he] at this
                    exact this
        | create_check ua q id =>
            simp only [run_pc] at hr
            split at hr <;> simp only [Option.some.injEq, Prod.mk.injEq] at hr <;>
              obtain ⟨rfl, rfl⟩ := hr <;>
              exact inv.frame_ids ht (by simp [Pc.pending]) (fun _ hp => hp) rfl (fun _ => rfl)
        | create_init ua q id =>
            simp only [run_pc, Option.some.injEq, Prod.mk.injEq] at hr
            obtain ⟨rfl, rfl⟩ := hr
            exact inv.insert sinv ht _ rfl
        | _ => simp [Pc.creating] at hc

theorem IdInv.ids_at_boot : IdInv Sys.init := by
  constructor <;> simp [Sys.init, KState.init, INT_MAX]

/-- The structural and the id invariant hold in every state reachable before
`last_event_id` wraps. -/
theorem ReachableNW.invs {s : Sys} (h : ReachableNW s) : Inv s ∧ IdInv s := by
  obtain ⟨sched, he⟩ := h
  exact execNW_invariant (fun s => Inv s ∧ IdInv s)
    (fun _ _ _ hp hs =>
      ⟨hp.1.step_preserved (stepNW_eq_some hs).1, hp.2.nowrap_step_preserved hp.1 hs⟩)
    sched Sys.init s ⟨Inv.at_boot, IdInv.ids_at_boot⟩ he

/-! ## Lookup of an id that is not registered -/

theorem find_event_eq_none (k : KState) (id : Int)
    (h : ∀ p ∈ k.event_list, (k.deref p).event_id ≠ id) : find_event k id = none := by
  unfold find_event
  rw [List.find?_eq_none]
  intro p hp
  simpa using h p hp

/-- When no registered event carries `id`, a caller entering
`accevt_wait(id)` or `accevt_destroy(id)` returns `-EINVAL` in its first step
(it never sleeps), and the whole kernel state (registry, every event, the
sample buffer) and every other caller are left as they were. -/
theorem lookup_fails (s : Sys) (t : Nat) (id : Int)
    (h : ∀ p ∈ s.k.event_list, (s.k.deref p).event_id ≠ id) :
    (s.threads[t]? = some (.wait_entry id) →
      step s (.run t) = some ⟨s.k, s.threads.set t (.ret (-EINVAL))⟩) ∧
    (s.threads[t]? = some (.destroy_entry id) →
      step s (.run t) = some ⟨s.k, s.threads.set t (.ret (-EINVAL))⟩) ∧
    accevt_wait s.k id = some (s.k, -EINVAL) ∧
    accevt_destroy s.k id = some (s.k, -EINVAL) := by
  have hf := find_event_eq_none s.k id h
  refine ⟨?_, ?_, ?_, ?_⟩
  · intro ht
    simp [step, List.get?_eq_getElem?, ht, run_pc, hf, Sys.moved]
  · intro ht
    simp [step, List.get?_eq_getElem?, ht, run_pc, hf, Sys.moved]
  · simp [accevt_wait, run_alone, run_pc, hf]
  · simp [accevt_destroy, run_alone, run_pc, hf]

/-! ## What stays true of a destroyed event -/

theorem Pc.fresh_none_of_not_creating {pc : Pc} (h : pc.creating = false) : pc.fresh = none := by
  cases pc <;> simp_all [Pc.creating, Pc.fresh]

theorem Pc.fresh_none_of_pending_none {pc : Pc} (h : pc.pending = none) : pc.fresh = none := by
  cases pc <;> simp_all [Pc.pending, Pc.fresh]

theorem Effect.heap_length {k k' : KState} {pc pc' : Pc} (e : Effect k pc k' pc') :
    k.heap.length ≤ k'.heap.length := by
  cases e with
  | same => exact le_refl _
  | alloc ua => simp [kmalloc]
  | insert ua q id =>
      show _ ≤ (k.store q _).heap.length
      rw [store_heap_length]
  | nr pc pc' q n h => rw [store_heap_length]
  | push ka pc' => exact le_refl _
  | scan deltas len k' h =>
      obtain ⟨_, _, _, f4, _⟩ := signal_scan_loop_frame _ _ _ _ _ h
      rw [f4]
  | unlink id q h => exact le_refl _
  | retire q => rw [store_heap_length]
  | free q => simp [kfree]

/-- What one step of a caller does to the addresses: nothing is deallocated
from the heap list, the registry gains at most the address the caller was
creating, and a caller gets a fresh address only by allocating it. -/
theorem run_pc_pointers {k k' : KState} {pc pc' : Pc} (h : run_pc k pc = some (k', pc')) :
    k.heap.length ≤ k'.heap.length ∧
    (∀ q ∈ k'.event_list, q ∈ k.event_list ∨ pc.fresh = some q) ∧
    (∀ q, pc'.fresh = some q → pc.fresh = some q ∨ q = k.heap.length) := by
  have e := run_pc_effect h
  refine ⟨e.heap_length, ?_, ?_⟩
  · by_cases hc : pc.creating = false
    · exact fun q hq => Or.inl ((e.ids_frame hc).1 q hq)
    · cases e with
      | insert ua q id =>
          intro p hp
          rcases List.mem_cons.mp hp with rfl | hp
          · exact Or.inr rfl
          · exact Or.inl hp
      | scan deltas len k' hk =>
          obtain ⟨f1, _⟩ := signal_scan_loop_frame _ _ _ _ _ hk
          exact fun q hq => Or.inl (f1 ▸ hq)
      | unlink id q h => exact fun p hp => Or.inl (List.mem_of_mem_erase hp)
      | _ => exact fun q hq => Or.inl hq
  · by_cases hc : pc.creating = false
    · intro q hq
      rw [Pc.fresh_none_of_pending_none (run_pc_pending_none h hc)] at hq
      exact absurd hq (by simp)
    · cases pc with
      | create_entry a ok =>
          cases a with
          | valid ua =>
              cases ok with
              | true =>
                  simp only [run_pc, if_true, Option.some.injEq, Prod.mk.injEq] at h
                  obtain ⟨_, rfl⟩ := h
                  intro q hq
                  simp only [Pc.fresh, Option.some.injEq] at hq
                  exact Or.inr hq.symm
              | false =>
                  simp only [run_pc, Option.some.injEq, Prod.mk.injEq] at h
                  obtain ⟨_, rfl⟩ := h
                  intro q hq; simp [Pc.fresh] at hq
          | _ =>
              simp only [run_pc, Option.some.injEq, Prod.mk.injEq] at h
              obtain ⟨_, rfl⟩ := h
              intro q hq; simp [Pc.fresh] at hq
      | create_check ua p id =>
          simp only [run_pc] at h
          split at h <;> simp only [Option.some.injEq, Prod.mk.injEq] at h <;>
            obtain ⟨_, rfl⟩ := h <;> intro q hq
          · simp [Pc.fresh] at hq
          · exact Or.inl hq
      | create_init ua p id =>
          simp only [run_pc, Option.some.injEq, Prod.mk.injEq] at h
          obtain ⟨_, rfl⟩ := h
          intro q hq; simp [Pc.fresh] at hq
      | _ => simp [Pc.creating] at hc

/-- Once an allocated address is off the registry and in no creator's hands,
it stays so under every transition. -/
theorem unlinked_step {p : Nat} {s s' : Sys} {a : Action}
    (hu : p < s.k.heap.length ∧ p ∉ s.k.event_list ∧
      ∀ (t : Nat) (pc : Pc), s.threads[t]? = some pc → pc.fresh ≠ some p)
    (h : step s a = some s') :
    p < s'.k.heap.length ∧ p ∉ s'.k.event_list ∧
      ∀ (t : Nat) (pc : Pc), s'.threads[t]? = some pc → pc.fresh ≠ some p := by
  obtain ⟨h1, h2, h3⟩ := hu
  cases a with
  | call c =>
      simp only [step, Option.some.injEq] at h
      subst h
      refine ⟨h1, h2, ?_⟩
      intro t pc ht
      by_cases hlt : t < s.threads.length
      · rw [List.getElem?_append_left hlt] at ht; exact h3 t pc ht
      · rw [List.getElem?_append_right (not_lt.mp hlt)] at ht
        by_cases h0 : t - s.threads.length = 0
        · rw [h0] at ht
          simp only [List.getElem?_cons_zero, Option.some.injEq] at ht
          rw [← ht]
          cases c <;> simp [Call.entry, Pc.fresh]
        · rw [List.getElem?_eq_none (by simp; omega)] at ht
          exact absurd ht (by simp)
  | intr t0 =>
      obtain ⟨pc, k', pc', ht0, hr, rfl⟩ := step_intr h
      obtain ⟨rfl, hc⟩ := intr_pc_eq hr
      refine ⟨h1, h2, ?_⟩
      intro t pc1 ht
      rcases getElem?_set_cases ht with ⟨_, rfl⟩ | ⟨_, e⟩
      · rcases hc with ⟨_, _, _, rfl, _⟩ | ⟨_, _, rfl, _⟩ | ⟨_, _, rfl, _⟩ <;> simp [Pc.fresh]
      · exact h3 t pc1 e
  | run t0 =>
      obtain ⟨pc, k', pc', ht0, hr, rfl⟩ := step_run h
      obtain ⟨g1, g2, g3⟩ := run_pc_pointers hr
      refine ⟨by show p < k'.heap.length; omega, ?_, ?_⟩
      · intro hm
        rcases g2 p hm with hm | hm
        · exact h2 hm
        · exact h3 t0 pc ht0 hm
      · intro t pc1 ht hf
        rcases getElem?_set_cases ht with ⟨_, rfl⟩ | ⟨_, e⟩
        · rcases g3 p hf with hf | hf
          · exact h3 t0 pc ht0 hf
          · omega
        · exact h3 t pc1 e hf

theorem unlinked_exec {p : Nat} (sched : List Action) :
    ∀ s s' : Sys, (p < s.k.heap.length ∧ p ∉ s.k.event_list ∧
      ∀ (t : Nat) (pc : Pc), s.threads[t]? = some pc → pc.fresh ≠ some p) →
    exec s sched = some s' →
    p < s'.k.heap.length ∧ p ∉ s'.k.event_list ∧
      ∀ (t : Nat) (pc : Pc), s'.threads[t]? = some pc → pc.fresh ≠ some p :=
  exec_invariant _ (fun _ _ _ hp hs => unlinked_step hp hs) sched

/-- Once no registered event and no creator at work carries `id`, and `id` is
not above the counter, this stays so under every transition that does not
wrap the counter. -/
theorem id_gone_step {id : Int} {s s' : Sys} {a : Action} (sinv : Inv s) (inv : IdInv s)
    (hg : (∀ q ∈ s.k.event_list, (s.k.deref q).event_id ≠ id) ∧
      (∀ (t : Nat) (pc : Pc), s.threads[t]? = some pc → pc.pending ≠ some id) ∧
      id ≤ s.k.last_event_id)
    (h : stepNW s a = some s') :
    (∀ q ∈ s'.k.event_list, (s'.k.deref q).event_id ≠ id) ∧
      (∀ (t : Nat) (pc : Pc), s'.threads[t]? = some pc → pc.pending ≠ some id) ∧
      id ≤ s'.k.last_event_id := by
  obtain ⟨g1, g2, g3⟩ := hg
  obtain ⟨hs, hnw⟩ := stepNW_eq_some h
  cases a with
  | call c =>
      simp only [step, Option.some.injEq] at hs
      subst hs
      refine ⟨g1, ?_, g3⟩
      intro t pc ht
      by_cases hlt : t < s.threads.length
      · rw [List.getElem?_append_left hlt] at ht; exact g2 t pc ht
      · rw [List.getElem?_append_right (not_lt.mp hlt)] at ht
        by_cases h0 : t - s.threads.length = 0
        · rw [h0] at ht
          simp only [List.getElem?_cons_zero, Option.some.injEq] at ht
          rw [← ht]
          cases c <;> simp [Call.entry, Pc.pending]
        · rw [List.getElem?_eq_none (by simp; omega)] at ht
          exact absurd ht (by simp)
  | intr t0 =>
      obtain ⟨pc, k', pc', ht0, hr, rfl⟩ := step_intr hs
      obtain ⟨rfl, hc⟩ := intr_pc_eq hr
      refine ⟨g1, ?_, g3⟩
      intro t pc1 ht
      rcases getElem?_set_cases ht with ⟨_, rfl⟩ | ⟨_, e⟩
      · rcases hc with ⟨_, _, _, rfl, _⟩ | ⟨_, _, rfl, _⟩ | ⟨_, _, rfl, _⟩ <;> simp [Pc.pending]
      · exact g2 t pc1 e
  | run t0 =>
      obtain ⟨pc, k', pc', ht0, hr, rfl⟩ := step_run hs
      by_cases hc : pc.creating = false
      · obtain ⟨f1, f2, f3⟩ := (run_pc_effect hr).ids_frame hc
        have hp := run_pc_pending_none hr hc
        refine ⟨?_, ?_, ?_⟩
        · intro q hq
          show (k'.deref q).event_id ≠ id
          rw [f3]; exact g1 q (f1 q hq)
        · intro t pc1 ht
          rcases getElem?_set_cases ht with ⟨_, rfl⟩ | ⟨_, e⟩
          · rw [hp]; simp
          · exact g2 t pc1 e
        · show id ≤ k'.last_event_id
          rw [f2]; exact g3
      · cases pc with
        | create_entry a ok =>
            cases a with
            | valid ua =>
                cases ok with
                | true =>
                    simp only [run_pc, if_true, Option.some.injEq, Prod.mk.injEq] at hr
                    obtain ⟨rfl, rfl⟩ := hr
                    have hnw' : s.k.last_event_id ≤ toInt32 (s.k.last_event_id + 1) := hnw
                    obtain ⟨_, he⟩ := toInt32_succ_of_le inv.last_nonneg inv.last_le hnw'
                    refine ⟨?_, ?_, ?_⟩
                    · intro q hq
                      show (((kmalloc s.k).1).deref q).event_id ≠ id
                      rw [deref_kmalloc]; exact g1 q hq
                    · intro t pc1 ht
                      rcases getElem?_set_cases ht with ⟨_, rfl⟩ | ⟨_, e⟩
                      · simp only [Pc.pending, ne_eq, Option.some.injEq]
                        intro e
                        have e' : toInt32 (s.k.last_event_id + 1) = id := e
                        omega
                      · exact g2 t pc1 e
                    · show id ≤ toInt32 (s.k.last_event_id + 1)
                      rw [he]; omega
                | false =>
                    simp only [run_pc, Option.some.injEq, Prod.mk.injEq] at hr
                    obtain ⟨rfl, rfl⟩ := hr
                    refine ⟨g1, ?_, g3⟩
                    intro t pc1 ht
                    rcases getElem?_set_cases ht with ⟨_, rfl⟩ | ⟨_, e⟩
                    · simp [Pc.pending]
                    · exact g2 t pc1 e
            | null =>
                simp only [run_pc, Option.some.injEq, Prod.mk.injEq] at hr
                obtain ⟨rfl, rfl⟩ := hr
                refine ⟨g1, ?_, g3⟩
                intro t pc1 ht
                rcases getElem?_set_cases ht with ⟨_, rfl⟩ | ⟨_, e⟩
                · simp [Pc.pending]
                · exact g2 t pc1 e
            | bad =>
                simp only [run_pc, Option.some.injEq, Prod.mk.injEq] at hr
                obtain ⟨rfl, rfl⟩ := hr
                refine ⟨g1, ?_, g3⟩
                intro t pc1 ht
                rcases getElem?_set_cases ht with ⟨_, rfl⟩ | ⟨_, e⟩
                · simp [Pc.pending]
                · exact g2 t pc1 e
        | create_check ua q id' =>
            have hne := g2 t0 _ ht0
            simp only [run_pc] at hr
            split at hr <;> simp only [Option.some.injEq, Prod.mk.injEq] at hr <;>
              obtain ⟨rfl, rfl⟩ := hr <;> refine ⟨g1, ?_, g3⟩ <;> intro t pc1 ht <;>
              rcases getElem?_set_cases ht with ⟨_, rfl⟩ | ⟨_, e⟩
            · simp [Pc.pending]
            · exact g2 t pc1 e
            · exact hne
            · exact g2 t pc1 e
        | create_init ua q id' =>
            have hne : id' ≠ id := by
              have := g2 t0 _ ht0
              simpa [Pc.pending] using this
            have hq := sinv.fresh_valid t0 _ q ht0 rfl
            have hnl := sinv.fresh_not_listed t0 _ q ht0 rfl
            simp only [run_pc, Option.some.injEq, Prod.mk.injEq] at hr
            obtain ⟨rfl, rfl⟩ := hr
            refine ⟨?_, ?_, g3⟩
            · intro p hp
              show ((s.k.store q _).deref p).event_id ≠ id
              rcases List.mem_cons.mp hp with e | hm
              · rw [e, deref_store_same _ _ hq]; exact hne
              · have hpq : p ≠ q := fun e' => hnl (e' ▸ hm)
                rw [deref_store_ne _ _ hpq]; exact g1 p hm
            · intro t pc1 ht
              rcases getElem?_set_cases ht with ⟨_, rfl⟩ | ⟨_, e⟩
              · simp [Pc.pending]
              · exact g2 t pc1 e
        | _ => simp [Pc.creating] at hc

theorem ReachableNW.next_nowrap {s s' : Sys} {a : Action} (h : ReachableNW s)
    (hs : stepNW s a = some s') : ReachableNW s' := by
  obtain ⟨sched, he⟩ := h
  refine ⟨sched ++ [a], ?_⟩
  have happ : ∀ (l1 l2 : List Action) (s0 : Sys),
      execNW s0 (l1 ++ l2) = (execNW s0 l1).bind (fun s => execNW s l2) := by
    intro l1
    induction l1 with
    | nil => intro l2 s0; rfl
    | cons b l1 ih =>
        intro l2 s0
        simp only [List.cons_append, execNW]
        cases stepNW s0 b with
        | none => rfl
        | some s1 => exact ih l2 s1
  rw [happ, he]
  simp [execNW, hs]

theorem id_gone_exec {id : Int} (sched : List Action) :
    ∀ s s' : Sys, (ReachableNW s ∧
      (∀ q ∈ s.k.event_list, (s.k.deref q).event_id ≠ id) ∧
      (∀ (t : Nat) (pc : Pc), s.threads[t]? = some pc → pc.pending ≠ some id) ∧
      id ≤ s.k.last_event_id) →
    execNW s sched = some s' →
    ReachableNW s' ∧ (∀ q ∈ s'.k.event_list, (s'.k.deref q).event_id ≠ id) ∧
      (∀ (t : Nat) (pc : Pc), s'.threads[t]? = some pc → pc.pending ≠ some id) ∧
      id ≤ s'.k.last_event_id :=
  execNW_invariant _
    (fun _ _ _ hp hs =>
      ⟨hp.1.next_nowrap hs, id_gone_step hp.1.invs.1 hp.1.invs.2 hp.2 hs⟩) sched

theorem stepNW_of_step {s s' : Sys} {a : Action} (h : step s a = some s')
    (hl : s.k.last_event_id ≤ s'.k.last_event_id) : stepNW s a = some s' := by
  unfold stepNW
  rw [h]
  simp only [hl, if_true]

theorem abs_diff_comm (x y : Int) : abs_diff x y = abs_diff y x := by
  unfold abs_diff
  by_cases h1 : x > y
  · have h2 : ¬ y > x := by omega
    rw [if_pos h1, if_neg h2]
  · by_cases h2 : y > x
    · rw [if_neg h1, if_pos h2]
    · have : x = y := by omega
      subst this
      rfl

theorem calc_delta_comm (a b : dev_acceleration) : calc_delta a b = calc_delta b a := by
  unfold calc_delta
  rw [abs_diff_comm a.x b.x, abs_diff_comm a.y b.y, abs_diff_comm a.z b.z]

/-! ## Lemmas: events with `frq = 0` -/

theorem test_event_frq_zero {ev : acc_event} {deltas : CArray acc_delta} {len r : Int}
    (h : test_event ev deltas len = some r) (hz : ev.acc.frq = 0) : r = 1 := by
  simp only [test_event, Option.bind_eq_bind, Option.bind_eq_some] at h
  obtain ⟨frq, _, h⟩ := h
  rw [hz] at h
  simp only [ge_iff_le, zero_le, if_true, Option.some.injEq] at h
  exact h.symm

theorem signal_scan_loop_frq_zero (deltas : CArray acc_delta) (len : Int) :
    ∀ (l : List Nat) (s s' : KState), signal_scan_loop deltas len l s = some s' →
      ∀ p ∈ l, p < s.heap.length → (s.deref p).acc.frq = 0 → (s'.deref p).state = 1 := by
  intro l
  induction l with
  | nil => intro s s' _ p hp; exact absurd hp (by simp)
  | cons q l ih =>
      intro s s' h p hp hlt hz
      simp only [signal_scan_loop, Option.bind_eq_bind, Option.bind_eq_some] at h
      obtain ⟨r, hr, h⟩ := h
      by_cases hpl : p ∈ l
      · refine ih _ s' h p hpl (by simpa using hlt) ?_
        rw [deref_store]
        split
        · rename_i hq; rw [hq.1] at hz; exact hz
        · exact hz
      · have hpq : p = q := by
          rcases List.mem_cons.mp hp with e | e
          · exact e
          · exact absurd e hpl
        subst hpq
        obtain ⟨_, _, _, _, _, _, f7⟩ := signal_scan_loop_frame _ _ _ _ _ h
        rw [f7 p hpl, deref_store_same _ _ hlt]
        have := test_event_frq_zero hr hz
        simp [this]

theorem accevt_signal_cases {k k' : KState} {a : UserPtr dev_acceleration} {r : Int}
    (h : accevt_signal k a = some (k', r)) :
    (k' = k ∧ r ≠ 0) ∨
    (∃ ka, a = .valid ka ∧ k' = { k with acc_buffer := signal_push k.acc_buffer ka } ∧
      r = - EIO) ∨
    (∃ ka deltas, a = .valid ka ∧ r = 0 ∧
      signal_scan_loop deltas (kfifo_len k.acc_buffer) k.event_list
        { k with acc_buffer := signal_push k.acc_buffer ka } = some k') := by
  unfold accevt_signal at h
  cases a with
  | null =>
      simp only [run_alone, run_pc, run_alone_ret, Option.some.injEq, Prod.mk.injEq] at h
      exact Or.inl ⟨h.1.symm, by rw [← h.2]; decide⟩
  | bad =>
      simp only [run_alone, run_pc, run_alone_ret, Option.some.injEq, Prod.mk.injEq] at h
      exact Or.inl ⟨h.1.symm, by rw [← h.2]; decide⟩
  | valid ka =>
      simp only [run_alone] at h
      cases he : run_pc k (.signal_entry (.valid ka)) with
      | none => rw [he] at h; exact absurd h (by simp)
      | some x =>
          obtain ⟨k1, pc1⟩ := x
          rw [he] at h
          obtain ⟨rfl, hpc⟩ := run_pc_signal_entry_valid he
          rcases hpc with rfl | ⟨d, rfl⟩
          · simp only [run_alone_ret, Option.some.injEq, Prod.mk.injEq] at h
            exact Or.inr (Or.inl ⟨ka, rfl, h.1.symm, h.2.symm⟩)
          · simp only [run_alone, run_pc, Option.bind_eq_bind] at h
            cases hs : signal_scan_loop d (kfifo_len k.acc_buffer) k.event_list
                { k with acc_buffer := signal_push k.acc_buffer ka } with
            | none =>
                simp only [hs, Option.none_bind] at h
                exact absurd h (by simp)
            | some k2 =>
                simp only [hs, Option.some_bind, run_alone_ret, Option.some.injEq,
                  Prod.mk.injEq] at h
                exact Or.inr (Or.inr ⟨ka, d, rfl, h.2.symm, h.1 ▸ hs⟩)

theorem accevt_signal_frq_zero {k k' : KState} {a : UserPtr dev_acceleration}
    (h : accevt_signal k a = some (k', 0)) {p : Nat} (hp : p ∈ k.event_list)
    (hlt : p < k.heap.length) (hz : (k.deref p).acc.frq = 0) : (k'.deref p).state = 1 := by
  rcases accevt_signal_cases h with ⟨_, hr⟩ | ⟨_, _, _, hr⟩ | ⟨ka, d, _, _, hs⟩
  · exact absurd rfl hr
  · exact absurd hr (by decide)
  · exact signal_scan_loop_frq_zero _ _ _ _ _ hs p hp hlt hz

/-! ## Lemmas: the outcome of a wait -/

theorem toInt32_inc_dec {n : Int} (h : isInt32 n) : toInt32 (toInt32 (n + 1) - 1) = n := by
  unfold isInt32 INT_MIN INT_MAX at h
  unfold toInt32
  omega

theorem store_deref_self (k : KState) (p : Nat) : k.store p (k.deref p) = k := by
  unfold KState.store KState.deref KState.is_freed
  have : k.heap.set p ⟨(k.heap.getD p ⟨zero_event, true⟩).ev,
      (k.heap.getD p ⟨zero_event, true⟩).freed⟩ = k.heap := by
    apply List.ext_getElem?
    intro i
    rw [List.getElem?_set]
    split
    · rename_i h
      subst h
      split
      · rename_i h2
        rw [List.getD_eq_getElem?_getD, List.getElem?_eq_getElem h2]
        rfl
      · rename_i h2
        rw [List.getElem?_eq_none (by omega)]
    · rfl
  rw [this]

theorem store_store (k : KState) (p : Nat) (e1 e2 : acc_event) :
    (k.store p e1).store p e2 = k.store p e2 := by
  unfold KState.store KState.is_freed
  simp only [List.set_set]
  congr 2
  simp only [List.getD_eq_getElem?_getD, List.getElem?_set]
  split
  · split
    · rename_i h2
      rw [List.getElem?_eq_getElem h2]
      rfl
    · rename_i h2
      rw [List.getElem?_eq_none (by omega)]
  · rfl

/-- A wait on a listed event that is not pending, running alone: the caller
goes through lines 191-204 without sleeping, leaves the kernel state as it
found it and returns by the state of the event. -/
theorem accevt_wait_alone (k : KState) (id : Int) (p : Nat) (hf : find_event k id = some p)
    (hp : p < k.heap.length) (hn : isInt32 (k.deref p).nr) (hs : (k.deref p).state ≠ 0) :
    accevt_wait k id = some (k, if (k.deref p).state < 0 then -EAGAIN else 0) := by
  obtain ⟨k1, hk1⟩ : ∃ k1, k1 = k.store p { k.deref p with nr := toInt32 ((k.deref p).nr + 1) } :=
    ⟨_, rfl⟩
  have e1 : k1.deref p = { k.deref p with nr := toInt32 ((k.deref p).nr + 1) } := by
    rw [hk1]; exact deref_store_same _ _ hp
  have s1 : run_pc k (.wait_entry id) = some (k, .wait_inc p) := by
    simp only [run_pc, hf]
  have s2 : run_pc k (.wait_inc p) = some (k1, .wait_sleep p) := by
    rw [hk1]; rfl
  have s3 : run_pc k1 (.wait_sleep p) = some (k1, .wait_dec p 0) := by
    have : (k1.deref p).state ≠ 0 := by rw [e1]; exact hs
    simp only [run_pc, this, ne_eq, not_false_eq_true, if_true]
  have e2 : k1.store p { k1.deref p with nr := toInt32 ((k1.deref p).nr - 1) } = k := by
    rw [e1, hk1, store_store]
    simp only [toInt32_inc_dec hn]
    exact store_deref_self k p
  have s4 : run_pc k1 (.wait_dec p 0) = some (k, .wait_exit p 0) := by
    simp only [run_pc, e2]
  have s5 : run_pc k (.wait_exit p 0)
      = some (k, .ret (if (k.deref p).state < 0 then -EAGAIN else 0)) := by
    simp only [run_pc, lt_self_iff_false, if_false]
    split <;> rfl
  simp only [accevt_wait, run_alone, s1, s2, s3, s4, s5, run_alone_ret]

/-! ## Lemmas: the sample buffer stays within its window -/

theorem Effect.buffer_le {k k' : KState} {pc pc' : Pc} (e : Effect k pc k' pc')
    (hb : k.acc_buffer.length ≤ WINDOW + 1) : k'.acc_buffer.length ≤ WINDOW + 1 := by
  cases e with
  | push ka pc' =>
      show (signal_push k.acc_buffer ka).length ≤ _
      rw [signal_push_length _ _ hb]
      omega
  | scan deltas len k' h =>
      obtain ⟨_, _, f3, _⟩ := signal_scan_loop_frame _ _ _ _ _ h
      rw [f3]; exact hb
  | _ => exact hb

theorem scan_ready_of_entry (b : List dev_acceleration) (ka : dev_acceleration)
    (hb : b.length ≤ WINDOW + 1) :
    Pc.scan_ready (.signal_scan
      ((deltas_of ((signal_push b ka).take b.length)).map some
        ++ (uninit acc_delta WINDOW).drop (b.length - 1)) b.length) := by
  have hl := signal_push_length b ka hb
  have h1 : (deltas_of ((signal_push b ka).take b.length)).length = b.length - 1 := by
    rw [deltas_of_length, List.length_take, hl]
    omega
  refine ⟨_, _, rfl, ?_, by omega, by omega, ?_⟩
  · simp only [List.length_append, List.length_map, h1, List.length_drop, uninit,
      List.length_replicate]
    omega
  · rw [h1]; omega

theorem run_pc_scan_ready {k k' : KState} {pc pc' : Pc}
    (hb : k.acc_buffer.length ≤ WINDOW + 1)
    (h : run_pc k pc = some (k', pc')) : pc'.scan_ready := by
  cases pc with
  | signal_entry a =>
      cases a with
      | valid ka =>
          rw [run_pc_signal_entry k ka hb] at h
          simp only [Option.some.injEq, Prod.mk.injEq] at h
          rw [← h.2]
          exact scan_ready_of_entry _ ka hb
      | _ =>
          simp only [run_pc, Option.some.injEq, Prod.mk.injEq] at h
          rw [← h.2]; exact True.intro
  | create_entry a ok =>
      cases a with
      | valid ua =>
          simp only [run_pc] at h
          split at h <;>
            (simp only [Option.some.injEq, Prod.mk.injEq] at h; rw [← h.2]; exact True.intro)
      | _ =>
          simp only [run_pc, Option.some.injEq, Prod.mk.injEq] at h
          rw [← h.2]; exact True.intro
  | create_check ua q id =>
      simp only [run_pc] at h
      split at h <;> (simp only [Option.some.injEq, Prod.mk.injEq] at h; rw [← h.2]; exact True.intro)
  | wait_exit q res =>
      simp only [run_pc] at h
      split at h
      · simp only [Option.some.injEq, Prod.mk.injEq] at h; rw [← h.2]; exact True.intro
      · split at h <;>
          (simp only [Option.some.injEq, Prod.mk.injEq] at h; rw [← h.2]; exact True.intro)
  | signal_scan d len =>
      simp only [run_pc, Option.bind_eq_bind, Option.bind_eq_some, Option.some.injEq,
        Prod.mk.injEq] at h
      obtain ⟨_, _, _, h2⟩ := h
      rw [← h2]; exact True.intro
  | wait_entry id =>
      simp only [run_pc] at h
      split at h <;> (simp only [Option.some.injEq, Prod.mk.injEq] at h; rw [← h.2]; exact True.intro)
  | destroy_entry id =>
      simp only [run_pc] at h
      split at h <;> (simp only [Option.some.injEq, Prod.mk.injEq] at h; rw [← h.2]; exact True.intro)
  | wait_sleep q =>
      simp only [run_pc] at h
      split at h
      · simp only [Option.some.injEq, Prod.mk.injEq] at h; rw [← h.2]; exact True.intro
      · exact absurd h (by simp)
  | destroy_sleep q =>
      simp only [run_pc] at h
      split at h
      · simp only [Option.some.injEq, Prod.mk.injEq] at h; rw [← h.2]; exact True.intro
      · exact absurd h (by simp)
  | ret v => simp [run_pc] at h
  | _ =>
      simp only [run_pc, Option.some.injEq, Prod.mk.injEq] at h
      rw [← h.2]; exact True.intro

theorem BufInv.buf_step {s s' : Sys} {a : Action} (inv : BufInv s)
    (h : step s a = some s') : BufInv s' := by
  obtain ⟨hb, hth⟩ := inv
  cases a with
  | call c =>
      simp only [step, Option.some.injEq] at h
      subst h
      refine ⟨hb, fun t pc ht => ?_⟩
      by_cases hlt : t < s.threads.length
      · rw [List.getElem?_append_left hlt] at ht
        exact hth t pc ht
      · rw [List.getElem?_append_right (not_lt.mp hlt)] at ht
        have hpc : pc = c.entry := by
          by_cases h0 : t - s.threads.length = 0
          · rw [h0] at ht
            simp only [List.getElem?_cons_zero, Option.some.injEq] at ht
            exact ht.symm
          · rw [List.getElem?_eq_none (by simp; omega)] at ht
            exact absurd ht (by simp)
        subst hpc
        cases c <;> exact True.intro
  | intr t =>
      obtain ⟨pc, k', pc', ht, hr, rfl⟩ := step_intr h
      obtain ⟨rfl, hc⟩ := intr_pc_eq hr
      refine ⟨hb, fun t' pc'' ht' => ?_⟩
      rcases getElem?_set_cases ht' with ⟨_, rfl⟩ | ⟨_, ho⟩
      · rcases hc with ⟨p, res, _, rfl, _⟩ | ⟨p, _, rfl, _⟩ | ⟨p, _, rfl, _⟩ <;>
          exact True.intro
      · exact hth t' pc'' ho
  | run t =>
      obtain ⟨pc, k', pc', ht, hr, rfl⟩ := step_run h
      refine ⟨(run_pc_effect hr).buffer_le hb, fun t' pc'' ht' => ?_⟩
      rcases getElem?_set_cases ht' with ⟨_, rfl⟩ | ⟨_, ho⟩
      · exact run_pc_scan_ready hb hr
      · exact hth t' pc'' ho

theorem Reachable.buf_inv {s : Sys} (h : Reachable s) : BufInv s :=
  Reachable.invariant BufInv ⟨by decide, fun t pc ht => absurd ht (by simp [Sys.init])⟩
    (fun _ _ _ _ hi hs => hi.buf_step hs) s h

theorem signal_push_put (b : List dev_acceleration) (x : dev_acceleration)
    (hb : b.length ≤ WINDOW + 1) :
    signal_push b x = (if b.length = WINDOW + 1 then b.drop 1 else b) ++ [x] := by
  unfold signal_push kfifo_len kfifo_skip kfifo_put WINDOW_POW2
  unfold WINDOW at *
  by_cases h21 : b.length = 21
  · simp [h21]
  · have : (b.length : Int) ≠ 21 := by omega
    have h2 : b.length < 32 := by omega
    simp [this, h2, h21]

theorem signal_peek_count (b : List dev_acceleration) (hb : b.length ≤ WINDOW + 1) :
    (signal_peek b).2 = b.length := by
  simp only [signal_peek, kfifo_out_peek]
  omega

theorem scan_step_returns {k : KState} {d : CArray acc_delta} {len : Int}
    (h : Pc.scan_ready (.signal_scan d len)) :
    ∃ k', run_pc k (.signal_scan d len) = some (k', .ret 0) := by
  obtain ⟨ds, rest, rfl, _, h0, h1, hl⟩ := h
  obtain ⟨k', he, _⟩ := signal_scan_loop_spec ds rest len (by omega)
    (by unfold INT_MAX WINDOW at *; omega) k.event_list k
  exact ⟨k', by simp only [run_pc, he, Option.bind_eq_bind, Option.some_bind]⟩

/-! ## Lemmas: what the calls leave untouched -/

theorem run_alone_induct (P : KState → Pc → Prop)
    (hstep : ∀ k pc k' pc', P k pc → run_pc k pc = some (k', pc') → P k' pc') :
    ∀ (fuel : Nat) (k : KState) (pc : Pc) (k' : KState) (v : Int),
      P k pc → run_alone fuel k pc = some (k', v) → P k' (.ret v) := by
  intro fuel
  induction fuel with
  | zero =>
      intro k pc k' v hp h
      cases pc with
      | ret w =>
          simp only [run_alone, Option.some.injEq, Prod.mk.injEq] at h
          obtain ⟨rfl, rfl⟩ := h
          exact hp
      | _ => simp [run_alone] at h
  | succ fuel ih =>
      intro k pc k' v hp h
      by_cases hret : ∃ w, pc = .ret w
      · obtain ⟨w, rfl⟩ := hret
        rw [run_alone_ret] at h
        simp only [Option.some.injEq, Prod.mk.injEq] at h
        obtain ⟨rfl, rfl⟩ := h
        exact hp
      · have hs : run_alone (fuel + 1) k pc
            = match run_pc k pc with
              | none => none
              | some (s, pc) => run_alone fuel s pc := by
          cases pc <;> first | rfl | exact absurd ⟨_, rfl⟩ hret
        rw [hs] at h
        cases hr : run_pc k pc with
        | none => rw [hr] at h; exact absurd h (by simp)
        | some r =>
            obtain ⟨k1, pc1⟩ := r
            rw [hr] at h
            exact ih k1 pc1 k' v (hstep k pc k1 pc1 hp hr) h

theorem run_pc_stays {k k' : KState} {pc pc' : Pc} (h : run_pc k pc = some (k', pc')) :
    (pc.creating = false → pc'.creating = false) ∧
    (pc.signalling = false → pc'.signalling = false) := by
  cases pc with
  | signal_entry a =>
      cases a with
      | valid ka =>
          rcases (run_pc_signal_entry_valid h).2 with rfl | ⟨_, rfl⟩ <;>
            simp [Pc.creating, Pc.signalling]
      | _ =>
          simp only [run_pc, Option.some.injEq, Prod.mk.injEq] at h
          rw [← h.2]; simp [Pc.creating, Pc.signalling]
  | create_entry a ok =>
      cases a with
      | valid ua =>
          simp only [run_pc] at h
          split at h <;>
            (simp only [Option.some.injEq, Prod.mk.injEq] at h; rw [← h.2]
             simp [Pc.creating, Pc.signalling])
      | _ =>
          simp only [run_pc, Option.some.injEq, Prod.mk.injEq] at h
          rw [← h.2]; simp [Pc.creating, Pc.signalling]
  | create_check ua q id =>
      simp only [run_pc] at h
      split at h <;>
        (simp only [Option.some.injEq, Prod.mk.injEq] at h; rw [← h.2]
         simp [Pc.creating, Pc.signalling])
  | wait_exit q res =>
      simp only [run_pc] at h
      split at h
      · simp only [Option.some.injEq, Prod.mk.injEq] at h; rw [← h.2]
        simp [Pc.creating, Pc.signalling]
      · split at h <;>
          (simp only [Option.some.injEq, Prod.mk.injEq] at h; rw [← h.2]
           simp [Pc.creating, Pc.signalling])
  | signal_scan d len =>
      simp only [run_pc, Option.bind_eq_bind, Option.bind_eq_some, Option.some.injEq,
        Prod.mk.injEq] at h
      obtain ⟨_, _, _, h2⟩ := h
      rw [← h2]; simp [Pc.creating, Pc.signalling]
  | wait_entry id =>
      simp only [run_pc] at h
      split at h <;>
        (simp only [Option.some.injEq, Prod.mk.injEq] at h; rw [← h.2]
         simp [Pc.creating, Pc.signalling])
  | destroy_entry id =>
      simp only [run_pc] at h
      split at h <;>
        (simp only [Option.some.injEq, Prod.mk.injEq] at h; rw [← h.2]
         simp [Pc.creating, Pc.signalling])
  | wait_sleep q =>
      simp only [run_pc] at h
      split at h
      · simp only [Option.some.injEq, Prod.mk.injEq] at h; rw [← h.2]
        simp [Pc.creating, Pc.signalling]
      · exact absurd h (by simp)
  | destroy_sleep q =>
      simp only [run_pc] at h
      split at h
      · simp only [Option.some.injEq, Prod.mk.injEq] at h; rw [← h.2]
        simp [Pc.creating, Pc.signalling]
      · exact absurd h (by simp)
  | ret v => simp [run_pc] at h
  | _ =>
      simp only [run_pc, Option.some.injEq, Prod.mk.injEq] at h
      rw [← h.2]; simp [Pc.creating, Pc.signalling]

theorem StateOnly.same (k : KState) : StateOnly k k :=
  ⟨rfl, rfl, rfl, fun _ => rfl, fun _ => ⟨rfl, rfl, rfl⟩, fun _ _ => rfl⟩

theorem StateOnly.of_scan {k k' : KState} {d : CArray acc_delta} {len : Int}
    (h : signal_scan_loop d len k.event_list k = some k') : StateOnly k k' := by
  obtain ⟨f1, f2, _, f4, f5, f6, f7⟩ := signal_scan_loop_frame _ _ _ _ _ h
  exact ⟨f1, f4, f2, f5, f6, f7⟩

theorem StateOnly.ids {k k' : KState} (h : StateOnly k k') :
    k'.event_list.map (fun p => (k'.deref p).event_id)
      = k.event_list.map (fun p => (k.deref p).event_id) := by
  rw [h.1]
  exact List.map_congr_left (fun p _ => (h.2.2.2.2.1 p).1)

theorem accevt_signal_frame {k k' : KState} {a : UserPtr dev_acceleration} {r : Int}
    (h : accevt_signal k a = some (k', r)) : StateOnly k k' := by
  rcases accevt_signal_cases h with ⟨rfl, _⟩ | ⟨ka, _, rfl, _⟩ | ⟨ka, d, _, _, hs⟩
  · exact StateOnly.same _
  · exact ⟨rfl, rfl, rfl, fun _ => rfl, fun _ => ⟨rfl, rfl, rfl⟩, fun _ _ => rfl⟩
  · exact StateOnly.of_scan (k := { k with acc_buffer := signal_push k.acc_buffer ka }) hs

theorem Effect.signal_frame {k k' : KState} {pc pc' : Pc} (e : Effect k pc k' pc')
    (hs : pc.signalling = true) : StateOnly k k' := by
  cases e with
  | same => exact StateOnly.same _
  | push ka pc' => exact ⟨rfl, rfl, rfl, fun _ => rfl, fun _ => ⟨rfl, rfl, rfl⟩, fun _ _ => rfl⟩
  | scan deltas len k' h => exact StateOnly.of_scan h
  | nr pc pc' q n h => cases pc <;> simp_all [Pc.signalling, Pc.holds]
  | _ => simp [Pc.signalling] at hs

theorem Effect.spec_frame {k k' : KState} {pc pc' : Pc} (e : Effect k pc k' pc') (p : Nat)
    (hp : pc.fresh ≠ some p) : SameSpec k k' p := by
  cases e with
  | same => exact ⟨rfl, rfl⟩
  | alloc ua =>
      show ((kmalloc k).1.deref p).event_id = _ ∧ ((kmalloc k).1.deref p).acc = _
      rw [deref_kmalloc]
      exact ⟨rfl, rfl⟩
  | insert ua q id =>
      have hne : p ≠ q := fun e => hp (by rw [e]; rfl)
      show ((k.store q _).deref p).event_id = _ ∧ ((k.store q _).deref p).acc = _
      rw [deref_store_ne _ _ hne]
      exact ⟨rfl, rfl⟩
  | nr pc pc' q n h =>
      unfold SameSpec
      rw [deref_store]
      split
      · rename_i hq; rw [hq.1]; exact ⟨rfl, rfl⟩
      · exact ⟨rfl, rfl⟩
  | push ka pc' => exact ⟨rfl, rfl⟩
  | scan deltas len k' h =>
      obtain ⟨_, _, _, _, _, f6, _⟩ := signal_scan_loop_frame _ _ _ _ _ h
      exact ⟨(f6 p).1, (f6 p).2.2⟩
  | unlink id q h => exact ⟨rfl, rfl⟩
  | retire q =>
      unfold SameSpec
      rw [deref_store]
      split
      · rename_i hq; rw [hq.1]; exact ⟨rfl, rfl⟩
      · exact ⟨rfl, rfl⟩
  | free q =>
      unfold SameSpec
      rw [deref_kfree]
      exact ⟨rfl, rfl⟩

theorem Effect.buffer_same {k k' : KState} {pc pc' : Pc} (e : Effect k pc k' pc')
    (hs : pc.signalling = false) : k'.acc_buffer = k.acc_buffer := by
  cases e with
  | push ka pc' => simp [Pc.signalling] at hs
  | scan deltas len k' h => simp [Pc.signalling] at hs
  | _ => rfl

/-- A call other than `accevt_signal`, run alone from a point where the caller
has no object of its own in the making below address `n`: the sample buffer
and the id and motion of every object below `n` are as before. -/
theorem run_alone_spec_frame (k0 : KState) (n : Nat) (fuel : Nat) (k : KState) (pc : Pc)
    (k' : KState) (v : Int) (hn : n ≤ k.heap.length) (hf : ∀ q, pc.fresh = some q → n ≤ q)
    (hs : pc.signalling = false) (hb : k.acc_buffer = k0.acc_buffer)
    (hk : ∀ p, p < n → SameSpec k0 k p) (h : run_alone fuel k pc = some (k', v)) :
    k'.acc_buffer = k0.acc_buffer ∧ ∀ p, p < n → SameSpec k0 k' p := by
  have := run_alone_induct
    (fun k pc => n ≤ k.heap.length ∧ (∀ q, pc.fresh = some q → n ≤ q) ∧
      pc.signalling = false ∧ k.acc_buffer = k0.acc_buffer ∧ ∀ p, p < n → SameSpec k0 k p)
    (fun k pc k1 pc1 hP hr => by
      obtain ⟨h1, h2, h3, h4, h5⟩ := hP
      have e := run_pc_effect hr
      obtain ⟨g1, _, g3⟩ := run_pc_pointers hr
      refine ⟨le_trans h1 g1, fun q hq => ?_, (run_pc_stays hr).2 h3,
        (e.buffer_same h3).trans h4, fun p hp => ?_⟩
      · rcases g3 q hq with hq' | hq'
        · exact h2 q hq'
        · rw [hq']; exact h1
      · have hne : pc.fresh ≠ some p := fun hq => absurd (h2 p hq) (by omega)
        obtain ⟨a1, a2⟩ := e.spec_frame p hne
        obtain ⟨b1, b2⟩ := h5 p hp
        exact ⟨a1.trans b1, a2.trans b2⟩)
    fuel k pc k' v ⟨hn, hf, hs, hb, hk⟩ h
  exact ⟨this.2.2.2.1, this.2.2.2.2⟩

/-- The same for a call that never has an object in the making
(`accevt_wait`, `accevt_destroy`): every object keeps its id and motion. -/
theorem run_alone_spec_frame_all (k0 : KState) (fuel : Nat) (k : KState) (pc : Pc)
    (k' : KState) (v : Int) (hc : pc.creating = false)
    (hs : pc.signalling = false) (hb : k.acc_buffer = k0.acc_buffer)
    (hk : ∀ p, SameSpec k0 k p) (h : run_alone fuel k pc = some (k', v)) :
    k'.acc_buffer = k0.acc_buffer ∧ ∀ p, SameSpec k0 k' p := by
  have := run_alone_induct
    (fun k pc => pc.creating = false ∧
      pc.signalling = false ∧ k.acc_buffer = k0.acc_buffer ∧ ∀ p, SameSpec k0 k p)
    (fun k pc k1 pc1 hP hr => by
      obtain ⟨h1, h3, h4, h5⟩ := hP
      have e := run_pc_effect hr
      refine ⟨(run_pc_stays hr).1 h1, (run_pc_stays hr).2 h3,
        (e.buffer_same h3).trans h4, fun p => ?_⟩
      have hne : pc.fresh ≠ some p := by
        rw [Pc.fresh_none_of_not_creating h1]; simp
      obtain ⟨a1, a2⟩ := e.spec_frame p hne
      obtain ⟨b1, b2⟩ := h5 p
      exact ⟨a1.trans b1, a2.trans b2⟩)
    fuel k pc k' v ⟨hc, hs, hb, hk⟩ h
  exact ⟨this.2.2.1, this.2.2.2⟩

/-! ## Lemmas: registered events are live, retired events stay retired -/

theorem signal_scan_loop_states (deltas : CArray acc_delta) (len : Int) :
    ∀ (l : List Nat) (s s' : KState), signal_scan_loop deltas len l s = some s' →
      ∀ p, (s'.deref p).state = (s.deref p).state ∨ (s'.deref p).state = 0 ∨
        (s'.deref p).state = 1 := by
  intro l
  induction l with
  | nil =>
      intro s s' h p
      simp only [signal_scan_loop, Option.some.injEq] at h
      subst h
      exact Or.inl rfl
  | cons q l ih =>
      intro s s' h p
      simp only [signal_scan_loop, Option.bind_eq_bind, Option.bind_eq_some] at h
      obtain ⟨r, _, h⟩ := h
      rcases ih _ s' h p with e | e
      · rw [e, deref_store]
        split
        · by_cases hr : r ≠ 0
          · exact Or.inr (Or.inr (by simp [hr]))
          · exact Or.inr (Or.inl (by simp [hr]))
        · exact Or.inl rfl
      · exact Or.inr e

theorem ListedLive.live_step {s s' : Sys} {a : Action} (inv : Inv s) (hl : ListedLive s)
    (h : step s a = some s') : ListedLive s' := by
  cases a with
  | call c =>
      simp only [step, Option.some.injEq] at h
      subst h
      exact hl
  | intr t =>
      obtain ⟨pc, k', pc', ht, hr, rfl⟩ := step_intr h
      obtain ⟨rfl, _⟩ := intr_pc_eq hr
      exact hl
  | run t =>
      obtain ⟨pc, k', pc', ht, hr, rfl⟩ := step_run h
      have e := run_pc_effect hr
      intro p hp
      cases e with
      | same => exact hl p hp
      | alloc ua =>
          have : KState.deref { (kmalloc s.k).1 with
              last_event_id := toInt32 (s.k.last_event_id + 1) } p = s.k.deref p :=
            deref_kmalloc s.k p
          rw [this]
          exact hl p hp
      | insert ua q id =>
          have hq := inv.fresh_valid t _ q ht rfl
          have hnl := inv.fresh_not_listed t _ q ht rfl
          rcases List.mem_cons.mp hp with e1 | e1
          · subst e1
            have : KState.deref { s.k.store p ⟨id, 0, 0,
                  { ua with frq := if ua.frq > WINDOW then WINDOW else ua.frq }⟩
                with event_list := p :: s.k.event_list } p
                = ⟨id, 0, 0, { ua with frq := if ua.frq > WINDOW then WINDOW else ua.frq }⟩ :=
              deref_store_same s.k _ hq
            rw [this]
            exact Or.inl rfl
          · have hne : p ≠ q := fun e2 => hnl (e2 ▸ e1)
            have : KState.deref { s.k.store q ⟨id, 0, 0,
                  { ua with frq := if ua.frq > WINDOW then WINDOW else ua.frq }⟩
                with event_list := q :: s.k.event_list } p = s.k.deref p :=
              deref_store_ne s.k _ hne
            rw [this]
            exact hl p e1
      | nr pc pc' q n hh =>
          rw [(deref_store_nr s.k q n p).2]
          exact hl p hp
      | push ka pc' => exact hl p hp
      | scan deltas len k' hk =>
          obtain ⟨f1, _⟩ := signal_scan_loop_frame _ _ _ _ _ hk
          rcases signal_scan_loop_states _ _ _ _ _ hk p with e1 | e1
          · rw [e1]
            exact hl p (f1 ▸ hp)
          · exact e1
      | unlink id q hf =>
          exact hl p (List.mem_of_mem_erase hp)
      | retire q =>
          have hnl := inv.unlinked t _ q ht rfl
          have hne : p ≠ q := fun e2 => hnl (e2 ▸ hp)
          rw [deref_store_ne _ _ hne]
          exact hl p hp
      | free q =>
          rw [deref_kfree]
          exact hl p hp

theorem Reachable.listed_live {s : Sys} (h : Reachable s) : ListedLive s :=
  Reachable.invariant ListedLive (fun p hp => absurd hp (by simp [Sys.init, KState.init]))
    (fun _ _ _ hr hi hs => hi.live_step hr.inv hs) s h

theorem RetiredAt.of_retired {s : Sys} (inv : Inv s) {t : Nat} {pc : Pc} {p : Nat}
    (ht : s.threads[t]? = some pc) (hp : pc.retired = some p) : RetiredAt p s := by
  have hu := Pc.unlinked_of_retired hp
  have hh := Pc.holds_of_unlinked hu
  exact ⟨⟨inv.holds_valid t pc p ht hh, inv.unlinked t pc p ht hu,
    fun t' pc' ht' hf => inv.fresh_not_held t' pc' p t pc ht' hf ht hh⟩,
    inv.retired t pc p ht hp⟩

theorem RetiredAt.retired_step {p : Nat} {s s' : Sys} {a : Action} (hR : RetiredAt p s)
    (h : step s a = some s') : RetiredAt p s' := by
  refine ⟨unlinked_step hR.1 h, ?_⟩
  obtain ⟨⟨h1, h2, h3⟩, h4⟩ := hR
  cases a with
  | call c =>
      simp only [step, Option.some.injEq] at h
      subst h
      exact h4
  | intr t =>
      obtain ⟨pc, k', pc', ht, hr, rfl⟩ := step_intr h
      obtain ⟨rfl, _⟩ := intr_pc_eq hr
      exact h4
  | run t =>
      obtain ⟨pc, k', pc', ht, hr, rfl⟩ := step_run h
      have e := run_pc_effect hr
      cases e with
      | same => exact h4
      | alloc ua =>
          have : KState.deref { (kmalloc s.k).1 with
              last_event_id := toInt32 (s.k.last_event_id + 1) } p = s.k.deref p :=
            deref_kmalloc s.k p
          rw [this]
          exact h4
      | insert ua q id =>
          have hne : p ≠ q := fun e2 => h3 t _ ht (by rw [e2]; rfl)
          have : KState.deref { s.k.store q ⟨id, 0, 0,
                { ua with frq := if ua.frq > WINDOW then WINDOW else ua.frq }⟩
              with event_list := q :: s.k.event_list } p = s.k.deref p :=
            deref_store_ne s.k _ hne
          rw [this]
          exact h4
      | nr pc pc' q n hh =>
          rw [(deref_store_nr s.k q n p).2]
          exact h4
      | push ka pc' => exact h4
      | scan deltas len k' hk =>
          obtain ⟨_, _, _, _, _, _, f7⟩ := signal_scan_loop_frame _ _ _ _ _ hk
          rw [f7 p h2]
          exact h4
      | unlink id q hf => exact h4
      | retire q =>
          rw [deref_store]
          split
          · rfl
          · exact h4
      | free q =>
          rw [deref_kfree]
          exact h4

theorem RetiredAt.retired_exec {p : Nat} (sched : List Action) :
    ∀ s s' : Sys, RetiredAt p s → exec s sched = some s' → RetiredAt p s' :=
  exec_invariant _ (fun _ _ _ hp hs => hp.retired_step hs) sched

/-! ## Lemmas: sequences of samples -/

theorem submit_all_snoc (x : dev_acceleration) (l : List dev_acceleration) :
    ∀ k : KState, k.acc_buffer.length ≤ WINDOW + 1 →
      ∃ k1 k2, submit_all k l = some k1 ∧ accevt_signal k1 (.valid x) = some (k2, 0) ∧
        submit_all k (l ++ [x]) = some k2 ∧
        k1.acc_buffer = lastN (WINDOW + 1) (k.acc_buffer ++ l) ∧
        k1.event_list = k.event_list ∧ k1.heap.length = k.heap.length ∧
        ∀ p, (k1.deref p).acc = (k.deref p).acc := by
  induction l with
  | nil =>
      intro k hb
      obtain ⟨k2, h, _⟩ := accevt_signal_spec k x hb
      refine ⟨k, k2, rfl, h, ?_, ?_, rfl, rfl, fun _ => rfl⟩
      · simp only [List.nil_append, submit_all, h]
      · unfold lastN
        have : k.acc_buffer.length - (WINDOW + 1) = 0 := by omega
        simp [this]
  | cons a l ih =>
      intro k hb
      obtain ⟨s1, h1, hbuf, _⟩ := accevt_signal_spec k a hb
      have hf := accevt_signal_frame h1
      have hb1 : s1.acc_buffer.length ≤ WINDOW + 1 := by
        rw [hbuf, signal_push_length k.acc_buffer a hb]; omega
      obtain ⟨k1, k2, g1, g2, g3, g4, g5, g6, g7⟩ := ih s1 hb1
      refine ⟨k1, k2, ?_, g2, ?_, ?_, by rw [g5, hf.1], by rw [g6, hf.2.1],
        fun p => by rw [g7 p, (hf.2.2.2.2.1 p).2.2]⟩
      · simp only [submit_all, h1]
        exact g1
      · simp only [List.cons_append, submit_all, h1]
        exact g3
      · rw [g4, hbuf, signal_push_eq k.acc_buffer a hb, lastN_append_lastN]
        simp

theorem accevt_signal_state {k k2 : KState} {x : dev_acceleration}
    (hb : k.acc_buffer.length ≤ WINDOW + 1)
    (h : accevt_signal k (.valid x) = some (k2, 0)) {p : Nat} (hp : p ∈ k.event_list)
    (hv : p < k.heap.length) :
    (k2.deref p).state
      = if count_matches (k.deref p).acc
            ((deltas_of (pass_window k.acc_buffer x)).take (k.acc_buffer.length - 1))
          ≥ (k.deref p).acc.frq then 1 else 0 := by
  obtain ⟨s', he, _, _, _, _, _, hd⟩ := accevt_signal_spec k x hb
  rw [he] at h
  simp only [Option.some.injEq, Prod.mk.injEq, and_true] at h
  subst h
  rw [hd p, if_pos ⟨hp, hv⟩, signal_push_eq _ _ hb]
  have : ((k.acc_buffer.length : Int) - 1).toNat = k.acc_buffer.length - 1 := by omega
  simp only [scan_event, this, pass_window]

theorem pass_window_filling (b : List dev_acceleration) (x : dev_acceleration)
    (h : b.length ≤ WINDOW) : pass_window b x = b := by
  unfold pass_window lastN
  have : (b ++ [x]).length - (WINDOW + 1) = 0 := by simp; omega
  rw [this, List.drop_zero, List.take_left']
  rfl

theorem calc_delta_quiet {a b : dev_acceleration} (ha : a.valid) (hb : b.valid)
    (hq : quiet a b) : (calc_delta a b).noise = false := by
  unfold quiet at hq
  simp only [calc_delta, toUInt32_abs_diff ha.1 hb.1, toUInt32_abs_diff ha.2.1 hb.2.1,
    toUInt32_abs_diff ha.2.2 hb.2.2, decide_eq_false_iff_not, not_lt]
  unfold NOISE at *
  omega

theorem count_matches_quiet (acc : acc_motion) (sub : List dev_acceleration)
    (hv : ∀ a ∈ sub, a.valid) (hq : sub.Chain' quiet) (n : Nat) :
    count_matches acc ((deltas_of sub).take n) = 0 := by
  unfold count_matches
  rw [List.countP_eq_zero]
  intro d hd
  obtain ⟨j, hj, e⟩ := List.getElem_of_mem (List.mem_of_mem_take hd)
  rw [deltas_of_length] at hj
  have hg := deltas_of_getElem? sub j (by omega)
  rw [List.getElem?_eq_getElem (by rw [deltas_of_length]; exact hj), e] at hg
  have hd' : d = calc_delta sub[j] sub[j + 1] := Option.some.inj hg
  have hqq : quiet sub[j] sub[j + 1] := (List.chain'_iff_get.mp hq) j hj
  have hn := calc_delta_quiet (hv _ (List.getElem_mem _)) (hv _ (List.getElem_mem _)) hqq
  rw [hd']
  simp [delta_matches, hn]

theorem pass_window_chain {l : List dev_acceleration} {x : dev_acceleration}
    (hv : ∀ a ∈ l ++ [x], a.valid) (hq : (l ++ [x]).Chain' quiet) :
    (∀ a ∈ pass_window (lastN (WINDOW + 1) l) x, a.valid) ∧
    (pass_window (lastN (WINDOW + 1) l) x).Chain' quiet := by
  have e : pass_window (lastN (WINDOW + 1) l) x
      = (lastN (WINDOW + 1) (l ++ [x])).take (lastN (WINDOW + 1) l).length := by
    unfold pass_window
    rw [lastN_append_lastN]
  rw [e]
  unfold lastN
  exact ⟨fun a ha => hv a (List.mem_of_mem_drop (List.mem_of_mem_take ha)),
    (hq.drop _).take _⟩

theorem shake_samples_succ (y z : Int) (n : Nat) :
    shake_samples y z (n + 1)
      = shake_samples y z n ++ [⟨if n % 2 = 0 then 0 else 450, y, z⟩] := by
  unfold shake_samples
  rw [List.range_succ, List.map_append]
  rfl

theorem shake_samples_length (y z : Int) (n : Nat) : (shake_samples y z n).length = n := by
  simp [shake_samples]

theorem calc_delta_shake (y z : Int) (j : Nat) :
    calc_delta ⟨if j % 2 = 0 then 0 else 450, y, z⟩ ⟨if (j + 1) % 2 = 0 then 0 else 450, y, z⟩
      = ⟨450, 0, 0, true⟩ := by
  have h : j % 2 = 0 ∨ j % 2 = 1 := by omega
  rcases h with h | h
  · have h2 : (j + 1) % 2 = 1 := by omega
    simp [calc_delta, abs_diff, toInt32, toUInt32, NOISE, h, h2]
  · have h2 : (j + 1) % 2 = 0 := by omega
    simp [calc_delta, abs_diff, toInt32, toUInt32, NOISE, h, h2]

theorem deltas_of_shake (y z : Int) (n : Nat) :
    deltas_of (shake_samples y z n) = List.replicate (n - 1) ⟨450, 0, 0, true⟩ := by
  rw [List.eq_replicate_iff]
  refine ⟨by rw [deltas_of_length, shake_samples_length], fun d hd => ?_⟩
  obtain ⟨j, hj, e⟩ := List.getElem_of_mem hd
  rw [deltas_of_length, shake_samples_length] at hj
  have hg := deltas_of_getElem? (shake_samples y z n) j
    (by rw [shake_samples_length]; omega)
  rw [List.getElem?_eq_getElem (by rw [deltas_of_length, shake_samples_length]; exact hj),
    e] at hg
  rw [Option.some.inj hg]
  simp only [shake_samples, List.getElem_map, List.getElem_range]
  exact calc_delta_shake y z j

theorem count_matches_shake (m n : Nat) :
    count_matches ⟨400, 0, 0, 4⟩ ((List.replicate m ⟨450, 0, 0, true⟩).take n) = min n m := by
  unfold count_matches
  rw [List.take_replicate, List.countP_replicate]
  simp [delta_matches]

/-- A caller asleep in `accevt_wait` on an event whose state is not 0 runs to
its return: 0 for a positive state, `-EAGAIN` for a negative one. -/
theorem waiter_released (k : KState) (p : Nat) (hs : (k.deref p).state ≠ 0) :
    ∃ k', run_alone 3 k (.wait_sleep p)
      = some (k', if (k.deref p).state < 0 then -EAGAIN else 0) := by
  have s1 : run_pc k (.wait_sleep p) = some (k, .wait_dec p 0) := by
    simp only [run_pc, hs, ne_eq, not_false_eq_true, if_true]
  obtain ⟨k1, hk1⟩ :
      ∃ k1, k1 = k.store p { k.deref p with nr := toInt32 ((k.deref p).nr - 1) } := ⟨_, rfl⟩
  have s2 : run_pc k (.wait_dec p 0) = some (k1, .wait_exit p 0) := by
    rw [hk1]; rfl
  have e1 : (k1.deref p).state = (k.deref p).state := by
    rw [hk1]; exact (deref_store_nr k p _ p).2
  have s3 : run_pc k1 (.wait_exit p 0)
      = some (k1, .ret (if (k.deref p).state < 0 then -EAGAIN else 0)) := by
    simp only [run_pc, e1, lt_self_iff_false, if_false]
    split <;> rfl
  exact ⟨k1, by simp only [run_alone, s1, s2, s3, run_alone_ret]⟩

/-- The first two steps of `accevt_destroy` on a registered event: it is
set to state -1; a caller asleep on it then
returns `-EAGAIN`. -/
theorem destroy_retires (k : KState) (id : Int) (p : Nat) (hf : find_event k id = some p)
    (hv : p < k.heap.length) :
    ∃ ka kb, run_pc k (.destroy_entry id) = some (ka, .destroy_retire p) ∧
      run_pc ka (.destroy_retire p) = some (kb, .destroy_sleep p) ∧
      (kb.deref p).state = -1 ∧
      ∃ kc, run_alone 3 kb (.wait_sleep p) = some (kc, -EAGAIN) := by
  obtain ⟨ka, hka⟩ : ∃ ka, ka = ({ k with event_list := k.event_list.erase p } : KState) :=
    ⟨_, rfl⟩
  have e1 : run_pc k (.destroy_entry id) = some (ka, .destroy_retire p) := by
    rw [hka]; simp only [run_pc, hf]
  have hva : p < ka.heap.length := by rw [hka]; exact hv
  have hst : ((ka.store p { ka.deref p with state := -1 }).deref p).state = -1 := by
    rw [deref_store_same _ _ hva]
  obtain ⟨kc, hkc⟩ := waiter_released (ka.store p { ka.deref p with state := -1 }) p
    (by rw [hst]; decide)
  rw [hst] at hkc
  exact ⟨ka, _, e1, rfl, hst, kc, hkc⟩

/-! ## Delta engine: what `calc_deltas` writes -/

/-- C2: for `n ≤ WINDOW + 1` samples with `int` coordinates held in the first
`n` cells of `acc_data`, `calc_deltas(acc_data, deltas, n)` returns, leaves
every cell `i ≥ n - 1` of `deltas` as it was (nothing at all is written when
`n ≤ 1`), and writes into each cell `i < n - 1` an entry whose three
`unsigned int` fields are the mathematical absolute differences of the
coordinates of samples `i` and `i + 1`, also where the `int` subtraction of
`abs_diff` wraps. -/
theorem calc_deltas_abs_differences (a : List dev_acceleration)
    (pad : CArray dev_acceleration) (deltas : CArray acc_delta)
    (hn : a.length ≤ WINDOW + 1) (hd : deltas.length = WINDOW) (hv : ∀ s ∈ a, s.valid) :
    ∃ d', calc_deltas (a.map some ++ pad) deltas a.length = some d' ∧
      d'.length = WINDOW ∧
      (∀ i (h : i + 1 < a.length), ∃ e, d'[i]? = some (some e) ∧
        e.dlt_x = (a[i].x - a[i + 1].x).natAbs ∧
        e.dlt_y = (a[i].y - a[i + 1].y).natAbs ∧
        e.dlt_z = (a[i].z - a[i + 1].z).natAbs ∧
        e.dlt_x < 4294967296 ∧ e.dlt_y < 4294967296 ∧ e.dlt_z < 4294967296) ∧
      (∀ i, a.length ≤ i + 1 → d'[i]? = deltas[i]?) ∧
      (a.length ≤ 1 → d' = deltas) := by
  have hk : ((a.length : Int) - 1).toNat = a.length - 1 := by omega
  obtain ⟨d', he, hl, hw, hu⟩ := calc_deltas_loop_spec a pad (a.length - 1) 0 deltas
    (by omega) (by unfold WINDOW at hn hd; omega)
  refine ⟨d', by unfold calc_deltas; rw [hk]; exact he, by rw [hl, hd], ?_, ?_, ?_⟩
  · intro i h
    obtain ⟨x, y, hx, hy, hxy⟩ := hw i (by omega) (by omega)
    have hx' : x = a[i] := by
      rw [List.getElem?_eq_getElem (by omega)] at hx; exact (Option.some.inj hx).symm
    have hy' : y = a[i + 1] := by
      rw [List.getElem?_eq_getElem h] at hy; exact (Option.some.inj hy).symm
    subst hx' hy'
    have v1 := hv a[i] (List.getElem_mem _)
    have v2 := hv a[i + 1] (List.getElem_mem _)
    refine ⟨_, hxy, toUInt32_abs_diff v1.1 v2.1, toUInt32_abs_diff v1.2.1 v2.2.1,
      toUInt32_abs_diff v1.2.2 v2.2.2, ?_, ?_, ?_⟩ <;>
    · show toUInt32 _ < 4294967296
      unfold toUInt32; omega
  · intro i hi
    exact hu i (Or.inr (by omega))
  · intro h1
    apply List.ext_getElem?
    intro i
    exact hu i (Or.inr (by omega))

/-- Witness for C2 on the three samples `(0,0,0)`, `(450,-3,7)`,
`(INT_MIN, INT_MAX, 0)`: the hypotheses hold there and the call returns an
array of `WINDOW` cells whose cell 1 holds the exact differences. -/
theorem calc_deltas_abs_differences_witness :
    ∃ d', calc_deltas
        ([(⟨0, 0, 0⟩ : dev_acceleration), ⟨450, -3, 7⟩, ⟨-2147483648, 2147483647, 0⟩].map some
          ++ uninit dev_acceleration 18)
        (uninit acc_delta WINDOW) (3 : Nat) = some d' ∧ d'.length = WINDOW ∧
      ∃ e, d'[1]? = some (some e) ∧ e.dlt_x = 2147484098 ∧ e.dlt_y = 2147483650 ∧
        e.dlt_z = 7 :=
  let ⟨d', h1, h2, h3, _⟩ := calc_deltas_abs_differences
    [⟨0, 0, 0⟩, ⟨450, -3, 7⟩, ⟨-2147483648, 2147483647, 0⟩]
    (uninit dev_acceleration 18) (uninit acc_delta WINDOW) (by decide) (by decide) (by decide)
  let ⟨e, g1, g2, g3, g4, _⟩ := h3 1 (by decide)
  ⟨d', h1, h2, e, g1, g2, g3, g4⟩

theorem submit_all_buffer (l : List dev_acceleration) :
    ∀ s : KState, s.acc_buffer.length ≤ WINDOW + 1 →
      ∃ s', submit_all s l = some s' ∧
        s'.acc_buffer = lastN (WINDOW + 1) (s.acc_buffer ++ l) ∧
        s'.event_list = s.event_list := by
  induction l with
  | nil =>
      intro s hb
      refine ⟨s, rfl, ?_, rfl⟩
      unfold lastN
      have : s.acc_buffer.length - (WINDOW + 1) = 0 := by omega
      simp [this]
  | cons k l ih =>
      intro s hb
      obtain ⟨s1, h1, hbuf, hev, _⟩ := accevt_signal_spec s k hb
      have hb1 : s1.acc_buffer.length ≤ WINDOW + 1 := by
        rw [hbuf, signal_push_length s.acc_buffer k hb]; omega
      obtain ⟨s', h2, hbuf', hev'⟩ := ih s1 hb1
      refine ⟨s', ?_, ?_, by rw [hev', hev]⟩
      · simp only [submit_all, h1]
        exact h2
      · rw [hbuf', hbuf, signal_push_eq s.acc_buffer k hb, lastN_append_lastN]
        simp

/-- C4: starting from an empty sample buffer, after the samples of `l` and
then `k` have been submitted through `accevt_signal` (every call returns 0),
the snapshot that the last call copies into `acc_data` with `kfifo_out_peek`
holds exactly the last `min (|l| + 1) (WINDOW + 1)` submitted samples, oldest
first, and nothing else; it never has more than `WINDOW + 1 = 21` samples;
after 22 submissions it is samples 2..22, so the first sample is gone. -/
theorem snapshot_last_samples (s : KState) (hs : s.acc_buffer = [])
    (l : List dev_acceleration) (k : dev_acceleration) :
    ∃ s' s'', submit_all s l = some s' ∧ accevt_signal s' (.valid k) = some (s'', 0) ∧
      s''.acc_buffer = signal_push s'.acc_buffer k ∧
      signal_peek (signal_push s'.acc_buffer k)
        = ((lastN (WINDOW + 1) (l ++ [k])).map some
            ++ uninit dev_acceleration (WINDOW + 1 - min (WINDOW + 1) (l.length + 1)),
           min (WINDOW + 1) (l.length + 1)) ∧
      (signal_peek (signal_push s'.acc_buffer k)).2 ≤ WINDOW + 1 ∧
      (l.length = WINDOW + 1 →
        (signal_peek (signal_push s'.acc_buffer k)).1 = (l.drop 1 ++ [k]).map some ∧
        ∀ first, l.head? = some first → first ∉ l.drop 1 ++ [k] →
          some first ∉ (signal_peek (signal_push s'.acc_buffer k)).1) := by
  obtain ⟨s', h1, hbuf, _⟩ := submit_all_buffer l s (by rw [hs]; simp)
  rw [hs, List.nil_append] at hbuf
  have hb' : s'.acc_buffer.length ≤ WINDOW + 1 := by
    rw [hbuf, lastN_length]; omega
  obtain ⟨s'', h2, hbuf2, _⟩ := accevt_signal_spec s' k hb'
  have hpush : signal_push s'.acc_buffer k = lastN (WINDOW + 1) (l ++ [k]) := by
    rw [signal_push_eq _ _ hb', hbuf, lastN_append_lastN]
  have hlen : (lastN (WINDOW + 1) (l ++ [k])).length = min (WINDOW + 1) (l.length + 1) := by
    rw [lastN_length]; simp
  have hpeek : signal_peek (signal_push s'.acc_buffer k)
      = ((lastN (WINDOW + 1) (l ++ [k])).map some
          ++ uninit dev_acceleration (WINDOW + 1 - min (WINDOW + 1) (l.length + 1)),
         min (WINDOW + 1) (l.length + 1)) := by
    rw [hpush]
    unfold signal_peek kfifo_out_peek
    have hm : min (WINDOW + 1) (lastN (WINDOW + 1) (l ++ [k])).length
        = min (WINDOW + 1) (l.length + 1) := by rw [hlen]; simp
    simp only [hm]
    rw [← hlen, List.take_length]
    simp [uninit]
  refine ⟨s', s'', h1, h2, hbuf2, hpeek, by rw [hpeek]; exact min_le_left _ _, ?_⟩
  intro h21
  have hsnap : (signal_peek (signal_push s'.acc_buffer k)).1 = (l.drop 1 ++ [k]).map some := by
    rw [hpeek]
    have h0 : WINDOW + 1 - min (WINDOW + 1) (l.length + 1) = 0 := by omega
    have hd : lastN (WINDOW + 1) (l ++ [k]) = l.drop 1 ++ [k] := by
      unfold lastN
      have : (l ++ [k]).length - (WINDOW + 1) = 1 := by simp; omega
      rw [this, List.drop_append_of_le_length (by omega)]
    simp only [h0, hd, uninit, List.replicate_zero, List.append_nil]
  refine ⟨hsnap, ?_⟩
  intro first _ hnot hmem
  rw [hsnap] at hmem
  simp only [List.mem_map, Option.some.injEq, exists_eq_right] at hmem
  exact hnot hmem

/-- Witness for C4: from the boot state, the samples `(1,0,0)`, `(2,0,0)` and
then `(3,0,0)`. -/
theorem snapshot_last_samples_witness :
    KState.init.acc_buffer = [] ∧
    ∃ s' s'', submit_all KState.init [⟨1, 0, 0⟩, ⟨2, 0, 0⟩] = some s' ∧
      accevt_signal s' (.valid ⟨3, 0, 0⟩) = some (s'', 0) ∧
      (signal_peek (signal_push s'.acc_buffer ⟨3, 0, 0⟩)).2 ≤ WINDOW + 1 :=
  ⟨rfl,
    let ⟨s', s'', h1, h2, _, _, h5, _⟩ :=
      snapshot_last_samples KState.init rfl [⟨1, 0, 0⟩, ⟨2, 0, 0⟩] ⟨3, 0, 0⟩
    ⟨s', s'', h1, h2, h5⟩⟩

/-! ## The trigger test during the filling of the buffer -/

/-- C1 (the code at the failing input): an event with thresholds 0 and
`frq = 1` is created at boot, then the samples `(0,0,0)` and `(1000,0,0)` are
submitted.  The snapshot copied by the second call holds both samples, the
one delta between them is noise and matches, so `test_event` on the deltas of
the whole snapshot (length 2) answers 1; but `accevt_signal` passes the
length 1 read before the push, computes no delta, and leaves the event's
state at 0. -/
theorem signal_uses_length_before_push :
    accevt_create KState.init (.valid ⟨0, 0, 0, 1⟩) true
      = some (⟨[⟨⟨1, 0, 0, ⟨0, 0, 0, 1⟩⟩, false⟩], [0], 1, []⟩, 1) ∧
    accevt_signal ⟨[⟨⟨1, 0, 0, ⟨0, 0, 0, 1⟩⟩, false⟩], [0], 1, []⟩ (.valid ⟨0, 0, 0⟩)
      = some (⟨[⟨⟨1, 0, 0, ⟨0, 0, 0, 1⟩⟩, false⟩], [0], 1, [⟨0, 0, 0⟩]⟩, 0) ∧
    accevt_signal ⟨[⟨⟨1, 0, 0, ⟨0, 0, 0, 1⟩⟩, false⟩], [0], 1, [⟨0, 0, 0⟩]⟩
        (.valid ⟨1000, 0, 0⟩)
      = some (⟨[⟨⟨1, 0, 0, ⟨0, 0, 0, 1⟩⟩, false⟩], [0], 1, [⟨0, 0, 0⟩, ⟨1000, 0, 0⟩]⟩, 0) ∧
    signal_peek [⟨0, 0, 0⟩, ⟨1000, 0, 0⟩]
      = (some ⟨0, 0, 0⟩ :: some ⟨1000, 0, 0⟩ :: uninit dev_acceleration 19, 2) ∧
    (calc_deltas (signal_peek [⟨0, 0, 0⟩, ⟨1000, 0, 0⟩]).1 (uninit acc_delta WINDOW) 2).bind
        (fun deltas => test_event ⟨1, 0, 0, ⟨0, 0, 0, 1⟩⟩ deltas 2) = some 1 ∧
    count_matches ⟨0, 0, 0, 1⟩ (deltas_of [⟨0, 0, 0⟩, ⟨1000, 0, 0⟩]) = 1 := by
  decide

/-! ## Unregistered ids -/

/-- C10: when no registered event carries `id`, a caller entering
`accevt_wait(id)` or `accevt_destroy(id)` returns `-EINVAL` in its first step
(it never sleeps), and the whole kernel state (registry, every event, the
sample buffer) and every other caller are left as they were. -/
theorem lookup_unregistered_id (s : Sys) (t : Nat) (id : Int)
    (h : ∀ p ∈ s.k.event_list, (s.k.deref p).event_id ≠ id) :
    (s.threads[t]? = some (.wait_entry id) →
      step s (.run t) = some ⟨s.k, s.threads.set t (.ret (-EINVAL))⟩) ∧
    (s.threads[t]? = some (.destroy_entry id) →
      step s (.run t) = some ⟨s.k, s.threads.set t (.ret (-EINVAL))⟩) ∧
    accevt_wait s.k id = some (s.k, -EINVAL) ∧
    accevt_destroy s.k id = some (s.k, -EINVAL) :=
  lookup_fails s t id h

/-- Witness for C10: one event with id 1 is registered, a caller asks to wait
on id 7. -/
theorem lookup_unregistered_id_witness :
    step ⟨⟨[⟨⟨1, 0, 0, ⟨0, 0, 0, 1⟩⟩, false⟩], [0], 1, []⟩, [.ret 1, .wait_entry 7]⟩ (.run 1)
      = some ⟨⟨[⟨⟨1, 0, 0, ⟨0, 0, 0, 1⟩⟩, false⟩], [0], 1, []⟩, [.ret 1, .ret (-EINVAL)]⟩ :=
  (lookup_unregistered_id
    ⟨⟨[⟨⟨1, 0, 0, ⟨0, 0, 0, 1⟩⟩, false⟩], [0], 1, []⟩, [.ret 1, .wait_entry 7]⟩ 1 7
    (by decide)).1 rfl

/-! ## A waiter between its lookup and its increment -/

/-- C6 (the code at the failing schedule): an event is created (id 1, at
address 0); a first caller enters `accevt_wait(1)` and performs only the
lookup; a second caller runs `accevt_destroy(1)` to its end.  The destroyer
finds `nr == 0`, releases the event and returns 0, while the waiter still
holds the address it got from `find_event` and has neither incremented nor
decremented `nr`; its next step writes into the released object. -/
theorem destroy_frees_under_waiter :
    exec Sys.init
        [.call (.create (.valid ⟨400, 0, 0, 4⟩) true), .run 0, .run 0, .run 0, .run 0,
         .call (.wait 1), .run 1,
         .call (.destroy 1), .run 2, .run 2, .run 2, .run 2]
      = some ⟨⟨[⟨⟨1, -1, 0, ⟨400, 0, 0, 4⟩⟩, true⟩], [], 1, []⟩,
          [.ret 1, .wait_inc 0, .ret 0]⟩ ∧
    KState.is_freed ⟨[⟨⟨1, -1, 0, ⟨400, 0, 0, 4⟩⟩, true⟩], [], 1, []⟩ 0 = true ∧
    step ⟨⟨[⟨⟨1, -1, 0, ⟨400, 0, 0, 4⟩⟩, true⟩], [], 1, []⟩, [.ret 1, .wait_inc 0, .ret 0]⟩
        (.run 1)
      = some ⟨⟨[⟨⟨1, -1, 1, ⟨400, 0, 0, 4⟩⟩, true⟩], [], 1, []⟩,
          [.ret 1, .wait_sleep 0, .ret 0]⟩ := by
  decide

/-! ## Release of an event's storage -/

/-- C5: in every reachable state, (1) a step releases an object only if it is
line 292 of an `accevt_destroy` caller (no step of create, wait or signal
does), the event is then already off the registry and in state -1, and the
caller returns 0; (2) a caller gets to line 292 only from the wait of line
286 ending with `nr == 0`; (3) when a signal ends that wait while `nr != 0`,
the caller returns `-EAGAIN`, the kernel state is untouched (nothing is
released) and the event is still off the registry and in state -1. -/
theorem destroy_release_rule (s s' : Sys) (a : Action) (hr : Reachable s)
    (hs : step s a = some s') :
    (∀ p, s.k.is_freed p = false → s'.k.is_freed p = true →
      ∃ t, a = .run t ∧ s.threads[t]? = some (.destroy_free p) ∧
        s'.threads[t]? = some (.ret 0) ∧
        p ∉ s.k.event_list ∧ (s.k.deref p).state = -1 ∧
        p ∉ s'.k.event_list ∧ (s'.k.deref p).state = -1) ∧
    (∀ (t p : Nat), s'.threads[t]? = some (Pc.destroy_free p) →
      s.threads[t]? ≠ some (Pc.destroy_free p) →
      s.threads[t]? = some (Pc.destroy_sleep p) ∧ (s.k.deref p).nr = 0 ∧ s'.k = s.k) ∧
    (∀ (t p : Nat), a = .intr t → s.threads[t]? = some (Pc.destroy_sleep p) →
      (s.k.deref p).nr ≠ 0 →
      s'.threads[t]? = some (Pc.ret (-EAGAIN)) ∧ s'.k = s.k ∧
      p ∉ s'.k.event_list ∧ (s'.k.deref p).state = -1) := by
  have inv := hr.inv
  have inv' := inv.step_preserved hs
  refine ⟨?_, ?_, ?_⟩
  · intro p h0 h1
    cases a with
    | call c =>
        simp only [step, Option.some.injEq] at hs
        subst hs
        rw [h0] at h1; exact absurd h1 (by simp)
    | intr t =>
        obtain ⟨pc, k', pc', ht, hi, rfl⟩ := step_intr hs
        obtain ⟨rfl, _⟩ := intr_pc_eq hi
        rw [h0] at h1; exact absurd h1 (by simp)
    | run t =>
        obtain ⟨pc, k', pc', ht, hrun, rfl⟩ := step_run hs
        obtain ⟨rfl, rfl⟩ := (run_pc_effect hrun).released p h0 h1
        have ht' : (s.threads.set t (Pc.ret 0))[t]? = some (Pc.ret 0) :=
          getElem?_set_self_of_some ht
        simp only [run_pc, Option.some.injEq, Prod.mk.injEq] at hrun
        have hk := hrun.1
        subst hk
        refine ⟨t, rfl, ht, ht', inv.unlinked t _ p ht rfl, inv.retired t _ p ht rfl, ?_, ?_⟩
        · exact inv.unlinked t _ p ht rfl
        · show ((kfree s.k p).deref p).state = -1
          rw [deref_kfree]; exact inv.retired t _ p ht rfl
  · intro t p h1 h0
    cases a with
    | call c =>
        simp only [step, Option.some.injEq] at hs
        subst hs
        exfalso
        by_cases hlt : t < s.threads.length
        · rw [List.getElem?_append_left hlt] at h1; exact h0 h1
        · rw [List.getElem?_append_right (not_lt.mp hlt)] at h1
          by_cases h00 : t - s.threads.length = 0
          · rw [h00] at h1
            cases c <;> simp [Call.entry] at h1
          · rw [List.getElem?_eq_none (by simp; omega)] at h1
            exact absurd h1 (by simp)
    | intr t0 =>
        obtain ⟨pc, k', pc', ht, hi, rfl⟩ := step_intr hs
        obtain ⟨rfl, hc⟩ := intr_pc_eq hi
        rcases getElem?_set_cases h1 with ⟨rfl, e⟩ | ⟨_, e⟩
        · rcases hc with ⟨q, res, rfl, rfl, _⟩ | ⟨q, rfl, rfl, hn⟩ | ⟨q, rfl, rfl, _⟩
          · simp at e
          · simp only [Pc.destroy_free.injEq] at e
            subst e
            exact ⟨ht, hn, rfl⟩
          · simp at e
        · exact absurd e h0
    | run t0 =>
        obtain ⟨pc, k', pc', ht, hrun, rfl⟩ := step_run hs
        rcases getElem?_set_cases h1 with ⟨rfl, e⟩ | ⟨_, e⟩
        · obtain ⟨rfl, hn, rfl⟩ := run_pc_to_free hrun e.symm
          exact ⟨ht, hn, rfl⟩
        · exact absurd e h0
  · intro t p ha ht hn
    subst ha
    obtain ⟨pc, k', pc', ht0, hi, rfl⟩ := step_intr hs
    rw [ht] at ht0
    cases ht0
    simp only [intr_pc, hn, if_false, Option.some.injEq, Prod.mk.injEq] at hi
    obtain ⟨rfl, rfl⟩ := hi
    exact ⟨getElem?_set_self_of_some ht, rfl, inv.unlinked t _ p ht rfl,
      inv.retired t _ p ht rfl⟩

/-- Witness for C5: an event is created and a destroyer has reached line 292;
its next step releases the event. -/
theorem destroy_release_rule_witness :
    ∃ t, (Action.run 2 = .run t) ∧
      (([.ret 1, .ret (-EINVAL), .destroy_free 0] : List Pc))[t]? = some (.destroy_free 0) :=
  let sched : List Action :=
    [.call (.create (.valid ⟨400, 0, 0, 4⟩) true), .run 0, .run 0, .run 0, .run 0,
     .call (.wait 5), .run 1, .call (.destroy 1), .run 2, .run 2, .run 2]
  let s : Sys := ⟨⟨[⟨⟨1, -1, 0, ⟨400, 0, 0, 4⟩⟩, false⟩], [], 1, []⟩,
    [.ret 1, .ret (-EINVAL), .destroy_free 0]⟩
  let s' : Sys := ⟨⟨[⟨⟨1, -1, 0, ⟨400, 0, 0, 4⟩⟩, true⟩], [], 1, []⟩,
    [.ret 1, .ret (-EINVAL), .ret 0]⟩
  have hr : Reachable s := ⟨sched, by decide⟩
  have hs : step s (.run 2) = some s' := by decide
  let ⟨t, h1, h2, _⟩ := (destroy_release_rule s s' (.run 2) hr hs).1 0 (by decide) (by decide)
  ⟨t, h1, h2⟩

/-! ## What `accevt_create` stores -/

/-- C8 (the code at the failing inputs): (1) a first caller of
`accevt_create` draws id 1 and publishes its event, at address 0; before it
executes line 167, `accevt_destroy(1)` runs to its end and releases the
object, and a second creator, to which `kmalloc` hands the same memory, draws
id 2, publishes its event and returns 2.  The first creator then reads
`acc_evt->event_id` from the memory it no longer owns and returns 2 as well:
two successful creations return the same id, and the first caller holds the
id of an event with other thresholds.  The counter is 2, it has not wrapped.
(2) Without any reuse of memory, after 2^31 - 1 creations (each followed by
the destruction of the new event) `last_event_id` is `INT_MAX`, and the next
`accevt_create` registers its event and returns `INT_MIN = -2147483648`: a
negative id, smaller than every id handed out before. -/
theorem creators_return_same_id :
    exec Sys.init [.call (.create (.valid ⟨400, 0, 0, 4⟩) true), .run 0, .run 0, .run 0]
      = some ⟨⟨[⟨⟨1, 0, 0, ⟨400, 0, 0, 4⟩⟩, false⟩], [0], 1, []⟩, [.create_ret 0]⟩ ∧
    execR ⟨⟨[⟨⟨1, 0, 0, ⟨400, 0, 0, 4⟩⟩, false⟩], [0], 1, []⟩, [.create_ret 0]⟩
        [.act (.call (.destroy 1)), .act (.run 1), .act (.run 1), .act (.run 1),
         .act (.run 1),
         .act (.call (.create (.valid ⟨0, 400, 0, 4⟩) true)), .reuse 2 0,
         .act (.run 2), .act (.run 2), .act (.run 2),
         .act (.run 0)]
      = some ⟨⟨[⟨⟨2, 0, 0, ⟨0, 400, 0, 4⟩⟩, false⟩], [0], 2, []⟩,
          [.ret 2, .ret 0, .ret 2]⟩ ∧
    ∃ s : Sys, Reachable s ∧ s.k.last_event_id = 2147483647 ∧
      ∃ k' p, accevt_create s.k (.valid ⟨400, 0, 0, 4⟩) true = some (k', -2147483648) ∧
        find_event k' (-2147483648) = some p ∧ p ∈ k'.event_list := by
  refine ⟨by decide, by decide, ?_⟩
  obtain ⟨sched, s, he, hl, hlast⟩ := churn 2147483647 Sys.init rfl (by decide)
  have hlast' : s.k.last_event_id = 2147483647 := by rw [hlast]; decide
  have hf : find_event s.k (toInt32 (s.k.last_event_id + 1)) = none := by
    simp [find_event, hl]
  obtain ⟨k', h1, h2, h3, _⟩ := accevt_create_alone s.k ⟨400, 0, 0, 4⟩ hf
  have hid : toInt32 (s.k.last_event_id + 1) = -2147483648 := by rw [hlast']; decide
  rw [hid] at h1 h3
  exact ⟨s, ⟨sched, he⟩, hlast', k', s.k.heap.length, h1, h3, by rw [h2]; simp⟩

/-- C9 (counterexample): the event with id 1 is created at boot and a caller
of `accevt_destroy(1)` unlinks it, after which no registered event has id 1.
Then 2^32 - 1 further events are created and destroyed, and one more is
created: `last_event_id` has wrapped and the new event gets id 1 again.  A
later `accevt_wait(1)` finds it instead of failing with `-EINVAL`. -/
theorem destroyed_id_found_again :
    ∃ (s s1 s2 s3 : Sys) (t t' p p' : Nat) (sched : List Action),
      Reachable s ∧ s.threads[t]? = some (Pc.destroy_entry 1) ∧
      find_event s.k 1 = some p ∧ step s (.run t) = some s1 ∧ find_event s1.k 1 = none ∧
      exec s1 sched = some s2 ∧ s2.threads[t']? = some (Pc.wait_entry 1) ∧
      step s2 (.run t') = some s3 ∧ s3.threads[t']? = some (Pc.wait_inc p') := by
  obtain ⟨s, hs⟩ : ∃ s : Sys, s = ⟨⟨[⟨⟨1, 0, 0, ⟨0, 0, 0, 0⟩⟩, false⟩], [0], 1, []⟩,
      [.ret 1, .destroy_entry 1]⟩ := ⟨_, rfl⟩
  obtain ⟨s1, hs1⟩ : ∃ s1 : Sys, s1 = ⟨⟨[⟨⟨1, 0, 0, ⟨0, 0, 0, 0⟩⟩, false⟩], [], 1, []⟩,
      [.ret 1, .destroy_retire 0]⟩ := ⟨_, rfl⟩
  have hr : Reachable s :=
    ⟨[.call (.create (.valid ⟨0, 0, 0, 0⟩) true), .run 0, .run 0, .run 0, .run 0, .call (.destroy 1)],
      by rw [hs]; decide⟩
  obtain ⟨sched1, sa, he1, hl1, hlast1⟩ := churn 4294967295 s1 (by rw [hs1]) (by rw [hs1]; decide)
  have hlast1' : sa.k.last_event_id = 0 := by rw [hlast1, hs1]; decide
  have hf : find_event sa.k (toInt32 (sa.k.last_event_id + 1)) = none := by
    simp [find_event, hl1]
  obtain ⟨k', h1, h2, h3, _⟩ := accevt_create_alone sa.k ⟨0, 0, 0, 0⟩ hf
  have hid : toInt32 (sa.k.last_event_id + 1) = 1 := by rw [hlast1']; decide
  rw [hid] at h1 h3
  obtain ⟨sched2, he2⟩ := exec_call_alone (s := sa) (.create (.valid ⟨0, 0, 0, 0⟩) true) 4 h1
  refine ⟨s, s1, ⟨k', (sa.threads ++ [Pc.ret 1]) ++ [Pc.wait_entry 1]⟩,
    ⟨k', ((sa.threads ++ [Pc.ret 1]) ++ [Pc.wait_entry 1]).set (sa.threads.length + 1)
      (Pc.wait_inc sa.k.heap.length)⟩,
    1, sa.threads.length + 1, 0, sa.k.heap.length, sched1 ++ sched2 ++ [.call (.wait 1)],
    hr, by rw [hs]; rfl, by rw [hs]; decide, by rw [hs, hs1]; decide, by rw [hs1]; decide,
    ?_, ?_, ?_, ?_⟩
  · rw [exec_append, exec_append, he1]
    simp only [Option.some_bind, he2]
    rfl
  · exact getElem?_snoc2 _ _ _
  · exact step_run_of (getElem?_snoc2 _ _ _) (by simp only [run_pc, h3])
  · exact getElem?_set_self_of_some (getElem?_snoc2 _ _ _)

/-- C9 (amended): in every reachable state, when a caller of
`accevt_destroy(id)` finds the event `p` and performs its unlink step,
(1) the heap is untouched, the registry is the old one without `p`, and every
other event is still registered with the same fields; (2) in every later
state whatsoever `p` is off the registry and no pass of `accevt_signal` over
the registry changes the event `p`; (3) if the state was reached before
`last_event_id` wrapped, no registered event carries `id` any more, and in
every later state reached while the counter still does not wrap
`find_event(id)` finds nothing, so `accevt_wait(id)` and `accevt_destroy(id)`
return `-EINVAL`, run alone or as the first step of an interleaved caller. -/
theorem unlink_removes_id (s : Sys) (t : Nat) (id : Int) (p : Nat) (hr : Reachable s)
    (ht : s.threads[t]? = some (Pc.destroy_entry id)) (hf : find_event s.k id = some p) :
    ∃ s1, step s (.run t) = some s1 ∧
      s1.k.heap = s.k.heap ∧ s1.k.event_list = s.k.event_list.erase p ∧
      p ∉ s1.k.event_list ∧
      (∀ q ∈ s.k.event_list, q ≠ p → q ∈ s1.k.event_list ∧ s1.k.deref q = s.k.deref q) ∧
      (∀ (sched : List Action) (s2 : Sys), exec s1 sched = some s2 →
        p ∉ s2.k.event_list ∧
        ∀ (t' : Nat) (deltas : CArray acc_delta) (len : Int) (s3 : Sys),
          s2.threads[t']? = some (Pc.signal_scan deltas len) →
          step s2 (.run t') = some s3 → s3.k.deref p = s2.k.deref p) ∧
      (ReachableNW s →
        (∀ q ∈ s1.k.event_list, (s1.k.deref q).event_id ≠ id) ∧
        ∀ (sched : List Action) (s2 : Sys), execNW s1 sched = some s2 →
          find_event s2.k id = none ∧
          accevt_wait s2.k id = some (s2.k, -EINVAL) ∧
          accevt_destroy s2.k id = some (s2.k, -EINVAL) ∧
          (∀ t' : Nat, s2.threads[t']? = some (Pc.wait_entry id) →
            step s2 (.run t') = some ⟨s2.k, s2.threads.set t' (.ret (-EINVAL))⟩) ∧
          (∀ t' : Nat, s2.threads[t']? = some (Pc.destroy_entry id) →
            step s2 (.run t') = some ⟨s2.k, s2.threads.set t' (.ret (-EINVAL))⟩)) := by
  have sinv := hr.inv
  obtain ⟨hp, hpid⟩ := mem_of_find_event hf
  have hstep : step s (.run t)
      = some ⟨{ s.k with event_list := s.k.event_list.erase p },
          s.threads.set t (.destroy_retire p)⟩ :=
    step_run_of ht (by simp only [run_pc, hf])
  have hnot : p ∉ s.k.event_list.erase p :=
    fun hm => ((List.Nodup.mem_erase_iff sinv.nodup).mp hm).1 rfl
  have hfresh : ∀ (t' : Nat) (pc : Pc),
      (s.threads.set t (Pc.destroy_retire p))[t']? = some pc → pc.fresh ≠ some p := by
    intro t' pc h hfr
    rcases getElem?_set_cases h with ⟨_, rfl⟩ | ⟨_, e⟩
    · simp [Pc.fresh] at hfr
    · exact sinv.fresh_not_listed t' pc p e hfr hp
  refine ⟨_, hstep, rfl, rfl, hnot, ?_, ?_, ?_⟩
  · intro q hq hne
    exact ⟨(List.Nodup.mem_erase_iff sinv.nodup).mpr ⟨hne, hq⟩, rfl⟩
  · intro sched s2 he
    obtain ⟨_, hn2, _⟩ := unlinked_exec sched
      ⟨{ s.k with event_list := s.k.event_list.erase p },
        s.threads.set t (.destroy_retire p)⟩ s2
      ⟨sinv.list_valid p hp, hnot, hfresh⟩ he
    refine ⟨hn2, ?_⟩
    intro t' deltas len s3 ht' hs3
    obtain ⟨pc, k', pc', ht0, hrun, rfl⟩ := step_run hs3
    rw [ht'] at ht0
    cases ht0
    simp only [run_pc, Option.bind_eq_bind, Option.bind_eq_some, Option.some.injEq,
      Prod.mk.injEq] at hrun
    obtain ⟨k1, hk, rfl, _⟩ := hrun
    obtain ⟨_, _, _, _, _, _, f7⟩ := signal_scan_loop_frame _ _ _ _ _ hk
    exact f7 p hn2
  · intro hnw
    have inv := hnw.invs.2
    have hr1 := hnw.next_nowrap (stepNW_of_step hstep (le_refl _))
    have hgone : ∀ q ∈ s.k.event_list.erase p, (s.k.deref q).event_id ≠ id := by
      intro q hq he
      obtain ⟨hne, hm⟩ := (List.Nodup.mem_erase_iff sinv.nodup).mp hq
      exact hne (inv.listed_inj q hm p hp (by rw [he, hpid]))
    have hpend : ∀ (t' : Nat) (pc : Pc),
        (s.threads.set t (Pc.destroy_retire p))[t']? = some pc → pc.pending ≠ some id := by
      intro t' pc h hpen
      rcases getElem?_set_cases h with ⟨_, rfl⟩ | ⟨_, e⟩
      · simp [Pc.pending] at hpen
      · exact inv.pending_not_listed t' pc id e hpen p hp hpid
    have hle : id ≤ s.k.last_event_id := hpid ▸ (inv.listed_range p hp).2
    refine ⟨hgone, ?_⟩
    intro sched s2 he
    obtain ⟨_, g1, _, _⟩ := id_gone_exec sched _ s2 ⟨hr1, hgone, hpend, hle⟩ he
    have hl := lookup_fails s2 0 id g1
    refine ⟨find_event_eq_none s2.k id g1, hl.2.2.1, hl.2.2.2, ?_, ?_⟩
    · intro t' ht'
      exact (lookup_fails s2 t' id g1).1 ht'
    · intro t' ht'
      exact (lookup_fails s2 t' id g1).2.1 ht'

/-- Witness for C9 (amended): the event with id 1 is registered at address 0
and a caller has entered `accevt_destroy(1)`. -/
theorem unlink_removes_id_witness :
    ∃ s1, step ⟨⟨[⟨⟨1, 0, 0, ⟨400, 0, 0, 4⟩⟩, false⟩], [0], 1, []⟩,
        [.ret 1, .destroy_entry 1]⟩ (.run 1) = some s1 ∧
      s1.k.event_list = [] ∧ accevt_wait s1.k 1 = some (s1.k, -EINVAL) :=
  let ⟨s1, h1, _, h3, _, _, _, h7⟩ := unlink_removes_id
    ⟨⟨[⟨⟨1, 0, 0, ⟨400, 0, 0, 4⟩⟩, false⟩], [0], 1, []⟩, [.ret 1, .destroy_entry 1]⟩ 1 1 0
    ⟨[.call (.create (.valid ⟨400, 0, 0, 4⟩) true), .run 0, .run 0, .run 0, .run 0,
      .call (.destroy 1)], by decide⟩
    (by decide) (by decide)
  ⟨s1, h1, h3,
    ((h7 ⟨[.call (.create (.valid ⟨400, 0, 0, 4⟩) true), .run 0, .run 0, .run 0, .run 0,
      .call (.destroy 1)], by decide⟩).2 [] s1 rfl).2.1⟩

/-! ## Symmetry of the deltas, and the trigger test -/

/-- C16: for all samples `a` and `b` (any integer coordinates, in particular
any `int` values), `calc_deltas` on the pair `a, b` and on the pair `b, a`
both return, and the single entry they write into cell 0 is the same:
identical `dlt_x`, `dlt_y`, `dlt_z` and identical noise flag; this rests on
`abs_diff(x, y) = abs_diff(y, x)`. -/
theorem calc_deltas_pair_symmetric (a b : dev_acceleration) :
    (∀ x y : Int, abs_diff x y = abs_diff y x) ∧
    ∃ d1 d2 e, calc_deltas [some a, some b] (uninit acc_delta WINDOW) 2 = some d1 ∧
      calc_deltas [some b, some a] (uninit acc_delta WINDOW) 2 = some d2 ∧
      d1[0]? = some (some e) ∧ d2[0]? = some (some e) ∧ d1 = d2 := by
  refine ⟨abs_diff_comm, ?_⟩
  have hc1 := calc_deltas_eq [a, b] [] (uninit acc_delta WINDOW) (by simp [uninit, WINDOW])
  have hc2 := calc_deltas_eq [b, a] [] (uninit acc_delta WINDOW) (by simp [uninit, WINDOW])
  have hd1 : deltas_of [a, b] = [calc_delta a b] := rfl
  have hd2 : deltas_of [b, a] = [calc_delta a b] := by
    rw [calc_delta_comm a b]; rfl
  simp only [List.map_cons, List.map_nil, List.append_nil, List.length_cons,
    List.length_nil, hd1, hd2] at hc1 hc2
  exact ⟨_, _, calc_delta a b, hc1, hc2, rfl, rfl, rfl⟩

/-- C18: for every event, every `len` with `0 ≤ len ≤ WINDOW + 1` and every
deltas array whose cells below `len - 1` hold the entries `ds`, whatever the
other cells hold (written or not), `test_event` returns, and it returns 1 if
the number of entries of `ds` with `noise` set and all three deltas at least
the event's thresholds is at least the event's `frq`, and 0 otherwise; the
cells at index `len - 1` and above have no influence. -/
theorem test_event_counts (ev : acc_event) (ds : List acc_delta) (rest : CArray acc_delta)
    (len : Int) (h0 : 0 ≤ len) (h1 : len ≤ WINDOW + 1) (hds : ds.length = (len - 1).toNat) :
    test_event ev (ds.map some ++ rest) len
      = some (if (ds.filter (fun d => d.noise = true ∧ d.dlt_x ≥ ev.acc.dlt_x ∧
            d.dlt_y ≥ ev.acc.dlt_y ∧ d.dlt_z ≥ ev.acc.dlt_z)).length ≥ ev.acc.frq
          then 1 else 0) ∧
    (test_event ev (ds.map some ++ rest) len = some 1 ↔
      (ds.filter (fun d => d.noise = true ∧ d.dlt_x ≥ ev.acc.dlt_x ∧
            d.dlt_y ≥ ev.acc.dlt_y ∧ d.dlt_z ≥ ev.acc.dlt_z)).length ≥ ev.acc.frq) ∧
    ∀ rest' : CArray acc_delta,
      test_event ev (ds.map some ++ rest') len = test_event ev (ds.map some ++ rest) len := by
  have hspec : ∀ r : CArray acc_delta, test_event ev (ds.map some ++ r) len
      = some (if (ds.filter (fun d => d.noise = true ∧ d.dlt_x ≥ ev.acc.dlt_x ∧
            d.dlt_y ≥ ev.acc.dlt_y ∧ d.dlt_z ≥ ev.acc.dlt_z)).length ≥ ev.acc.frq
          then 1 else 0) := by
    intro r
    rw [test_event_spec ev ds r len (by omega) (by unfold WINDOW INT_MAX at *; omega)]
    have ht : ds.take (len - 1).toNat = ds := by rw [← hds]; exact List.take_length ds
    rw [ht]
    have hc : count_matches ev.acc ds
        = (ds.filter (fun d => d.noise = true ∧ d.dlt_x ≥ ev.acc.dlt_x ∧
            d.dlt_y ≥ ev.acc.dlt_y ∧ d.dlt_z ≥ ev.acc.dlt_z)).length := by
      unfold count_matches
      rw [List.countP_eq_length_filter]
      congr 1
      apply List.filter_congr
      intro d _
      simp [delta_matches, Bool.and_assoc]
    rw [hc]
  refine ⟨hspec rest, ?_, fun r => by rw [hspec r, hspec rest]⟩
  rw [hspec rest]
  constructor
  · intro h
    by_contra hc
    rw [if_neg hc] at h
    simp at h
  · intro h
    rw [if_pos h]

/-- Witness for C18: two matching deltas against `frq = 2`, with the rest of
the array never written and `len = 3`. -/
theorem test_event_counts_witness :
    test_event ⟨1, 0, 0, ⟨400, 0, 0, 2⟩⟩
      ([(⟨450, 0, 0, true⟩ : acc_delta), ⟨450, 0, 0, true⟩].map some ++ uninit acc_delta 18) 3
      = some 1 :=
  ((test_event_counts ⟨1, 0, 0, ⟨400, 0, 0, 2⟩⟩ [⟨450, 0, 0, true⟩, ⟨450, 0, 0, true⟩]
    (uninit acc_delta 18) 3 (by decide) (by decide) (by decide)).2.1).2 (by decide)

/-! ## Events with `frq = 0` -/

/-- C20: a registered event (at an allocated address) whose stored `frq` is 0
is in state 1 after every pass of `accevt_signal` that returns 0.  With at
most `WINDOW + 1` samples in the buffer the call on a non-null sample does
return 0; in whatever kernel state, if it returns 0 the event is in state 1;
the same holds for the pass over the registry of a caller interleaved with
others.  This includes the first submission after boot, where no delta is
computed: the count 0 reaches `frq = 0`. -/
theorem frq_zero_always_triggered :
    (∀ (k : KState) (x : dev_acceleration), k.acc_buffer.length ≤ WINDOW + 1 →
      ∃ k', accevt_signal k (.valid x) = some (k', 0) ∧
        ∀ p ∈ k.event_list, p < k.heap.length → (k.deref p).acc.frq = 0 →
          (k'.deref p).state = 1) ∧
    (∀ (k k' : KState) (a : UserPtr dev_acceleration), accevt_signal k a = some (k', 0) →
      ∀ p ∈ k.event_list, p < k.heap.length → (k.deref p).acc.frq = 0 →
        (k'.deref p).state = 1) ∧
    (∀ (s s' : Sys) (t : Nat) (deltas : CArray acc_delta) (len : Int),
      s.threads[t]? = some (Pc.signal_scan deltas len) → step s (.run t) = some s' →
      ∀ p ∈ s.k.event_list, p < s.k.heap.length → (s.k.deref p).acc.frq = 0 →
        (s'.k.deref p).state = 1) ∧
    (∃ k1 k2, accevt_create KState.init (.valid ⟨400, 0, 0, 0⟩) true = some (k1, 1) ∧
      accevt_signal k1 (.valid ⟨0, 0, 0⟩) = some (k2, 0) ∧ (k2.deref 0).state = 1) := by
  refine ⟨?_, ?_, ?_, ?_⟩
  · intro k x hb
    obtain ⟨k', h, _⟩ := accevt_signal_spec k x hb
    exact ⟨k', h, fun p hp hlt hz => accevt_signal_frq_zero h hp hlt hz⟩
  · intro k k' a h p hp hlt hz
    exact accevt_signal_frq_zero h hp hlt hz
  · intro s s' t deltas len ht hs p hp hlt hz
    obtain ⟨pc, k', pc', ht0, hrun, rfl⟩ := step_run hs
    rw [ht] at ht0
    cases ht0
    simp only [run_pc, Option.bind_eq_bind, Option.bind_eq_some, Option.some.injEq,
      Prod.mk.injEq] at hrun
    obtain ⟨k1, hk, rfl, _⟩ := hrun
    exact signal_scan_loop_frq_zero _ _ _ _ _ hk p hp hlt hz
  · exact ⟨⟨[⟨⟨1, 0, 0, ⟨400, 0, 0, 0⟩⟩, false⟩], [0], 1, []⟩,
      ⟨[⟨⟨1, 1, 0, ⟨400, 0, 0, 0⟩⟩, false⟩], [0], 1, [⟨0, 0, 0⟩]⟩, by decide, by decide,
      by decide⟩

/-- Witness for C20: the first submission after boot triggers an event
created with `frq = 0`. -/
theorem frq_zero_always_triggered_witness :
    (KState.deref ⟨[⟨⟨1, 1, 0, ⟨400, 0, 0, 0⟩⟩, false⟩], [0], 1, [⟨0, 0, 0⟩]⟩ 0).state = 1 :=
  frq_zero_always_triggered.2.1
    ⟨[⟨⟨1, 0, 0, ⟨400, 0, 0, 0⟩⟩, false⟩], [0], 1, []⟩
    ⟨[⟨⟨1, 1, 0, ⟨400, 0, 0, 0⟩⟩, false⟩], [0], 1, [⟨0, 0, 0⟩]⟩ (.valid ⟨0, 0, 0⟩)
    (by decide) 0 (by decide) (by decide) (by decide)

/-! ## The outcome of a wait -/

/-- C13 (counterexample): an event with `frq = 0` is created (id 1, address
0); a caller enters `accevt_wait(1)`, increments `nr` and sleeps; it is
interrupted while the state is still 0, so `res = -ERESTARTSYS`; before it
reaches line 198 a pass of `accevt_signal` sets the state to 1.  The state
the waiter reads after the wake-up is 1 (Triggered), and it returns
`-EAGAIN`, not 0. -/
theorem interrupted_wait_reads_triggered :
    exec Sys.init
        [.call (.create (.valid ⟨0, 0, 0, 0⟩) true), .run 0, .run 0, .run 0, .run 0,
         .call (.wait 1), .run 1, .run 1, .intr 1,
         .call (.signal (.valid ⟨0, 0, 0⟩)), .run 2, .run 2, .run 1]
      = some ⟨⟨[⟨⟨1, 1, 0, ⟨0, 0, 0, 0⟩⟩, false⟩], [0], 1, [⟨0, 0, 0⟩]⟩,
          [.ret 1, .wait_exit 0 (-ERESTARTSYS), .ret 0]⟩ ∧
    (KState.deref ⟨[⟨⟨1, 1, 0, ⟨0, 0, 0, 0⟩⟩, false⟩], [0], 1, [⟨0, 0, 0⟩]⟩ 0).state = 1 ∧
    step ⟨⟨[⟨⟨1, 1, 0, ⟨0, 0, 0, 0⟩⟩, false⟩], [0], 1, [⟨0, 0, 0⟩]⟩,
          [.ret 1, .wait_exit 0 (-ERESTARTSYS), .ret 0]⟩ (.run 1)
      = some ⟨⟨[⟨⟨1, 1, 0, ⟨0, 0, 0, 0⟩⟩, false⟩], [0], 1, [⟨0, 0, 0⟩]⟩,
          [.ret 1, .ret (-EAGAIN), .ret 0]⟩ := by
  decide

/-- C13 (amended): for a caller of `accevt_wait` that found its event `p`,
(1) at line 198, with the wait result `res` and the state read there as
inputs, the call returns `-EAGAIN` if the state is negative or `res < 0`, and
0 otherwise; so it returns 0 when the state read is 1 and the wait was not
interrupted, `-EAGAIN` when the state read is -1, and `-EAGAIN` whenever the
wait was interrupted; (2) the wait of line 192 ends normally, with `res = 0`,
only when the state is not 0; (3) a signal ends it with `res = -ERESTARTSYS`
exactly when the state is still 0; (4) the decrement of line 195 passes `res`
on unchanged; (5) run alone on a listed event that is not pending, the whole
call returns 0 for a positive state and `-EAGAIN` for a negative one. -/
theorem wait_outcome (k : KState) (p : Nat) (res : Int) :
    run_pc k (.wait_exit p res)
      = some (k, .ret (if (k.deref p).state < 0 ∨ res < 0 then -EAGAIN else 0)) ∧
    ((k.deref p).state = 1 → 0 ≤ res → run_pc k (.wait_exit p res) = some (k, .ret 0)) ∧
    ((k.deref p).state = -1 → run_pc k (.wait_exit p res) = some (k, .ret (-EAGAIN))) ∧
    (res < 0 → run_pc k (.wait_exit p res) = some (k, .ret (-EAGAIN))) ∧
    (run_pc k (.wait_sleep p)
      = if (k.deref p).state ≠ 0 then some (k, .wait_dec p 0) else none) ∧
    (intr_pc k (.wait_sleep p)
      = some (k, .wait_dec p (if (k.deref p).state ≠ 0 then 0 else -ERESTARTSYS))) ∧
    (∃ k', run_pc k (.wait_dec p res) = some (k', .wait_exit p res)) ∧
    (∀ id, find_event k id = some p → p < k.heap.length → isInt32 (k.deref p).nr →
      (k.deref p).state ≠ 0 →
      accevt_wait k id = some (k, if (k.deref p).state < 0 then -EAGAIN else 0)) := by
  have h1 : run_pc k (.wait_exit p res)
      = some (k, .ret (if (k.deref p).state < 0 ∨ res < 0 then -EAGAIN else 0)) := by
    simp only [run_pc]
    by_cases a : (k.deref p).state < 0 <;> by_cases b : res < 0 <;> simp [a, b]
  refine ⟨h1, ?_, ?_, ?_, ?_, ?_, ⟨_, rfl⟩, ?_⟩
  · intro hs hr
    rw [h1, hs]
    simp [Int.not_lt.mpr hr]
  · intro hs
    rw [h1, hs]
    simp
  · intro hr
    rw [h1]
    simp [hr]
  · rfl
  · simp only [intr_pc]
    split <;> rfl
  · intro id hf hp hn hs
    exact accevt_wait_alone k id p hf hp hn hs

/-- Witness for C13: a triggered event with one finished pass, waited on by a
caller running alone. -/
theorem wait_outcome_witness :
    accevt_wait ⟨[⟨⟨1, 1, 0, ⟨0, 0, 0, 0⟩⟩, false⟩], [0], 1, [⟨0, 0, 0⟩]⟩ 1
      = some (⟨[⟨⟨1, 1, 0, ⟨0, 0, 0, 0⟩⟩, false⟩], [0], 1, [⟨0, 0, 0⟩]⟩, 0) :=
  (wait_outcome ⟨[⟨⟨1, 1, 0, ⟨0, 0, 0, 0⟩⟩, false⟩], [0], 1, [⟨0, 0, 0⟩]⟩ 0 0).2.2.2.2.2.2.2
    1 (by decide) (by decide) (by decide) (by decide)

/-! ## The sample buffer stays within its window -/

/-- C17: (1) in every reachable state the fifo holds at most `WINDOW + 1 = 21`
samples, fewer than its capacity 32; (2) from an empty fifo, every sequence
of `accevt_signal` calls on non-null samples returns 0 call after call and
leaves at most 21 samples; (3) with at most 21 samples in the fifo, the push
of lines 230-235 stores the sample (after dropping the oldest of 21), the
peek returns all samples, at least one and at most `WINDOW + 1` (the size of
`acc_data`), at least `len` of them (`calc_deltas` reads `acc_data` up to
index `len - 1`), `len - 1 ≤ WINDOW` (the size of `deltas`), and the call run
alone returns 0; (4) interleaved with other callers, the first step of
`accevt_signal` on a non-null sample goes on to line 247 (it does not return
`-EIO`), and (5) the pass of line 247 returns 0; (6) in this model a read
outside an array or of a cell never written, and a write outside an array,
make the step fail, so (2)-(5) include that no such access happens. -/
theorem signal_never_fails :
    (∀ s, Reachable s → s.k.acc_buffer.length ≤ WINDOW + 1 ∧ WINDOW + 1 < WINDOW_POW2) ∧
    (∀ (l : List dev_acceleration) (k0 : KState), k0.acc_buffer = [] →
      ∃ k, submit_all k0 l = some k ∧ k.acc_buffer.length ≤ WINDOW + 1) ∧
    (∀ (k : KState) (x : dev_acceleration), k.acc_buffer.length ≤ WINDOW + 1 →
      signal_push k.acc_buffer x
        = (if k.acc_buffer.length = WINDOW + 1 then k.acc_buffer.drop 1 else k.acc_buffer)
            ++ [x] ∧
      (signal_peek (signal_push k.acc_buffer x)).2 = (signal_push k.acc_buffer x).length ∧
      1 ≤ (signal_peek (signal_push k.acc_buffer x)).2 ∧
      (signal_peek (signal_push k.acc_buffer x)).2 ≤ WINDOW + 1 ∧
      k.acc_buffer.length ≤ (signal_peek (signal_push k.acc_buffer x)).2 ∧
      (kfifo_len k.acc_buffer - 1).toNat ≤ WINDOW ∧
      ∃ k', accevt_signal k (.valid x) = some (k', 0) ∧
        k'.acc_buffer = signal_push k.acc_buffer x) ∧
    (∀ (s : Sys) (t : Nat) (x : dev_acceleration), Reachable s →
      s.threads[t]? = some (.signal_entry (.valid x)) →
      ∃ s' d len, step s (.run t) = some s' ∧ s'.threads[t]? = some (.signal_scan d len)) ∧
    (∀ (s : Sys) (t : Nat) (d : CArray acc_delta) (len : Int), Reachable s →
      s.threads[t]? = some (.signal_scan d len) →
      ∃ s', step s (.run t) = some s' ∧ s'.threads[t]? = some (.ret 0)) ∧
    (∀ (a : CArray dev_acceleration) (d : CArray acc_delta) (i : Nat) (v : acc_delta),
      (a.length ≤ i → aget a i = none) ∧ (d.length ≤ i → aget d i = none) ∧
      (d.length ≤ i → aset d i v = none) ∧
      (i < WINDOW → aget (uninit acc_delta WINDOW) i = none)) := by
  refine ⟨?_, ?_, ?_, ?_, ?_, ?_⟩
  · intro s hr
    exact ⟨hr.buf_inv.1, by decide⟩
  · intro l k0 h0
    obtain ⟨k, he, hb, _⟩ := submit_all_buffer l k0 (by rw [h0]; simp)
    refine ⟨k, he, ?_⟩
    rw [hb, lastN_length]
    omega
  · intro k x hb
    have hl := signal_push_length k.acc_buffer x hb
    have hp : (signal_push k.acc_buffer x).length ≤ WINDOW + 1 := by rw [hl]; omega
    have hc := signal_peek_count _ hp
    obtain ⟨k', he, hbuf, _⟩ := accevt_signal_spec k x hb
    refine ⟨signal_push_put _ _ hb, hc, ?_, ?_, ?_, ?_, k', he, hbuf⟩
    · rw [hc, hl]; unfold WINDOW; omega
    · rw [hc]; exact hp
    · rw [hc, hl]; omega
    · unfold kfifo_len; omega
  · intro s t x hr ht
    have h := run_pc_signal_entry s.k x hr.buf_inv.1
    exact ⟨_, _, _, step_run_of ht h, getElem?_set_self_of_some ht⟩
  · intro s t d len hr ht
    obtain ⟨k', h⟩ := scan_step_returns (k := s.k) (hr.buf_inv.2 t _ ht)
    exact ⟨_, step_run_of ht h, getElem?_set_self_of_some ht⟩
  · intro a d i v
    refine ⟨fun h => ?_, fun h => ?_, fun h => ?_, fun h => ?_⟩
    · unfold aget; rw [List.getD_eq_getElem?_getD, List.getElem?_eq_none h]; rfl
    · unfold aget; rw [List.getD_eq_getElem?_getD, List.getElem?_eq_none h]; rfl
    · unfold aset; rw [if_neg (by omega)]
    · unfold aget uninit
      rw [List.getD_eq_getElem?_getD, List.getElem?_replicate]
      simp [h]

/-- Witness for C17: the first sample submitted after boot. -/
theorem signal_never_fails_witness :
    ∃ k', accevt_signal KState.init (.valid ⟨1, 2, 3⟩) = some (k', 0) ∧
      k'.acc_buffer = signal_push KState.init.acc_buffer ⟨1, 2, 3⟩ :=
  (signal_never_fails.2.2.1 KState.init ⟨1, 2, 3⟩ (by decide)).2.2.2.2.2.2

/-! ## What the calls leave untouched -/

/-- C19: (1) whatever `accevt_signal` returns, run alone in any kernel state on
any argument, the registry, the allocated and released objects, the counter,
and the `event_id`, `nr` and motion (thresholds and `frq`) of every object are
as before, the list of registered ids is the same, and every object off the
registry (so every unlinked, retired event) is untouched, state included;
with at most `WINDOW + 1` samples buffered and a non-null sample the call does
return; (2) the same holds for every single step of a caller inside
`accevt_signal` interleaved with others; (3) no step of any caller changes the
`event_id` or the motion of an object, except that a creator initialises the
object it has just allocated and not yet published; no step of a caller
outside `accevt_signal`, no new call and no signal delivery changes the
sample buffer; (4) `accevt_create`, `accevt_wait` and `accevt_destroy` run
alone leave the sample buffer and the id and motion of every object that
existed before as they were. -/
theorem calls_leave_specs_untouched :
    (∀ (k k' : KState) (a : UserPtr dev_acceleration) (r : Int),
      accevt_signal k a = some (k', r) →
        StateOnly k k' ∧
        k'.event_list.map (fun p => (k'.deref p).event_id)
          = k.event_list.map (fun p => (k.deref p).event_id)) ∧
    (∀ (k : KState) (x : dev_acceleration), k.acc_buffer.length ≤ WINDOW + 1 →
      ∃ k', accevt_signal k (.valid x) = some (k', 0) ∧ StateOnly k k') ∧
    (∀ (s s' : Sys) (t : Nat) (pc : Pc), s.threads[t]? = some pc → pc.signalling = true →
      step s (.run t) = some s' → StateOnly s.k s'.k) ∧
    (∀ (s s' : Sys) (a : Action), step s a = some s' →
      (∀ p, (∀ (t : Nat) (pc : Pc), s.threads[t]? = some pc → pc.fresh ≠ some p) →
        SameSpec s.k s'.k p) ∧
      ((∀ (t : Nat) (pc : Pc), a = .run t → s.threads[t]? = some pc → pc.signalling = false) →
        s'.k.acc_buffer = s.k.acc_buffer)) ∧
    (∀ (k k' : KState) (a : UserPtr acc_motion) (ok : Bool) (r : Int),
      accevt_create k a ok = some (k', r) →
        k'.acc_buffer = k.acc_buffer ∧ ∀ p, p < k.heap.length → SameSpec k k' p) ∧
    (∀ (k k' : KState) (id r : Int), accevt_wait k id = some (k', r) →
        k'.acc_buffer = k.acc_buffer ∧ ∀ p, SameSpec k k' p) ∧
    (∀ (k k' : KState) (id r : Int), accevt_destroy k id = some (k', r) →
        k'.acc_buffer = k.acc_buffer ∧ ∀ p, SameSpec k k' p) := by
  refine ⟨?_, ?_, ?_, ?_, ?_, ?_, ?_⟩
  · intro k k' a r h
    exact ⟨accevt_signal_frame h, (accevt_signal_frame h).ids⟩
  · intro k x hb
    obtain ⟨k', h, _⟩ := accevt_signal_spec k x hb
    exact ⟨k', h, accevt_signal_frame h⟩
  · intro s s' t pc ht hsig h
    obtain ⟨pc0, k', pc', ht0, hr, rfl⟩ := step_run h
    rw [ht] at ht0
    cases ht0
    exact (run_pc_effect hr).signal_frame hsig
  · intro s s' a h
    cases a with
    | call c =>
        simp only [step, Option.some.injEq] at h
        subst h
        exact ⟨fun _ _ => ⟨rfl, rfl⟩, fun _ => rfl⟩
    | intr t =>
        obtain ⟨pc, k', pc', ht, hr, rfl⟩ := step_intr h
        obtain ⟨rfl, _⟩ := intr_pc_eq hr
        exact ⟨fun _ _ => ⟨rfl, rfl⟩, fun _ => rfl⟩
    | run t =>
        obtain ⟨pc, k', pc', ht, hr, rfl⟩ := step_run h
        exact ⟨fun p hp => (run_pc_effect hr).spec_frame p (hp t pc ht),
          fun hs => (run_pc_effect hr).buffer_same (hs t pc rfl ht)⟩
  · intro k k' a ok r h
    exact run_alone_spec_frame k k.heap.length 4 k (.create_entry a ok) k' r (le_refl _)
      (fun q hq => absurd hq (by simp [Pc.fresh])) rfl rfl (fun _ _ => ⟨rfl, rfl⟩) h
  · intro k k' id r h
    exact run_alone_spec_frame_all k 5 k (.wait_entry id) k' r rfl rfl rfl (fun _ => ⟨rfl, rfl⟩) h
  · intro k k' id r h
    exact run_alone_spec_frame_all k 4 k (.destroy_entry id) k' r rfl rfl rfl (fun _ => ⟨rfl, rfl⟩) h

/-- Witness for C19: a sample submitted while one event with `frq = 0` is
registered; the pass changes its state and nothing else. -/
theorem calls_leave_specs_untouched_witness :
    StateOnly ⟨[⟨⟨1, 0, 0, ⟨400, 0, 0, 0⟩⟩, false⟩], [0], 1, []⟩
      ⟨[⟨⟨1, 1, 0, ⟨400, 0, 0, 0⟩⟩, false⟩], [0], 1, [⟨0, 0, 0⟩]⟩ :=
  (calls_leave_specs_untouched.1
    ⟨[⟨⟨1, 0, 0, ⟨400, 0, 0, 0⟩⟩, false⟩], [0], 1, []⟩
    ⟨[⟨⟨1, 1, 0, ⟨400, 0, 0, 0⟩⟩, false⟩], [0], 1, [⟨0, 0, 0⟩]⟩ (.valid ⟨0, 0, 0⟩) 0
    (by decide)).1

/-! ## Registered events are live, retired events stay retired -/

/-- C11: (1) in every reachable state every event on `event_list` is in state
0 or 1, never -1; (2) when a caller of `accevt_destroy` performs line 282 on
the event `p` it took off the registry, `p` is in state -1 afterwards, and
(3) from any reachable state in which some destroyer has passed line 282 on
`p`, along every schedule (passes of `accevt_signal`, creations, waits, the
rest of the destroy) `p` is in state -1 and off the registry for as long as
it has not been released.  Nothing is said of the memory after its release:
the allocator may hand it to a later event. -/
theorem retired_is_terminal (s : Sys) (hr : Reachable s) :
    (∀ p ∈ s.k.event_list, (s.k.deref p).state = 0 ∨ (s.k.deref p).state = 1) ∧
    (∀ (t p : Nat) (s1 : Sys), s.threads[t]? = some (.destroy_retire p) →
      step s (.run t) = some s1 →
      (s1.k.deref p).state = -1 ∧ s1.threads[t]? = some (.destroy_sleep p)) ∧
    (∀ (t : Nat) (pc : Pc) (p : Nat), s.threads[t]? = some pc → pc.retired = some p →
      ∀ (sched : List Action) (s' : Sys), exec s sched = some s' →
        s'.k.is_freed p = false →
        (s'.k.deref p).state = -1 ∧ p ∉ s'.k.event_list) := by
  refine ⟨hr.listed_live, ?_, ?_⟩
  · intro t p s1 ht hs
    have hr1 : Reachable s1 := hr.next hs
    obtain ⟨pc0, k', pc', ht0, hrun, rfl⟩ := step_run hs
    rw [ht] at ht0
    cases ht0
    simp only [run_pc, Option.some.injEq, Prod.mk.injEq] at hrun
    obtain ⟨rfl, rfl⟩ := hrun
    have ht1 : (s.threads.set t (.destroy_sleep p))[t]? = some (.destroy_sleep p) :=
      getElem?_set_self_of_some ht
    exact ⟨hr1.inv.retired t _ p ht1 rfl, ht1⟩
  · intro t pc p ht hp sched s' he _
    have := RetiredAt.retired_exec sched s s' (RetiredAt.of_retired hr.inv ht hp) he
    exact ⟨this.2, this.1.2.1⟩

/-- Witness for C11: an event destroyed while a waiter sleeps on it, then a
sample is submitted; the event stays in state -1. -/
theorem retired_is_terminal_witness :
    (KState.deref ⟨[⟨⟨1, -1, 1, ⟨400, 0, 0, 0⟩⟩, false⟩], [], 1, [⟨0, 0, 0⟩]⟩ 0).state = -1 ∧
      0 ∉ KState.event_list ⟨[⟨⟨1, -1, 1, ⟨400, 0, 0, 0⟩⟩, false⟩], [], 1, [⟨0, 0, 0⟩]⟩ :=
  (retired_is_terminal
    ⟨⟨[⟨⟨1, -1, 1, ⟨400, 0, 0, 0⟩⟩, false⟩], [], 1, []⟩,
      [.ret 1, .wait_sleep 0, .destroy_sleep 0]⟩
    ⟨[.call (.create (.valid ⟨400, 0, 0, 0⟩) true), .run 0, .run 0, .run 0, .run 0,
      .call (.wait 1), .run 1, .run 1, .call (.destroy 1), .run 2, .run 2], by decide⟩).2.2
    2 (.destroy_sleep 0) 0 (by decide) (by decide)
    [.call (.signal (.valid ⟨0, 0, 0⟩)), .run 3, .run 3]
    ⟨⟨[⟨⟨1, -1, 1, ⟨400, 0, 0, 0⟩⟩, false⟩], [], 1, [⟨0, 0, 0⟩]⟩,
      [.ret 1, .wait_sleep 0, .destroy_sleep 0, .ret 0]⟩ (by decide) (by decide)

/-! ## The waiter count -/

/-- C12 (the code at the failing schedule): an event is created (id 1, at
address 0); a caller enters `accevt_wait(1)` and performs only the lookup of
lines 181-189; `accevt_destroy(1)` runs to its end, finds `nr == 0` and
releases the object.  A second creator is handed the same memory by `kmalloc`
and draws id 2; the first caller now executes its `atomic_inc` of line 191 on
that memory; the creator initialises its event (`nr = 0`), publishes it and
returns 2.  The first caller sleeps on the new event, which is pending, is
woken by a signal and executes its `atomic_dec` of line 195.  The registered
event with id 2 then has `nr = -1`, while no caller is between its increment
and its decrement. -/
theorem stale_waiter_corrupts_nr :
    execR Sys.init
        [.act (.call (.create (.valid ⟨400, 0, 0, 4⟩) true)), .act (.run 0), .act (.run 0),
         .act (.run 0), .act (.run 0),
         .act (.call (.wait 1)), .act (.run 1),
         .act (.call (.destroy 1)), .act (.run 2), .act (.run 2), .act (.run 2),
         .act (.run 2),
         .act (.call (.create (.valid ⟨0, 400, 0, 4⟩) true)), .reuse 3 0,
         .act (.run 1),
         .act (.run 3), .act (.run 3), .act (.run 3),
         .act (.intr 1), .act (.run 1)]
      = some ⟨⟨[⟨⟨2, 0, -1, ⟨0, 400, 0, 4⟩⟩, false⟩], [0], 2, []⟩,
          [.ret 1, .wait_exit 0 (-ERESTARTSYS), .ret 0, .ret 2]⟩ ∧
    find_event ⟨[⟨⟨2, 0, -1, ⟨0, 400, 0, 4⟩⟩, false⟩], [0], 2, []⟩ 2 = some 0 ∧
    (KState.deref ⟨[⟨⟨2, 0, -1, ⟨0, 400, 0, 4⟩⟩, false⟩], [0], 2, []⟩ 0).nr = -1 ∧
    waiters 0 [.ret 1, .wait_exit 0 (-ERESTARTSYS), .ret 0, .ret 2] = 0 := by
  decide

/-! ## The two scenarios of the shake test -/

/-- C14: in a kernel state with an empty sample buffer and a registered event
`p` whose stored motion is `{400, 0, 0, 4}`, the 21 samples with x alternating
0, 450, 0, ... and constant y and z are submitted one call after the other.
Every call returns 0; the buffer then holds the 21 samples, whose 20 deltas
all qualify; the pass of the 21st call, which works on the 20 samples and 19
deltas before the newest sample, counts 19 qualifying deltas, at least 4, and
leaves `p` in state 1; a caller asleep in `accevt_wait` on `p` is then
released and returns 0. -/
theorem shake_triggers (k : KState) (hb : k.acc_buffer = []) (y z : Int) (p : Nat)
    (hp : p ∈ k.event_list) (hv : p < k.heap.length)
    (hacc : (k.deref p).acc = ⟨400, 0, 0, 4⟩) :
    ∃ k20 k21, submit_all k (shake_samples y z 20) = some k20 ∧
      accevt_signal k20 (.valid ⟨0, y, z⟩) = some (k21, 0) ∧
      submit_all k (shake_samples y z 21) = some k21 ∧
      k21.acc_buffer = shake_samples y z 21 ∧
      count_matches ⟨400, 0, 0, 4⟩ (deltas_of (shake_samples y z 21)) = 20 ∧
      count_matches ⟨400, 0, 0, 4⟩
        ((deltas_of (pass_window k20.acc_buffer ⟨0, y, z⟩)).take (k20.acc_buffer.length - 1))
        = 19 ∧
      (k21.deref p).state = 1 ∧
      run_pc k21 (.wait_sleep p) = some (k21, .wait_dec p 0) ∧
      ∃ k', run_alone 3 k21 (.wait_sleep p) = some (k', 0) := by
  obtain ⟨k20, k21, g1, g2, g3, g4, g5, g6, g7⟩ :=
    submit_all_snoc ⟨0, y, z⟩ (shake_samples y z 20) k (by rw [hb]; simp)
  have e21 : shake_samples y z 21 = shake_samples y z 20 ++ [⟨0, y, z⟩] :=
    shake_samples_succ y z 20
  have hbuf : k20.acc_buffer = shake_samples y z 20 := by
    rw [g4, hb, List.nil_append]
    unfold lastN
    rw [shake_samples_length]
    rfl
  have hlen : k20.acc_buffer.length = 20 := by rw [hbuf, shake_samples_length]
  have hb20 : k20.acc_buffer.length ≤ WINDOW + 1 := by rw [hlen]; decide
  have hbuf21 : k21.acc_buffer = shake_samples y z 21 := by
    obtain ⟨s', he, hb', _⟩ := accevt_signal_spec k20 ⟨0, y, z⟩ hb20
    rw [he] at g2
    simp only [Option.some.injEq, Prod.mk.injEq, and_true] at g2
    subst g2
    rw [hb', signal_push_eq _ _ hb20, hbuf, ← e21]
    unfold lastN
    rw [shake_samples_length]
    rfl
  have hwin : pass_window k20.acc_buffer ⟨0, y, z⟩ = shake_samples y z 20 := by
    rw [pass_window_filling _ _ (by rw [hlen]; decide), hbuf]
  have hcount : count_matches ⟨400, 0, 0, 4⟩
      ((deltas_of (pass_window k20.acc_buffer ⟨0, y, z⟩)).take (k20.acc_buffer.length - 1))
      = 19 := by
    rw [hwin, hlen, deltas_of_shake, count_matches_shake]
    rfl
  have hst : (k21.deref p).state = 1 := by
    rw [accevt_signal_state hb20 g2 (by rw [g5]; exact hp) (by rw [g6]; exact hv), g7 p, hacc,
      hcount]
    rfl
  have hne : (k21.deref p).state ≠ 0 := by rw [hst]; decide
  obtain ⟨k', hk'⟩ := waiter_released k21 p hne
  rw [hst] at hk'
  refine ⟨k20, k21, g1, g2, by rw [e21]; exact g3, hbuf21, ?_, hcount, hst, ?_, k', hk'⟩
  · have := count_matches_shake 20 20
    rw [List.take_of_length_le (by simp)] at this
    rw [deltas_of_shake]
    exact this
  · simp only [run_pc, hne, ne_eq, not_false_eq_true, if_true]

/-- Witness for C14: the event created at boot from `{400, 0, 0, 4}`, shaken
with `y = z = 0`. -/
theorem shake_triggers_witness :
    ∃ k21, submit_all ⟨[⟨⟨1, 0, 0, ⟨400, 0, 0, 4⟩⟩, false⟩], [0], 1, []⟩
        (shake_samples 0 0 21) = some k21 ∧ (k21.deref 0).state = 1 :=
  let ⟨_, k21, _, _, h3, _, _, _, h7, _⟩ :=
    shake_triggers ⟨[⟨⟨1, 0, 0, ⟨400, 0, 0, 4⟩⟩, false⟩], [0], 1, []⟩ rfl 0 0 0
      (by decide) (by decide) (by decide)
  ⟨k21, h3, h7⟩

/-- C15: in a kernel state with an empty sample buffer, samples with `int`
coordinates are submitted one call after the other, every two adjacent ones
quiet (their three absolute differences add up to at most 200).  Every call
returns 0, and after the pass of the last call (so after every pass, the
sequence being arbitrary) every registered event whose stored `frq` is at
least 1 is in state 0: a caller asleep on it is not released.  When
`accevt_destroy` is then called on such an event, its first two steps set the
state to -1, and a caller asleep on the event returns `-EAGAIN`. -/
theorem quiet_samples_never_trigger (k : KState) (hb : k.acc_buffer = [])
    (l : List dev_acceleration) (x : dev_acceleration)
    (hv : ∀ a ∈ l ++ [x], a.valid) (hq : (l ++ [x]).Chain' quiet) :
    ∃ k1 k2, submit_all k l = some k1 ∧ accevt_signal k1 (.valid x) = some (k2, 0) ∧
      submit_all k (l ++ [x]) = some k2 ∧
      ∀ p ∈ k.event_list, p < k.heap.length → (k.deref p).acc.frq ≥ 1 →
        (k2.deref p).state = 0 ∧ run_pc k2 (.wait_sleep p) = none ∧
        ∀ id, find_event k2 id = some p →
          ∃ ka kb, run_pc k2 (.destroy_entry id) = some (ka, .destroy_retire p) ∧
            run_pc ka (.destroy_retire p) = some (kb, .destroy_sleep p) ∧
            (kb.deref p).state = -1 ∧
            ∃ kc, run_alone 3 kb (.wait_sleep p) = some (kc, -EAGAIN) := by
  obtain ⟨k1, k2, g1, g2, g3, g4, g5, g6, g7⟩ := submit_all_snoc x l k (by rw [hb]; simp)
  rw [hb, List.nil_append] at g4
  have hb1 : k1.acc_buffer.length ≤ WINDOW + 1 := by
    rw [g4, lastN_length]; omega
  refine ⟨k1, k2, g1, g2, g3, fun p hp hlt hfrq => ?_⟩
  have hst : (k2.deref p).state = 0 := by
    rw [accevt_signal_state hb1 g2 (by rw [g5]; exact hp) (by rw [g6]; exact hlt), g4]
    obtain ⟨c1, c2⟩ := pass_window_chain hv hq
    rw [count_matches_quiet _ _ c1 c2, g7 p, if_neg (by omega)]
  refine ⟨hst, by simp only [run_pc, hst, ne_eq, not_true_eq_false, if_false], fun id hf => ?_⟩
  exact destroy_retires k2 id p hf (by rw [(accevt_signal_frame g2).2.1, g6]; exact hlt)

/-- Witness for C15: the event created at boot from `{400, 400, 0, 4}` and
three samples that differ by 100 along x. -/
theorem quiet_samples_never_trigger_witness :
    ∃ k2, submit_all ⟨[⟨⟨1, 0, 0, ⟨400, 400, 0, 4⟩⟩, false⟩], [0], 1, []⟩
        ([⟨0, 0, 0⟩, ⟨100, 0, 0⟩] ++ [⟨0, 0, 0⟩]) = some k2 ∧ (k2.deref 0).state = 0 :=
  let ⟨_, k2, _, _, h3, h4⟩ :=
    quiet_samples_never_trigger ⟨[⟨⟨1, 0, 0, ⟨400, 400, 0, 4⟩⟩, false⟩], [0], 1, []⟩ rfl
      [⟨0, 0, 0⟩, ⟨100, 0, 0⟩] ⟨0, 0, 0⟩ (by decide)
      (by simp [quiet, NOISE])
  ⟨k2, h3, (h4 0 (by decide) (by decide) (by decide)).1⟩

end Accel
